import Mathlib

/-!
# Stale-branch cleanup: the eligibility engine, the collector and the rate guard

A model of `cmd/cleanup-stale-branches-action` (`main.go`, `github.go`) and proofs of the
properties its specification states.

Modelling choices, used throughout:

* a Go string is the list of its Unicode code points (the strings are valid UTF-8 text);
* `regexp` is modelled on the fragment of its syntax that `contains` can produce;
* a `float64` is the rational number it denotes, every operation rounding to the nearest value
  with a 53-bit significand (ties to even);
* the remote is the `GitHubAPI` interface; its read operations answer from one state of the
  repository, and the clock is read once per run;
* every function returns, with its Go results, the calls it made on the interface;
* a call that trips the Rate Guard ends the process: the wrapper of `github.go` is modelled on
  its own, and the collector is modelled for the calls that return.
-/

namespace CleanupStaleBranches

/-- A Go string, read as the sequence of its Unicode code points (valid UTF-8 text). -/
abbrev Str := List Char

/-- An error value, identified by its message. -/
abbrev Err := Str

/-! ## Library functions used by the pattern matcher (`strings`, `regexp`) -/

/-- Library function `strings.HasPrefix(s, prefix)`. -/
def HasPrefix (s pre : Str) : Bool := pre.isPrefixOf s

/-- Scan of `strings.ReplaceAll` for a non-empty `old`: `skip` counts the characters of an
occurrence of `old` that are still to be dropped. Occurrences are found left to right and do not
overlap. -/
def replaceScan (old new : Str) : Nat → Str → Str
  | _, [] => []
  | skip + 1, _ :: cs => replaceScan old new skip cs
  | 0, c :: cs =>
    if old.isPrefixOf (c :: cs) then new ++ replaceScan old new (old.length - 1) cs
    else c :: replaceScan old new 0 cs

/-- Library function `strings.ReplaceAll(s, old, new)`. An empty `old` matches before every character and at the
end of the string. -/
def ReplaceAll (s old new : Str) : Str :=
  if old = [] then new ++ s.flatMap (fun c => c :: new) else replaceScan old new 0 s

/-- The bytes `regexp.QuoteMeta` escapes. -/
def special (b : Char) : Bool :=
  ['\\', '.', '+', '*', '?', '(', ')', '|', '[', ']', '\x7b', '\x7d', '^', '$'].elem b

/-- Library function `regexp.QuoteMeta(s)`: a backslash is put before every special character. -/
def QuoteMeta : Str → Str
  | [] => []
  | b :: s => if special b then '\\' :: b :: QuoteMeta s else b :: QuoteMeta s

/-- A one-character matcher of the compiled expression. -/
inductive CharClass where
  | Literal (c : Char)
  | AnyCharNotNL
  deriving DecidableEq, Repr

/-- The pieces of a compiled expression, in the fragment of the RE2 syntax that `contains` can
produce: text anchors, a single character, and a starred single character. -/
inductive Inst where
  | BeginText
  | EndText
  | One (cc : CharClass)
  | Star (cc : CharClass)
  deriving DecidableEq, Repr

/-- Parser state: whether the previous character was an unconsumed backslash, and the pieces read
so far, last one first. -/
structure ParseState where
  esc : Bool
  out : List Inst
  deriving DecidableEq, Repr

/-- Letters and digits of ASCII: after a backslash they are not plain escapes. -/
def isalnum (c : Char) : Bool :=
  ('0' ≤ c && c ≤ '9') || ('A' ≤ c && c ≤ 'Z') || ('a' ≤ c && c ≤ 'z')

/-- One step of the parser (`regexp/syntax`, Perl flags). `none` stands for a pattern that is not
compiled: a syntax error (a trailing backslash, a `*` with nothing to repeat, a doubled `*`), or
syntax outside the modelled fragment (groups, classes, `+`, `?`, counted repetition, letter
escapes, a starred anchor). -/
def parseStep (st : ParseState) (c : Char) : Option ParseState :=
  if st.esc then
    if c.toNat < 128 && !isalnum c then some ⟨false, Inst.One (CharClass.Literal c) :: st.out⟩
    else none
  else if c = '\\' then some ⟨true, st.out⟩
  else if c = '*' then
    match st.out with
    | Inst.One cc :: out => some ⟨false, Inst.Star cc :: out⟩
    | _ => none
  else if c = '.' then some ⟨false, Inst.One CharClass.AnyCharNotNL :: st.out⟩
  else if c = '^' then some ⟨false, Inst.BeginText :: st.out⟩
  else if c = '$' then some ⟨false, Inst.EndText :: st.out⟩
  else if ['+', '?', '(', ')', '|', '[', ']', '\x7b', '\x7d'].elem c then none
  else some ⟨false, Inst.One (CharClass.Literal c) :: st.out⟩

/-- The parser run over the pattern, left to right. -/
def parseLoop : ParseState → Str → Option ParseState
  | st, [] => some st
  | st, c :: cs =>
    match parseStep st c with
    | none => none
    | some st' => parseLoop st' cs

/-- Library function `regexp.Compile`, on the modelled fragment. -/
def Compile (expr : Str) : Option (List Inst) :=
  match parseLoop ⟨false, []⟩ expr with
  | none => none
  | some st => if st.esc then none else some st.out.reverse

/-- Whether the class accepts the character. `.` does not match a line feed: the expression is
compiled without the `s` flag. -/
def CharClass.accepts : CharClass → Char → Bool
  | CharClass.Literal c, x => x == c
  | CharClass.AnyCharNotNL, x => x != '\n'

/-- The characters a starred class may consume after the first one, `k` being the rest of the
expression. -/
def starTail (cc : CharClass) (k : Str → Bool) : Str → Bool
  | [] => false
  | c :: s => cc.accepts c && (k s || starTail cc k s)

/-- Whether the expression matches a prefix of the input, the input being what is left of the
text; `atStart` tells that nothing of the text was consumed before. -/
def matchHere : List Inst → Bool → Str → Bool
  | [] => fun _ _ => true
  | i :: rest => fun atStart s =>
    match i with
    | Inst.BeginText => atStart && matchHere rest atStart s
    | Inst.EndText => s.isEmpty && matchHere rest atStart s
    | Inst.One cc =>
      match s with
      | [] => false
      | c :: s' => cc.accepts c && matchHere rest false s'
    | Inst.Star cc => matchHere rest atStart s || starTail cc (matchHere rest false) s

/-- Unanchored search: the expression is tried at every position of the text. -/
def searchFrom (prog : List Inst) : Bool → Str → Bool
  | atStart, [] => matchHere prog atStart []
  | atStart, c :: s => matchHere prog atStart (c :: s) || searchFrom prog false s

/-- Library function `regexp.MatchString(pattern, s)`: whether `s` contains a match of `pattern`, and the
compilation error if there is one. -/
def MatchString (pattern s : Str) : Bool × Option Err :=
  match Compile pattern with
  | none => (false, some "error parsing regexp".toList)
  | some prog => (searchFrom prog true s, none)

/-! ## Pattern matcher of the repository -/

/-- Function `contains(slice, item)`. -/
def contains : List Str → Str → Bool
  | [], _ => false
  | pattern :: slice, item =>
    let regexPattern := '^' :: QuoteMeta pattern
    let regexPattern := ReplaceAll regexPattern "\\*".toList ".*".toList ++ "$".toList
    let matched := (MatchString regexPattern item).1
    if matched then true else contains slice item

/-- The `range` loop of `startsWith`. -/
def startsWith.loop : List Str → Str → Bool
  | [], _ => false
  | pre :: prefixes, str => if HasPrefix str pre then true else startsWith.loop prefixes str

/-- Function `startsWith(prefixes, str)`. -/
def startsWith (prefixes : List Str) (str : Str) : Bool :=
  if prefixes.length = 0 then false else startsWith.loop prefixes str

/-- Glob matching as the specification words it: the pattern matches the whole string, every
character other than `*` matches itself, and `*` matches zero or more characters that satisfy
`wild`. -/
inductive GlobMatches (wild : Char → Prop) : Str → Str → Prop where
  | done : GlobMatches wild [] []
  | char (c : Char) (p s : Str) : c ≠ '*' → GlobMatches wild p s → GlobMatches wild (c :: p) (c :: s)
  | skip (p s : Str) : GlobMatches wild p s → GlobMatches wild ('*' :: p) s
  | more (c : Char) (p s : Str) :
      wild c → GlobMatches wild ('*' :: p) s → GlobMatches wild ('*' :: p) (c :: s)

/-- The expression text that `contains` builds for one character of the pattern. -/
def encodeChar (c : Char) : Str :=
  if c = '*' then ['.', '*'] else if special c then ['\\', c] else [c]

/-- The compiled piece for one character of the pattern. -/
def globInst (c : Char) : Inst :=
  if c = '*' then Inst.Star CharClass.AnyCharNotNL else Inst.One (CharClass.Literal c)

/-! ## Clock, durations and `float64` -/

/-- Library function `time.Hour`; a `time.Duration` is a signed 64-bit count of nanoseconds. -/
def Hour : ℤ := 3600000000000

/-- Largest `time.Duration`. -/
def maxDuration : ℤ := 9223372036854775807

/-- Smallest `time.Duration`. -/
def minDuration : ℤ := -9223372036854775808

/-- Library method `t.Sub(u)` for two instants (`time.Time`) counted in nanoseconds: the difference, saturated
to the range of `time.Duration`. -/
def Sub (t u : ℤ) : ℤ :=
  if maxDuration < t - u then maxDuration else if t - u < minDuration then minDuration else t - u

/-- Library function `time.Since(t)`, the clock reading being `now`. -/
def Since (now t : ℤ) : ℤ := Sub now t

/-- Two's-complement wrap of an integer into the range of `int` (64 bits). -/
def wrapInt64 (z : ℤ) : ℤ :=
  (z + 9223372036854775808) % 18446744073709551616 - 9223372036854775808

/-- Rounding to the nearest integer, ties to the even one. -/
def roundHalfEven (q : ℚ) : ℤ :=
  if q - ⌊q⌋ < 1 / 2 then ⌊q⌋
  else if 1 / 2 < q - ⌊q⌋ then ⌊q⌋ + 1
  else if ⌊q⌋ % 2 = 0 then ⌊q⌋ else ⌊q⌋ + 1

/-- Rounding of a non-negative rational to the nearest `float64` (53-bit significand, ties to
even), in the normal range of the format. -/
def roundMag (q : ℚ) : ℚ :=
  if q = 0 then 0
  else roundHalfEven (q / 2 ^ (Int.log 2 q - 52)) * 2 ^ (Int.log 2 q - 52)

/-- Rounding of a rational to the nearest `float64`; the value of a `float64` is kept as the
rational it denotes. -/
def roundF64 (q : ℚ) : ℚ := if q < 0 then -roundMag (-q) else roundMag q

/-- Conversion `float64(z)` of an integer. -/
def f64OfInt (z : ℤ) : ℚ := roundF64 z

/-- Addition of two `float64`. -/
def f64Add (a b : ℚ) : ℚ := roundF64 (a + b)

/-- Division of two `float64`. -/
def f64Div (a b : ℚ) : ℚ := roundF64 (a / b)

/-- Library method `d.Hours()`: `float64(d / Hour) + float64(d % Hour) / (60*60*1e9)`, the integer division
truncating toward zero. -/
def Hours (d : ℤ) : ℚ :=
  f64Add (f64OfInt (d.tdiv Hour)) (f64Div (f64OfInt (d.tmod Hour)) (f64OfInt 3600000000000))

/-- The age test of `getDeletableBranches`:
`time.Since(commitDate).Hours() < float64(args.LastCommitAgeDays*24)`. -/
def lastCommitIsNewer (now commitDate : ℤ) (LastCommitAgeDays : ℤ) : Bool :=
  decide (Hours (Since now commitDate) < f64OfInt (wrapInt64 (LastCommitAgeDays * 24)))

/-! ## Library: `strings.Split` -/

/-- Put a character in front of the first piece. -/
def consHead (c : Char) : List Str → List Str
  | [] => [[c]]
  | x :: xs => (c :: x) :: xs

/-- Scan of `strings.Split` for a non-empty separator: `skip` counts the characters of an
occurrence of the separator that are still to be dropped. -/
def splitScan (sep : Str) : Nat → Str → List Str
  | _, [] => [[]]
  | skip + 1, _ :: cs => splitScan sep skip cs
  | 0, c :: cs =>
    if sep.isPrefixOf (c :: cs) then [] :: splitScan sep (sep.length - 1) cs
    else consHead c (splitScan sep 0 cs)

/-- Library function `strings.Split(s, sep)`. With an empty separator the string is cut after every character. -/
def Split (s sep : Str) : List Str :=
  if sep = [] then s.map (fun c => [c]) else splitScan sep 0 s

/-- Library function `strings.Join(elems, sep)`. -/
def Join : List Str → Str → Str
  | [], _ => []
  | [x], _ => x
  | x :: y :: rest, sep => x ++ sep ++ Join (y :: rest) sep

/-! ## Command line -/

/-- The global `args`. `LastCommitAgeDays` is an `int`. -/
structure Args where
  AllowedPrefixes : Str
  DryRun : Bool
  GithubRepo : Str
  GithubToken : Str
  IgnoreBranches : Str
  IgnoredPrefixes : Str
  LastCommitAgeDays : ℤ
  RateLimit : Bool
  GitHubEnterpriseUrl : Str

/-- Function `isValidRepoNameFormat(repoName)`. -/
def isValidRepoNameFormat (repoName : Str) : Bool :=
  let parts := Split repoName ['/']
  match parts with
  | [owner, repository] => owner != [] && repository != []
  | _ => false

/-- Function `isValidRepoFormat(repoName)`; the message it prints is left out. -/
def isValidRepoFormat (repoName : Str) : Bool :=
  if !isValidRepoNameFormat repoName then false else true

/-- Function `parseRepoOwner(repoName)`: `parts[0]`. -/
def parseRepoOwner (repoName : Str) : Str :=
  let parts := Split repoName ['/']
  parts.headD []

/-- Function `parseRepoName(repoName)`. -/
def parseRepoName (repoName : Str) : Str :=
  let parts := Split repoName ['/']
  if parts.length > 1 then parts.getD 1 [] else repoName

/-- Function `splitNonEmpty(input)`. -/
def splitNonEmpty (input : Str) : List Str :=
  if input = [] then [] else Split input [',']

/-! ## The remote service, as the `GitHubAPI` interface shows it -/

/-- Outcome of a remote call: the values, or the error. -/
inductive Result (α : Type) where
  | ok (val : α)
  | err (e : Err)
  deriving DecidableEq, Repr

/-- Type `github.Branch`, by its getters `GetName` and `GetProtected`. -/
structure Branch where
  Name : Str
  Protected : Bool
  deriving DecidableEq, Repr

/-- Type `github.PullRequest`, by `pr.Head.GetRef()`. -/
structure PullRequest where
  HeadRef : Str
  deriving DecidableEq, Repr

/-- Type `github.RepositoryCommit`, by `GetCommit().GetCommitter().GetDate()`: the committer date as an
instant in nanoseconds (the zero time when the commit has none). -/
structure RepositoryCommit where
  Date : ℤ
  deriving DecidableEq, Repr

/-- Type `github.Repository`, by `GetDefaultBranch`. -/
structure Repository where
  DefaultBranch : Str
  deriving DecidableEq, Repr

/-- Type `github.Response`, by its `NextPage`. -/
structure Response where
  NextPage : ℤ
  deriving DecidableEq, Repr

/-- Type `github.Rate`. -/
structure Rate where
  Limit : ℤ
  Remaining : ℤ
  deriving DecidableEq, Repr

/-- Type `github.RateLimits`, by its `Core` class. -/
structure RateLimits where
  Core : Rate
  deriving DecidableEq, Repr

/-- Type `github.BranchListOptions`: the fields the program sets. -/
structure BranchListOptions where
  Page : ℤ
  PerPage : ℤ
  deriving DecidableEq, Repr

/-- Type `github.CommitsListOptions`: the fields the program sets. -/
structure CommitsListOptions where
  SHA : Str
  Page : ℤ
  PerPage : ℤ
  deriving DecidableEq, Repr

/-- Type `github.PullRequestListOptions`: the fields the program sets. -/
structure PullRequestListOptions where
  State : Str
  Base : Str
  Page : ℤ
  PerPage : ℤ
  deriving DecidableEq, Repr

/-- A request sent to the remote service. -/
inductive Call where
  | ListBranches (owner repo : Str) (opts : BranchListOptions)
  | ListCommits (owner repo : Str) (opts : CommitsListOptions)
  | GetRepository (owner repo : Str)
  | ListPullRequests (owner repo : Str) (opts : PullRequestListOptions)
  | DeleteRef (owner repo ref : Str)
  | RateLimits
  deriving DecidableEq, Repr

/-- The interface `GitHubAPI`. The read operations answer from one state of the repository, so
their answer is a function of the request. `DeleteRef` changes the repository: its answer may
depend on `deleted`, the references this run has deleted so far; `none` is a `nil` error. -/
structure GitHubAPI where
  ListBranches : Str → Str → BranchListOptions → Result (List Branch × Response)
  ListCommits : Str → Str → CommitsListOptions → Result (List RepositoryCommit × Response)
  GetRepository : Str → Str → Result (Repository × Response)
  ListPullRequests : Str → Str → PullRequestListOptions → Result (List PullRequest × Response)
  DeleteRef : (deleted : List Str) → Str → Str → Str → Option Err
  RateLimits : Result (RateLimits × Response)

/-- Type `GitHubClientWrapper`. -/
structure GitHubClientWrapper where
  client : GitHubAPI
  owner : Str
  repo : Str

/-! ## The collector and the deletion executor (`main.go`)

Every function returns its Go results together with the list of the calls it made on the
interface, in order. The two pagination loops follow `NextPage` for as long as the remote gives
one; they take `fuel`, the number of pages they may fetch, and answer `none` when it runs out. -/

/-- Function `getDefaultBranch`. -/
def getDefaultBranch (g : GitHubClientWrapper) : Result Str × List Call :=
  match g.client.GetRepository g.owner g.repo with
  | Result.err e => (Result.err e, [Call.GetRepository g.owner g.repo])
  | Result.ok (repo, _) => (Result.ok repo.DefaultBranch, [Call.GetRepository g.owner g.repo])

/-- Function `getLatestCommitDate`. -/
def getLatestCommitDate (g : GitHubClientWrapper) (branchName : Str) : Result ℤ × List Call :=
  let commitOpts : CommitsListOptions := ⟨branchName, 0, 1⟩
  match g.client.ListCommits g.owner g.repo commitOpts with
  | Result.err e => (Result.err e, [Call.ListCommits g.owner g.repo commitOpts])
  | Result.ok (commits, _) =>
    match commits with
    | [] =>
      (Result.err ("no commits found in branch ".toList ++ branchName),
        [Call.ListCommits g.owner g.repo commitOpts])
    | lastCommit :: _ => (Result.ok lastCommit.Date, [Call.ListCommits g.owner g.repo commitOpts])

/-- Function `isPullRequestBase`. -/
def isPullRequestBase (g : GitHubClientWrapper) (branchName : Str) : Result Bool × List Call :=
  let opts : PullRequestListOptions := ⟨"open".toList, branchName, 0, 0⟩
  match g.client.ListPullRequests g.owner g.repo opts with
  | Result.err e => (Result.err e, [Call.ListPullRequests g.owner g.repo opts])
  | Result.ok (pulls, _) =>
    (Result.ok (decide (pulls.length > 0)), [Call.ListPullRequests g.owner g.repo opts])

/-- Function `isBranchInOpenPullRequests`. -/
def isBranchInOpenPullRequests (branchName : Str) : List PullRequest → Bool
  | [] => false
  | pr :: pullRequests =>
    if pr.HeadRef = branchName then true else isBranchInOpenPullRequests branchName pullRequests

/-- The `for` loop of `getAllOpenPullRequests`. -/
def getAllOpenPullRequests.loop (g : GitHubClientWrapper) :
    Nat → PullRequestListOptions → List PullRequest →
      Option (Result (List PullRequest) × List Call)
  | 0, _, _ => none
  | fuel + 1, opts, allPullRequests =>
    match g.client.ListPullRequests g.owner g.repo opts with
    | Result.err e => some (Result.err e, [Call.ListPullRequests g.owner g.repo opts])
    | Result.ok (pullRequests, resp) =>
      if resp.NextPage = 0 then
        some (Result.ok (allPullRequests ++ pullRequests),
          [Call.ListPullRequests g.owner g.repo opts])
      else
        match getAllOpenPullRequests.loop g fuel { opts with Page := resp.NextPage }
            (allPullRequests ++ pullRequests) with
        | none => none
        | some r => some (r.1, Call.ListPullRequests g.owner g.repo opts :: r.2)

/-- Function `getAllOpenPullRequests`. -/
def getAllOpenPullRequests (fuel : Nat) (g : GitHubClientWrapper) :
    Option (Result (List PullRequest) × List Call) :=
  getAllOpenPullRequests.loop g fuel ⟨"open".toList, [], 0, 100⟩ []

/-- What `getDeletableBranches` has computed before its loops: the default branch, the open pull
requests and the three lists read from `args`. -/
structure Policy where
  defaultBranch : Str
  openPullRequests : List PullRequest
  ignoreBranches : List Str
  allowedPrefixes : List Str
  ignoredPrefixes : List Str

/-- Body of the loop over the branches of one page, for one branch: whether the name is appended
to `deletableBranches` (every `continue` answers `false`), and the calls made. `now` is the clock
reading of the run. -/
def getDeletableBranches.visit (g : GitHubClientWrapper) (args : Args) (now : ℤ) (p : Policy)
    (branch : Branch) : Bool × List Call :=
  let branchName := branch.Name
  if branchName = p.defaultBranch then (false, [])
  else if branch.Protected then (false, [])
  else if contains p.ignoreBranches branchName then (false, [])
  else if decide (p.allowedPrefixes.length > 0) && !startsWith p.allowedPrefixes branchName then
    (false, [])
  else if decide (p.ignoredPrefixes.length > 0) && startsWith p.ignoredPrefixes branchName then
    (false, [])
  else
    match getLatestCommitDate g branchName with
    | (Result.err _, c1) => (false, c1)
    | (Result.ok commitDate, c1) =>
      if lastCommitIsNewer now commitDate args.LastCommitAgeDays then (false, c1)
      else if isBranchInOpenPullRequests branchName p.openPullRequests then (false, c1)
      else
        match isPullRequestBase g branchName with
        | (Result.err _, c2) => (false, c1 ++ c2)
        | (Result.ok basePulls, c2) =>
          if basePulls then (false, c1 ++ c2) else (true, c1 ++ c2)

/-- The loop over the branches of one page. -/
def getDeletableBranches.range (g : GitHubClientWrapper) (args : Args) (now : ℤ) (p : Policy) :
    List Branch → List Str → List Str × List Call
  | [], deletableBranches => (deletableBranches, [])
  | branch :: branches, deletableBranches =>
    let v := getDeletableBranches.visit g args now p branch
    let r := getDeletableBranches.range g args now p branches
      (if v.1 then deletableBranches ++ [branch.Name] else deletableBranches)
    (r.1, v.2 ++ r.2)

/-- The loop over the pages of branches. -/
def getDeletableBranches.pages (g : GitHubClientWrapper) (args : Args) (now : ℤ) (p : Policy) :
    Nat → BranchListOptions → List Str → Option (List Str × List Call)
  | 0, _, _ => none
  | fuel + 1, opts, deletableBranches =>
    match g.client.ListBranches g.owner g.repo opts with
    | Result.err _ => some (deletableBranches, [Call.ListBranches g.owner g.repo opts])
    | Result.ok (branches, resp) =>
      let r := getDeletableBranches.range g args now p branches deletableBranches
      if resp.NextPage = 0 then some (r.1, Call.ListBranches g.owner g.repo opts :: r.2)
      else
        match getDeletableBranches.pages g args now p fuel { opts with Page := resp.NextPage }
            r.1 with
        | none => none
        | some q => some (q.1, Call.ListBranches g.owner g.repo opts :: (r.2 ++ q.2))

/-- Function `getDeletableBranches`: the list, the error (`none` for `nil`) and the calls made. -/
def getDeletableBranches (fuel : Nat) (g : GitHubClientWrapper) (args : Args) (now : ℤ) :
    Option ((List Str × Option Err) × List Call) :=
  match getDefaultBranch g with
  | (Result.err e, c0) => some (([], some e), c0)
  | (Result.ok defaultBranch, c0) =>
    match getAllOpenPullRequests fuel g with
    | none => none
    | some (Result.err e, c1) => some (([], some e), c0 ++ c1)
    | some (Result.ok openPullRequests, c1) =>
      let p : Policy := ⟨defaultBranch, openPullRequests, splitNonEmpty args.IgnoreBranches,
        splitNonEmpty args.AllowedPrefixes, splitNonEmpty args.IgnoredPrefixes⟩
      match getDeletableBranches.pages g args now p fuel ⟨0, 100⟩ [] with
      | none => none
      | some r => some ((r.1, none), c0 ++ c1 ++ r.2)

/-- Function `deleteBranches`: the error, the references deleted when it returns (`deleted` holding those
deleted before), and the calls made. -/
def deleteBranches (g : GitHubClientWrapper) :
    List Str → List Str → (Option Err × List Str) × List Call
  | [], deleted => ((none, deleted), [])
  | branch :: branches, deleted =>
    match g.client.DeleteRef deleted g.owner g.repo ("refs/heads/".toList ++ branch) with
    | some e => ((some e, deleted), [Call.DeleteRef g.owner g.repo ("refs/heads/".toList ++ branch)])
    | none =>
      let r := deleteBranches g branches (deleted ++ ["refs/heads/".toList ++ branch])
      (r.1, Call.DeleteRef g.owner g.repo ("refs/heads/".toList ++ branch) :: r.2)

/-- Function `main`, from the parsed `args` and the client built for them: the exit status and the calls
made. -/
def main (fuel : Nat) (args : Args) (client : GitHubAPI) (now : ℤ) : Option (ℤ × List Call) :=
  if !isValidRepoFormat args.GithubRepo then some (1, [])
  else
    let githubClient : GitHubClientWrapper :=
      ⟨client, parseRepoOwner args.GithubRepo, parseRepoName args.GithubRepo⟩
    match getDeletableBranches fuel githubClient args now with
    | none => none
    | some ((_, some _), c) => some (1, c)
    | some ((deletableBranches, none), c) =>
      if args.DryRun then some (0, c)
      else
        match deleteBranches githubClient deletableBranches [] with
        | ((some _, _), d) => some (1, c ++ d)
        | ((none, _), d) => some (0, c ++ d)

/-! ## The Rate Guard (`github.go`) -/

/-- The `github.Client` behind the wrapper. The quota changes from call to call: the answer of
`RateLimitGet` may depend on `issued`, the requests sent before. -/
structure Client where
  RepositoriesListBranches : Str → Str → BranchListOptions → Result (List Branch × Response)
  RepositoriesListCommits :
    Str → Str → CommitsListOptions → Result (List RepositoryCommit × Response)
  RepositoriesGet : Str → Str → Result (Repository × Response)
  PullRequestsList : Str → Str → PullRequestListOptions → Result (List PullRequest × Response)
  GitDeleteRef : Str → Str → Str → Option Err
  RateLimitGet : (issued : List Call) → Result (RateLimits × Response)

/-- The struct `gitHubAPI`. -/
structure gitHubAPI where
  client : Client
  rateLimitCheckEnabled : Bool

/-- What a wrapped call does to the process: it ends it with an exit status, or returns. -/
inductive Outcome (α : Type) where
  | exit (status : ℤ)
  | ret (val : α)
  deriving DecidableEq, Repr

/-- The comparison `float64(remaining)/float64(limit) <= 0.05`. A division by zero gives an
infinity or a NaN: only the negative infinity is at most `0.05`. -/
def ratioAtMostThreshold (remaining limit : ℤ) : Bool :=
  if limit = 0 then decide (remaining < 0)
  else decide (f64Div (f64OfInt remaining) (f64OfInt limit) ≤ roundF64 (1 / 20))

/-- Function `isRateLimitExceeded`, from the answer of the status fetch. -/
def isRateLimitExceeded (status : Result (RateLimits × Response)) : Bool :=
  match status with
  | Result.err _ => false
  | Result.ok (rateLimitStatus, _) =>
    ratioAtMostThreshold rateLimitStatus.Core.Remaining rateLimitStatus.Core.Limit

/-- The test `g.rateLimitCheckEnabled && g.isRateLimitExceeded(ctx)` that opens every method:
whether it trips, and the requests sent when it is over. The status is fetched only when the
check is enabled. -/
def gitHubAPI.guard (g : gitHubAPI) (issued : List Call) : Bool × List Call :=
  if g.rateLimitCheckEnabled then
    (isRateLimitExceeded (g.client.RateLimitGet issued), issued ++ [Call.RateLimits])
  else (false, issued)

/-- Method `ListBranches` of `gitHubAPI`. -/
def gitHubAPI.ListBranches (g : gitHubAPI) (owner repo : Str) (opts : BranchListOptions)
    (issued : List Call) : Outcome (Result (List Branch × Response)) × List Call :=
  if (g.guard issued).1 then (Outcome.exit 0, (g.guard issued).2)
  else (Outcome.ret (g.client.RepositoriesListBranches owner repo opts),
    (g.guard issued).2 ++ [Call.ListBranches owner repo opts])

/-- Method `ListCommits` of `gitHubAPI`. -/
def gitHubAPI.ListCommits (g : gitHubAPI) (owner repo : Str) (opts : CommitsListOptions)
    (issued : List Call) : Outcome (Result (List RepositoryCommit × Response)) × List Call :=
  if (g.guard issued).1 then (Outcome.exit 0, (g.guard issued).2)
  else (Outcome.ret (g.client.RepositoriesListCommits owner repo opts),
    (g.guard issued).2 ++ [Call.ListCommits owner repo opts])

/-- Method `GetRepository` of `gitHubAPI`. -/
def gitHubAPI.GetRepository (g : gitHubAPI) (owner repo : Str) (issued : List Call) :
    Outcome (Result (Repository × Response)) × List Call :=
  if (g.guard issued).1 then (Outcome.exit 0, (g.guard issued).2)
  else (Outcome.ret (g.client.RepositoriesGet owner repo),
    (g.guard issued).2 ++ [Call.GetRepository owner repo])

/-- Method `ListPullRequests` of `gitHubAPI`. -/
def gitHubAPI.ListPullRequests (g : gitHubAPI) (owner repo : Str)
    (opts : PullRequestListOptions) (issued : List Call) :
    Outcome (Result (List PullRequest × Response)) × List Call :=
  if (g.guard issued).1 then (Outcome.exit 0, (g.guard issued).2)
  else (Outcome.ret (g.client.PullRequestsList owner repo opts),
    (g.guard issued).2 ++ [Call.ListPullRequests owner repo opts])

/-- Method `DeleteRef` of `gitHubAPI`. -/
def gitHubAPI.DeleteRef (g : gitHubAPI) (owner repo ref : Str) (issued : List Call) :
    Outcome (Option Err) × List Call :=
  if (g.guard issued).1 then (Outcome.exit 0, (g.guard issued).2)
  else (Outcome.ret (g.client.GitDeleteRef owner repo ref),
    (g.guard issued).2 ++ [Call.DeleteRef owner repo ref])

/-- Method `RateLimits` of `gitHubAPI`. -/
def gitHubAPI.RateLimits (g : gitHubAPI) (issued : List Call) :
    Outcome (Result (RateLimits × Response)) × List Call :=
  if (g.guard issued).1 then (Outcome.exit 0, (g.guard issued).2)
  else (Outcome.ret (g.client.RateLimitGet (g.guard issued).2),
    (g.guard issued).2 ++ [Call.RateLimits])

/-- What a wrapped call returns, whichever method it is. -/
inductive Reply where
  | branches (r : Result (List Branch × Response))
  | commits (r : Result (List RepositoryCommit × Response))
  | repository (r : Result (Repository × Response))
  | pulls (r : Result (List PullRequest × Response))
  | deleted (r : Option Err)
  | rate (r : Result (RateLimits × Response))

/-- A call on the wrapper by its request, the six methods in one. -/
def gitHubAPI.call (g : gitHubAPI) (c : Call) (issued : List Call) : Outcome Reply × List Call :=
  match c with
  | Call.ListBranches owner repo opts =>
    match g.ListBranches owner repo opts issued with
    | (Outcome.exit s, t) => (Outcome.exit s, t)
    | (Outcome.ret r, t) => (Outcome.ret (Reply.branches r), t)
  | Call.ListCommits owner repo opts =>
    match g.ListCommits owner repo opts issued with
    | (Outcome.exit s, t) => (Outcome.exit s, t)
    | (Outcome.ret r, t) => (Outcome.ret (Reply.commits r), t)
  | Call.GetRepository owner repo =>
    match g.GetRepository owner repo issued with
    | (Outcome.exit s, t) => (Outcome.exit s, t)
    | (Outcome.ret r, t) => (Outcome.ret (Reply.repository r), t)
  | Call.ListPullRequests owner repo opts =>
    match g.ListPullRequests owner repo opts issued with
    | (Outcome.exit s, t) => (Outcome.exit s, t)
    | (Outcome.ret r, t) => (Outcome.ret (Reply.pulls r), t)
  | Call.DeleteRef owner repo ref =>
    match g.DeleteRef owner repo ref issued with
    | (Outcome.exit s, t) => (Outcome.exit s, t)
    | (Outcome.ret r, t) => (Outcome.ret (Reply.deleted r), t)
  | Call.RateLimits =>
    match g.RateLimits issued with
    | (Outcome.exit s, t) => (Outcome.exit s, t)
    | (Outcome.ret r, t) => (Outcome.ret (Reply.rate r), t)

/-- A caller of the wrapper: it stops, or makes a call and goes on from what the call returned. -/
inductive Process where
  | done
  | call (c : Call) (next : Reply → Process)

/-- The run of a caller on the wrapper: the exit status when a call ended the process (`none`
when the caller came to its end), and the requests sent. -/
def gitHubAPI.exec (g : gitHubAPI) : Process → List Call → Option ℤ × List Call
  | Process.done, issued => (none, issued)
  | Process.call c next, issued =>
    match g.call c issued with
    | (Outcome.exit s, t) => (some s, t)
    | (Outcome.ret r, t) => g.exec (next r) t

/-! ## Specification-side definitions -/

/-- Names appended for a list of branches, in order: those whose pass through the loop body ends
in the `append`. -/
def eligibleNames (g : GitHubClientWrapper) (args : Args) (now : ℤ) (p : Policy)
    (branches : List Branch) : List Str :=
  (branches.filter (fun b => (getDeletableBranches.visit g args now p b).1)).map Branch.Name

/-- Calls made for a list of branches, in order. -/
def visitCalls (g : GitHubClientWrapper) (args : Args) (now : ℤ) (p : Policy)
    (branches : List Branch) : List Call :=
  branches.flatMap (fun b => (getDeletableBranches.visit g args now p b).2)

/-- The remote serves the pages `pages` of branches one after the other, starting at page number
`page`, each answer naming a next page; `last` is the page number the last answer names (`page`
itself when `pages` is empty). -/
def ServesBranchPages (g : GitHubClientWrapper) :
    ℤ → List (List Branch × Response) → ℤ → Prop
  | page, [], last => page = last
  | page, (branches, resp) :: rest, last =>
    g.client.ListBranches g.owner g.repo ⟨page, 100⟩ = Result.ok (branches, resp) ∧
      resp.NextPage ≠ 0 ∧ ServesBranchPages g resp.NextPage rest last

/-- The same for the pages of open pull requests. -/
def ServesPullPages (g : GitHubClientWrapper) :
    ℤ → List (List PullRequest × Response) → ℤ → Prop
  | page, [], last => page = last
  | page, (pulls, resp) :: rest, last =>
    g.client.ListPullRequests g.owner g.repo ⟨"open".toList, [], page, 100⟩ =
        Result.ok (pulls, resp) ∧
      resp.NextPage ≠ 0 ∧ ServesPullPages g resp.NextPage rest last

/-- Calls of the collector over the pages `pages` served from page number `page`. -/
def pagesTrace (g : GitHubClientWrapper) (args : Args) (now : ℤ) (p : Policy) :
    ℤ → List (List Branch × Response) → List Call
  | _, [] => []
  | page, (branches, resp) :: rest =>
    Call.ListBranches g.owner g.repo ⟨page, 100⟩ ::
      (visitCalls g args now p branches ++ pagesTrace g args now p resp.NextPage rest)

/-- Page numbers asked for when `pages` are served from page number `page`. -/
def pageNumbers : ℤ → List (List Branch × Response) → List ℤ
  | page, [] => [page]
  | page, (_, resp) :: rest => page :: pageNumbers resp.NextPage rest

/-- The rules of the Eligibility Pipeline as the specification lists them, for one branch: not
the default branch, not protected, not matched by the ignore list, matching an allowed prefix
when there are allowed prefixes, matching no ignored prefix, having a latest commit whose age in
`float64` hours is not less than `float64(LastCommitAgeDays*24)` (the age rule as the program
computes it), not the head of an open pull request, and the query for open pull requests based
on it succeeding with an empty answer. -/
def passesEveryRule (g : GitHubClientWrapper) (args : Args) (now : ℤ) (defaultBranch : Str)
    (openPullRequests : List PullRequest) (b : Branch) : Bool :=
  decide (b.Name ≠ defaultBranch) &&
  !b.Protected &&
  !contains (splitNonEmpty args.IgnoreBranches) b.Name &&
  (decide (splitNonEmpty args.AllowedPrefixes = []) ||
    startsWith (splitNonEmpty args.AllowedPrefixes) b.Name) &&
  !startsWith (splitNonEmpty args.IgnoredPrefixes) b.Name &&
  (match g.client.ListCommits g.owner g.repo ⟨b.Name, 0, 1⟩ with
    | Result.ok (latest :: _, _) =>
      decide (f64OfInt (wrapInt64 (args.LastCommitAgeDays * 24)) ≤ Hours (Since now latest.Date))
    | _ => false) &&
  openPullRequests.all (fun pr => decide (pr.HeadRef ≠ b.Name)) &&
  (match g.client.ListPullRequests g.owner g.repo ⟨"open".toList, b.Name, 0, 0⟩ with
    | Result.ok ([], _) => true
    | _ => false)

/-- Names a call of `getDeletableBranches` returned; none when it did not return. -/
def returnedNames (r : Option ((List Str × Option Err) × List Call)) : List Str :=
  match r with
  | none => []
  | some x => x.1.1

/-- Whether a call is a `ListBranches`. -/
def Call.isListBranches : Call → Bool
  | Call.ListBranches _ _ _ => true
  | _ => false

/-- Whether a call is a `ListCommits`. -/
def Call.isListCommits : Call → Bool
  | Call.ListCommits _ _ _ => true
  | _ => false

/-- Whether a call is a `DeleteRef`. -/
def Call.isDeleteRef : Call → Bool
  | Call.DeleteRef _ _ _ => true
  | _ => false

/-- Whether a call is a `ListPullRequests` filtered by a base. -/
def Call.isBaseQuery : Call → Bool
  | Call.ListPullRequests _ _ opts => opts.Base != []
  | _ => false

/-- Calls a run made; none when it did not return. -/
def callsMade {α : Type} (r : Option (α × List Call)) : List Call :=
  match r with
  | none => []
  | some x => x.2

/-! ## A repository for the examples -/

/-- An example remote. Its branches come in two pages (page numbers 0 and 2); every commit is
dated at instant 0 but that of `release-new`, dated 40 days later; the commits of `release-gone`
cannot be listed; one pull request is open, from `release-hot` into `release-base`; the reference
of `release-v2` cannot be deleted. -/
def demoAPI : GitHubAPI where
  ListBranches := fun _ _ opts =>
    if opts.Page = 0 then
      Result.ok ([⟨"main".toList, false⟩, ⟨"release-v1".toList, false⟩,
        ⟨"release-hot".toList, false⟩, ⟨"release-base".toList, false⟩], ⟨2⟩)
    else if opts.Page = 2 then
      Result.ok ([⟨"release-new".toList, false⟩, ⟨"feature-x".toList, false⟩,
        ⟨"release-v2".toList, false⟩, ⟨"release-lts".toList, true⟩,
        ⟨"release-gone".toList, false⟩], ⟨0⟩)
    else Result.err "page not found".toList
  ListCommits := fun _ _ opts =>
    if opts.SHA = "release-new".toList then Result.ok ([⟨3456000000000000000⟩], ⟨0⟩)
    else if opts.SHA = "release-gone".toList then Result.err "not found".toList
    else Result.ok ([⟨0⟩], ⟨0⟩)
  GetRepository := fun _ _ => Result.ok (⟨"main".toList⟩, ⟨0⟩)
  ListPullRequests := fun _ _ opts =>
    if opts.Base = [] then Result.ok ([⟨"release-hot".toList⟩], ⟨0⟩)
    else if opts.Base = "release-base".toList then Result.ok ([⟨"release-hot".toList⟩], ⟨0⟩)
    else Result.ok ([], ⟨0⟩)
  DeleteRef := fun _ _ _ ref =>
    if ref = "refs/heads/release-v2".toList then some "reference is locked".toList else none
  RateLimits := Result.ok (⟨⟨5000, 4000⟩⟩, ⟨0⟩)

/-- The example remote, its second page of branches failing. -/
def flakyAPI : GitHubAPI :=
  { demoAPI with
    ListBranches := fun _ _ opts =>
      if opts.Page = 0 then
        Result.ok ([⟨"main".toList, false⟩, ⟨"release-v1".toList, false⟩,
          ⟨"release-hot".toList, false⟩, ⟨"release-base".toList, false⟩], ⟨2⟩)
      else Result.err "server error".toList }

/-- The wrapper on the example remote. -/
def demoClient : GitHubClientWrapper := ⟨demoAPI, "octo".toList, "repo".toList⟩

/-- The wrapper on the example remote with the failing page. -/
def flakyClient : GitHubClientWrapper := ⟨flakyAPI, "octo".toList, "repo".toList⟩

/-- Example arguments: allowed prefix `release-`, minimum age 30 days. -/
def demoArgs : Args :=
  ⟨"release-".toList, false, "octo/repo".toList, "token".toList, [], [], 30, false, []⟩

/-- The example arguments in dry-run mode. -/
def dryArgs : Args := { demoArgs with DryRun := true }

/-- Clock reading of the examples: 40 days after instant 0. -/
def demoNow : ℤ := 3456000000000000000

/-- The example remote, the repository fetch failing. -/
def brokenAPI : GitHubAPI :=
  { demoAPI with GetRepository := fun _ _ => Result.err "unauthorized".toList }

/-- The wrapper on the example remote whose repository fetch fails. -/
def brokenClient : GitHubClientWrapper := ⟨brokenAPI, "octo".toList, "repo".toList⟩

/-- The example remote, the second page of open pull requests failing. -/
def pullFailAPI : GitHubAPI :=
  { demoAPI with
    ListPullRequests := fun _ _ opts =>
      if opts.Page = 0 then Result.ok ([⟨"release-hot".toList⟩], ⟨3⟩)
      else Result.err "timeout".toList }

/-- The wrapper on the example remote whose second page of pull requests fails. -/
def pullFailClient : GitHubClientWrapper := ⟨pullFailAPI, "octo".toList, "repo".toList⟩

/-- An example `github.Client`: the quota is ample for the first request and nearly used up (3
left of 100) afterwards. -/
def demoRawClient : Client where
  RepositoriesListBranches := fun _ _ _ => Result.ok ([⟨"main".toList, false⟩], ⟨0⟩)
  RepositoriesListCommits := fun _ _ _ => Result.ok ([⟨0⟩], ⟨0⟩)
  RepositoriesGet := fun _ _ => Result.ok (⟨"main".toList⟩, ⟨0⟩)
  PullRequestsList := fun _ _ _ => Result.ok ([], ⟨0⟩)
  GitDeleteRef := fun _ _ _ => none
  RateLimitGet := fun issued =>
    if issued.length < 2 then Result.ok (⟨⟨5000, 4000⟩⟩, ⟨0⟩) else Result.ok (⟨⟨100, 3⟩⟩, ⟨0⟩)

/-- The example client behind the wrapper, the check enabled. -/
def demoGuarded : gitHubAPI := ⟨demoRawClient, true⟩

/-- An example caller: it fetches the repository, then deletes a reference. -/
def demoProcess : Process :=
  Process.call (Call.GetRepository "octo".toList "repo".toList)
    (fun _ => Process.call
      (Call.DeleteRef "octo".toList "repo".toList "refs/heads/release-v1".toList)
      (fun _ => Process.done))

/-- An example remote with one branch, `almost-stale`, whose latest commit is dated at instant
0; no pull request is open. -/
def youngAPI : GitHubAPI where
  ListBranches := fun _ _ _ => Result.ok ([⟨"almost-stale".toList, false⟩], ⟨0⟩)
  ListCommits := fun _ _ _ => Result.ok ([⟨0⟩], ⟨0⟩)
  GetRepository := fun _ _ => Result.ok (⟨"main".toList⟩, ⟨0⟩)
  ListPullRequests := fun _ _ _ => Result.ok ([], ⟨0⟩)
  DeleteRef := fun _ _ _ _ => none
  RateLimits := Result.ok (⟨⟨5000, 4000⟩⟩, ⟨0⟩)

/-- The wrapper on the remote with the one branch. -/
def youngClient : GitHubClientWrapper := ⟨youngAPI, "octo".toList, "repo".toList⟩

/-- Example arguments: no prefix, no ignore list, minimum age 400 days. -/
def youngArgs : Args :=
  ⟨[], false, "octo/repo".toList, "token".toList, [], [], 400, false, []⟩

/-- A clock reading one nanosecond short of 400 days after instant 0. -/
def youngNow : ℤ := 34559999999999999

/-! ## Pattern matcher: proofs -/
theorem special_iff (c : Char) :
    special c = true ↔ c ∈ ['\\', '.', '+', '*', '?', '(', ')', '|', '[', ']', '\x7b', '\x7d', '^', '$'] := by
  unfold special
  simp


theorem quoteMeta_head (p : Str) : ∀ t, QuoteMeta p ≠ '*' :: t := by
  intro t
  cases p with
  | nil => simp [QuoteMeta]
  | cons b s =>
    unfold QuoteMeta
    by_cases hb : special b = true
    · simp [hb]
    · have : b ≠ '*' := by
        intro h
        apply hb
        rw [h]
        decide
      simp [hb, this]

theorem replaceScan_quoteMeta (p : Str) :
    replaceScan ['\\', '*'] ['.', '*'] 0 (QuoteMeta p) = p.flatMap encodeChar := by
  induction p with
  | nil => simp [QuoteMeta, replaceScan]
  | cons b s ih =>
    unfold QuoteMeta
    by_cases hstar : b = '*'
    · subst hstar
      have hs : special '*' = true := by decide
      simp [hs, replaceScan, List.isPrefixOf, encodeChar, ih]
    · by_cases hb : special b = true
      · have h1 : List.isPrefixOf ['\\', '*'] ('\\' :: b :: QuoteMeta s) = false := by
          simp [List.isPrefixOf, hstar]
          intro h; exact absurd h.symm hstar
        have h2 : List.isPrefixOf ['\\', '*'] (b :: QuoteMeta s) = false := by
          cases hq : QuoteMeta s with
          | nil => simp [List.isPrefixOf]
          | cons x t =>
            have hx : x ≠ '*' := by
              intro hx
              exact quoteMeta_head s t (by rw [hq, hx])
            simp [List.isPrefixOf]
            intro _ h
            exact absurd h.symm hx
        simp only [hb, if_true]
        rw [replaceScan, if_neg (by simp [h1]), replaceScan, if_neg (by simp [h2]), ih]
        simp [encodeChar, hstar, hb]
      · have hbs : b ≠ '\\' := by
          intro h
          apply hb
          rw [h]
          decide
        have h2 : List.isPrefixOf ['\\', '*'] (b :: QuoteMeta s) = false := by
          simp [List.isPrefixOf]
          intro h
          exact absurd h.symm hbs
        simp only [hb]
        simp only [replaceScan, h2, ih]
        simp [encodeChar, hstar, hb]

theorem replaceAll_quoteMeta (p : Str) :
    ReplaceAll ('^' :: QuoteMeta p) "\\*".toList ".*".toList = '^' :: p.flatMap encodeChar := by
  have h1 : "\\*".toList = ['\\', '*'] := by decide
  have h2 : ".*".toList = ['.', '*'] := by decide
  rw [h1, h2]
  unfold ReplaceAll
  rw [if_neg (by simp), replaceScan, if_neg (by simp [List.isPrefixOf]), replaceScan_quoteMeta]

theorem parseStep_escaped (out : List Inst) (c : Char) (hc : special c = true) :
    parseStep ⟨true, out⟩ c = some ⟨false, Inst.One (CharClass.Literal c) :: out⟩ := by
  rw [special_iff] at hc
  simp only [List.mem_cons, List.mem_singleton, List.not_mem_nil, or_false] at hc
  rcases hc with h | h | h | h | h | h | h | h | h | h | h | h | h | h <;> subst h <;> rfl

theorem parseStep_plain (out : List Inst) (c : Char) (hc : special c = false) :
    parseStep ⟨false, out⟩ c = some ⟨false, Inst.One (CharClass.Literal c) :: out⟩ := by
  have hn : ¬ c ∈ ['\\', '.', '+', '*', '?', '(', ')', '|', '[', ']', '\x7b', '\x7d', '^', '$'] := by
    rw [← special_iff]; simp [hc]
  simp only [List.mem_cons, List.mem_singleton, List.not_mem_nil, or_false, not_or] at hn
  obtain ⟨h1, h2, h3, h4, h5, h6, h7, h8, h9, h10, h11, h12, h13, h14⟩ := hn
  unfold parseStep
  simp [h1, h2, h3, h4, h5, h6, h7, h8, h9, h10, h11, h12, h13, h14]

theorem parseLoop_encode (p : Str) : ∀ (out : List Inst) (rest : Str),
    parseLoop ⟨false, out⟩ (p.flatMap encodeChar ++ rest) =
      parseLoop ⟨false, (p.map globInst).reverse ++ out⟩ rest := by
  induction p with
  | nil => intro out rest; simp
  | cons c p ih =>
    intro out rest
    by_cases hstar : c = '*'
    · subst hstar
      have e : encodeChar '*' = ['.', '*'] := by decide
      have g : globInst '*' = Inst.Star CharClass.AnyCharNotNL := by decide
      simp only [List.flatMap_cons, e, List.cons_append, List.nil_append, List.map_cons, g,
        List.reverse_cons, List.append_assoc]
      have s1 : parseStep ⟨false, out⟩ '.' = some ⟨false, Inst.One CharClass.AnyCharNotNL :: out⟩ := rfl
      have s2 : parseStep ⟨false, Inst.One CharClass.AnyCharNotNL :: out⟩ '*' =
          some ⟨false, Inst.Star CharClass.AnyCharNotNL :: out⟩ := rfl
      rw [parseLoop, s1]
      simp only
      rw [parseLoop, s2]
      simp only
      rw [ih]
    · have g : globInst c = Inst.One (CharClass.Literal c) := by simp [globInst, hstar]
      by_cases hb : special c = true
      · have e : encodeChar c = ['\\', c] := by simp [encodeChar, hstar, hb]
        simp only [List.flatMap_cons, e, List.cons_append, List.nil_append, List.map_cons, g,
          List.reverse_cons, List.append_assoc]
        have s1 : parseStep ⟨false, out⟩ '\\' = some ⟨true, out⟩ := rfl
        rw [parseLoop, s1]
        simp only
        rw [parseLoop, parseStep_escaped out c hb]
        simp only
        rw [ih]
      · have hb' : special c = false := by simpa using hb
        have e : encodeChar c = [c] := by simp [encodeChar, hstar, hb']
        simp only [List.flatMap_cons, e, List.cons_append, List.nil_append, List.map_cons, g,
          List.reverse_cons, List.append_assoc]
        rw [parseLoop, parseStep_plain out c hb']
        simp only
        rw [ih]

theorem compile_glob (p : Str) :
    Compile ('^' :: p.flatMap encodeChar ++ "$".toList) =
      some (Inst.BeginText :: (p.map globInst ++ [Inst.EndText])) := by
  have hd : "$".toList = ['$'] := by decide
  have s1 : parseStep ⟨false, []⟩ '^' = some ⟨false, [Inst.BeginText]⟩ := rfl
  unfold Compile
  rw [hd, List.cons_append, parseLoop, s1]
  simp only
  rw [parseLoop_encode]
  have s2 : ∀ out, parseStep ⟨false, out⟩ '$' = some ⟨false, Inst.EndText :: out⟩ := fun _ => rfl
  rw [parseLoop, s2]
  simp [parseLoop]

theorem searchFrom_beginText_false (prog : List Inst) (s : Str) :
    searchFrom (Inst.BeginText :: prog) false s = false := by
  induction s with
  | nil => simp [searchFrom, matchHere]
  | cons c s ih => simp [searchFrom, matchHere, ih]

theorem searchFrom_beginText (prog : List Inst) (s : Str) :
    searchFrom (Inst.BeginText :: prog) true s = matchHere prog true s := by
  cases s with
  | nil => simp [searchFrom, matchHere]
  | cons c s => simp [searchFrom, matchHere, searchFrom_beginText_false]

theorem matchHere_star (cc : CharClass) (rest : List Inst) (atStart : Bool) (s : Str) :
    matchHere (Inst.Star cc :: rest) atStart s =
      (matchHere rest atStart s || starTail cc (matchHere rest false) s) := rfl

theorem matchHere_one_nil (cc : CharClass) (rest : List Inst) (atStart : Bool) :
    matchHere (Inst.One cc :: rest) atStart [] = false := rfl

theorem matchHere_one_cons (cc : CharClass) (rest : List Inst) (atStart : Bool) (c : Char)
    (s : Str) :
    matchHere (Inst.One cc :: rest) atStart (c :: s) = (cc.accepts c && matchHere rest false s) :=
  rfl

theorem starTail_glob (p : Str) (k : Str → Bool)
    (hk : ∀ s, k s = true ↔ GlobMatches (fun c => c ≠ '\n') p s) (s : Str) :
    (k s = true ∨ starTail CharClass.AnyCharNotNL k s = true) ↔
      GlobMatches (fun c => c ≠ '\n') ('*' :: p) s := by
  induction s with
  | nil =>
    constructor
    · rintro (h | h)
      · exact GlobMatches.skip _ _ ((hk _).1 h)
      · simp [starTail] at h
    · intro h
      cases h with
      | skip _ _ h => exact Or.inl ((hk _).2 h)
  | cons c s ih =>
    constructor
    · rintro (h | h)
      · exact GlobMatches.skip _ _ ((hk _).1 h)
      · simp only [starTail, CharClass.accepts, Bool.and_eq_true, Bool.or_eq_true, bne_iff_ne,
          ne_eq] at h
        exact GlobMatches.more _ _ _ h.1 (ih.1 h.2)
    · intro h
      cases h with
      | char _ _ _ hc _ => exact absurd rfl hc
      | skip _ _ h => exact Or.inl ((hk _).2 h)
      | more _ _ _ hw h =>
        right
        simp only [starTail, CharClass.accepts, Bool.and_eq_true, Bool.or_eq_true, bne_iff_ne,
          ne_eq]
        exact ⟨hw, ih.2 h⟩

theorem matchHere_glob (p : Str) : ∀ (atStart : Bool) (s : Str),
    matchHere (p.map globInst ++ [Inst.EndText]) atStart s = true ↔
      GlobMatches (fun c => c ≠ '\n') p s := by
  induction p with
  | nil =>
    intro atStart s
    simp only [List.map_nil, List.nil_append, matchHere, Bool.and_true, List.isEmpty_iff]
    constructor
    · intro h; subst h; exact GlobMatches.done
    · intro h; cases h; rfl
  | cons c p ih =>
    intro atStart s
    by_cases hstar : c = '*'
    · subst hstar
      have g : globInst '*' = Inst.Star CharClass.AnyCharNotNL := by decide
      simp only [List.map_cons, List.cons_append, g, matchHere_star, Bool.or_eq_true]
      rw [← starTail_glob p (matchHere (p.map globInst ++ [Inst.EndText]) false) (ih false) s]
      rw [ih atStart s, ih false s]
    · have g : globInst c = Inst.One (CharClass.Literal c) := by simp [globInst, hstar]
      simp only [List.map_cons, List.cons_append, g]
      cases s with
      | nil =>
        simp only [matchHere_one_nil, Bool.false_eq_true, false_iff]
        intro h
        cases h with
        | skip _ _ _ => exact hstar rfl
      | cons x s =>
        simp only [matchHere_one_cons, CharClass.accepts, Bool.and_eq_true, beq_iff_eq, ih false s]
        constructor
        · rintro ⟨rfl, h⟩
          exact GlobMatches.char _ _ _ hstar h
        · intro h
          cases h with
          | char _ _ _ _ h => exact ⟨rfl, h⟩
          | skip _ _ _ => exact absurd rfl hstar
          | more _ _ _ _ _ => exact absurd rfl hstar

theorem matchString_glob (p b : Str) :
    (MatchString (ReplaceAll ('^' :: QuoteMeta p) "\\*".toList ".*".toList ++ "$".toList) b).1 = true ↔
      GlobMatches (fun c => c ≠ '\n') p b := by
  rw [replaceAll_quoteMeta, MatchString, compile_glob]
  simp only
  rw [searchFrom_beginText, matchHere_glob]

theorem globMatches_literal (wild : Char → Prop) (p : Str) (hp : ∀ c ∈ p, c ≠ '*') :
    ∀ b, GlobMatches wild p b ↔ b = p := by
  induction p with
  | nil =>
    intro b
    constructor
    · intro h; cases h; rfl
    · intro h; subst h; exact GlobMatches.done
  | cons c p ih =>
    intro b
    have hc : c ≠ '*' := hp c (List.mem_cons_self _ _)
    have ih' := ih (fun x hx => hp x (List.mem_cons_of_mem _ hx))
    constructor
    · intro h
      cases h with
      | char _ _ s _ h => rw [(ih' s).1 h]
      | skip _ _ _ => exact absurd rfl hc
      | more _ _ _ _ _ => exact absurd rfl hc
    · intro h
      subst h
      exact GlobMatches.char _ _ _ hc ((ih' p).2 rfl)

/-- C7 (as stated, refuted): with `*` read as "zero or more of any character" the pattern `tmp-*`
matches the whole of a string that holds a line feed after `tmp-`, yet `contains` answers false:
the `.` of the built expression does not match a line feed. -/
theorem contains_glob_newline_counterexample :
    contains ["tmp-*".toList] ['t', 'm', 'p', '-', 'a', '\n', 'b'] = false ∧
      GlobMatches (fun _ => True) "tmp-*".toList ['t', 'm', 'p', '-', 'a', '\n', 'b'] := by
  refine ⟨by decide, ?_⟩
  have h : "tmp-*".toList = ['t', 'm', 'p', '-', '*'] := by decide
  rw [h]
  refine GlobMatches.char _ _ _ (by decide) (GlobMatches.char _ _ _ (by decide)
    (GlobMatches.char _ _ _ (by decide) (GlobMatches.char _ _ _ (by decide) ?_)))
  exact GlobMatches.more _ _ _ trivial (GlobMatches.more _ _ _ trivial
    (GlobMatches.more _ _ _ trivial (GlobMatches.skip _ _ GlobMatches.done)))

theorem contains_cases (P : List Str) (b : Str) :
    contains P b = true ↔ ∃ p ∈ P, GlobMatches (fun c => c ≠ '\n') p b := by
  induction P with
  | nil => simp [contains]
  | cons p P ih =>
    simp only [contains, List.mem_cons, exists_eq_or_imp]
    rw [← ih, ← matchString_glob p b]
    cases (MatchString (ReplaceAll ('^' :: QuoteMeta p) "\\*".toList ".*".toList ++ "$".toList) b).1 <;>
      simp

/-- C7 (amended): `contains P b` is true exactly when some pattern of `P`, read as an anchored
glob in which `*` matches zero or more characters other than the line feed and every other
character matches only itself, matches the whole of `b`; and `contains [] b` is false. -/
theorem contains_iff_glob (P : List Str) (b : Str) :
    (contains P b = true ↔ ∃ p ∈ P, GlobMatches (fun c => c ≠ '\n') p b) ∧
      contains [] b = false := by
  refine ⟨?_, rfl⟩
  exact contains_cases P b

/-- C8: for a pattern `p` without `*`, whatever other characters it holds (regular-expression
metacharacters included, and the empty pattern), `contains [p] b` is true exactly when `b`
equals `p`. -/
theorem contains_literal_iff_eq (p b : Str) (hp : ∀ c ∈ p, c ≠ '*') :
    contains [p] b = true ↔ b = p := by
  rw [contains_cases [p] b]
  simp only [List.mem_singleton, exists_eq_left]
  exact globMatches_literal _ p hp b

theorem contains_literal_iff_eq_witness :
    (∀ c ∈ "v1.0+(rc)[x]\\^$".toList, c ≠ '*') ∧
      (contains ["v1.0+(rc)[x]\\^$".toList] "v1.0+(rc)[x]\\^$".toList = true ↔
        "v1.0+(rc)[x]\\^$".toList = "v1.0+(rc)[x]\\^$".toList) :=
  ⟨by decide, contains_literal_iff_eq _ _ (by decide)⟩

theorem hasPrefix_iff (s pre : Str) : HasPrefix s pre = true ↔ pre <+: s := by
  unfold HasPrefix
  exact List.isPrefixOf_iff_prefix

theorem startsWith_loop_iff (L : List Str) (b : Str) :
    startsWith.loop L b = true ↔ ∃ l ∈ L, l <+: b := by
  induction L with
  | nil => simp [startsWith.loop]
  | cons l L ih =>
    simp only [startsWith.loop, List.mem_cons, exists_eq_or_imp]
    by_cases h : HasPrefix b l = true
    · simp [h, (hasPrefix_iff b l).1 h]
    · have : ¬ l <+: b := fun hp => h ((hasPrefix_iff b l).2 hp)
      simp [h, this, ih]

theorem startsWith_iff_mem (L : List Str) (b : Str) :
    startsWith L b = true ↔ ∃ l ∈ L, l <+: b := by
  unfold startsWith
  cases L with
  | nil => simp
  | cons l L => simp [startsWith_loop_iff]

/-- C9: `startsWith L b` is true exactly when some element of `L` is a literal prefix of `b`,
character for character (a `*` in a prefix is an ordinary character); and `startsWith [] b` is
false. -/
theorem startsWith_iff_literal (L : List Str) (b : Str) :
    (startsWith L b = true ↔ ∃ l ∈ L, l <+: b) ∧ startsWith [] b = false := by
  refine ⟨?_, rfl⟩
  unfold startsWith
  cases L with
  | nil => simp
  | cons l L => simp [startsWith_loop_iff]

/-! ## Rounding: proofs -/
theorem roundHalfEven_intCast (z : ℤ) : roundHalfEven (z : ℚ) = z := by
  unfold roundHalfEven
  simp

theorem roundHalfEven_ge_floor (q : ℚ) : ⌊q⌋ ≤ roundHalfEven q := by
  unfold roundHalfEven
  split_ifs <;> omega

theorem roundHalfEven_le_floor_succ (q : ℚ) : roundHalfEven q ≤ ⌊q⌋ + 1 := by
  unfold roundHalfEven
  split_ifs <;> omega

theorem roundHalfEven_mono {q r : ℚ} (h : q ≤ r) : roundHalfEven q ≤ roundHalfEven r := by
  rcases lt_or_eq_of_le (Int.floor_mono h) with hlt | heq
  · calc roundHalfEven q ≤ ⌊q⌋ + 1 := roundHalfEven_le_floor_succ q
      _ ≤ ⌊r⌋ := hlt
      _ ≤ roundHalfEven r := roundHalfEven_ge_floor r
  · have hfr : q - ⌊q⌋ ≤ r - ⌊r⌋ := by rw [heq]; linarith
    unfold roundHalfEven
    rw [heq] at hfr ⊢
    split_ifs <;> first | omega | (exfalso; linarith)

theorem two_zpow_pos (e : ℤ) : (0 : ℚ) < 2 ^ e := zpow_pos (by norm_num) e

theorem log_spec {q : ℚ} (hq : 0 < q) :
    (2 : ℚ) ^ Int.log 2 q ≤ q ∧ q < (2 : ℚ) ^ (Int.log 2 q + 1) := by
  have h1 := Int.zpow_log_le_self (b := 2) (by norm_num) hq
  have h2 := Int.lt_zpow_succ_log_self (R := ℚ) (b := 2) (by norm_num) q
  simpa using And.intro h1 h2

theorem roundMag_nonneg {q : ℚ} (hq : 0 ≤ q) : 0 ≤ roundMag q := by
  unfold roundMag
  split_ifs with h0
  · exact le_refl _
  · apply mul_nonneg _ (two_zpow_pos _).le
    have : (0 : ℚ) ≤ q / 2 ^ (Int.log 2 q - 52) := div_nonneg hq (two_zpow_pos _).le
    have := roundHalfEven_mono this
    rw [show ((0 : ℚ)) = ((0 : ℤ) : ℚ) by simp, roundHalfEven_intCast] at this
    exact_mod_cast this

theorem roundMag_bounds {q : ℚ} (hq : 0 < q) :
    (2 : ℚ) ^ Int.log 2 q ≤ roundMag q ∧ roundMag q ≤ (2 : ℚ) ^ (Int.log 2 q + 1) := by
  obtain ⟨h1, h2⟩ := log_spec hq
  have hu := two_zpow_pos (Int.log 2 q - 52)
  unfold roundMag
  rw [if_neg hq.ne']
  have e1 : (2 : ℚ) ^ Int.log 2 q = ((2 ^ 52 : ℤ) : ℚ) * 2 ^ (Int.log 2 q - 52) := by
    rw [zpow_sub₀ (by norm_num)]
    push_cast
    field_simp
    norm_num
    ring
  have e2 : (2 : ℚ) ^ (Int.log 2 q + 1) = ((2 ^ 53 : ℤ) : ℚ) * 2 ^ (Int.log 2 q - 52) := by
    rw [zpow_sub₀ (by norm_num), zpow_add₀ (by norm_num)]
    push_cast
    field_simp
    ring
  constructor
  · rw [e1]
    apply mul_le_mul_of_nonneg_right _ hu.le
    have : ((2 ^ 52 : ℤ) : ℚ) ≤ q / 2 ^ (Int.log 2 q - 52) := by
      rw [le_div_iff₀ hu, ← e1]; exact h1
    have := roundHalfEven_mono this
    rw [roundHalfEven_intCast] at this
    exact_mod_cast this
  · rw [e2]
    apply mul_le_mul_of_nonneg_right _ hu.le
    have : q / 2 ^ (Int.log 2 q - 52) ≤ ((2 ^ 53 : ℤ) : ℚ) := by
      rw [div_le_iff₀ hu, ← e2]; exact h2.le
    have := roundHalfEven_mono this
    rw [roundHalfEven_intCast] at this
    exact_mod_cast this

theorem roundMag_mono {q r : ℚ} (hq : 0 ≤ q) (h : q ≤ r) : roundMag q ≤ roundMag r := by
  rcases eq_or_lt_of_le hq with h0 | hpos
  · rw [← h0]
    simpa [roundMag] using roundMag_nonneg (le_trans hq h)
  · have hr : 0 < r := lt_of_lt_of_le hpos h
    rcases lt_or_eq_of_le (Int.log_mono_right (b := 2) hpos h) with hlt | heq
    · calc roundMag q ≤ (2 : ℚ) ^ (Int.log 2 q + 1) := (roundMag_bounds hpos).2
        _ ≤ (2 : ℚ) ^ Int.log 2 r := zpow_le_zpow_right₀ (by norm_num) hlt
        _ ≤ roundMag r := (roundMag_bounds hr).1
    · unfold roundMag
      rw [if_neg hpos.ne', if_neg hr.ne', heq]
      apply mul_le_mul_of_nonneg_right _ (two_zpow_pos _).le
      have : q / 2 ^ (Int.log 2 r - 52) ≤ r / 2 ^ (Int.log 2 r - 52) :=
        div_le_div_of_nonneg_right h (two_zpow_pos _).le
      exact_mod_cast roundHalfEven_mono this

theorem roundF64_mono {q r : ℚ} (h : q ≤ r) : roundF64 q ≤ roundF64 r := by
  unfold roundF64
  split_ifs with hq hr hr
  · exact neg_le_neg (roundMag_mono (by linarith) (by linarith))
  · have := roundMag_nonneg (q := -q) (by linarith)
    have := roundMag_nonneg (q := r) (by linarith)
    linarith
  · exfalso; linarith
  · exact roundMag_mono (by linarith) h

theorem roundMag_dyadic (m : ℤ) (k : ℤ) (hm : 0 < m) (hlt : m < 2 ^ 53) :
    roundMag ((m : ℚ) * 2 ^ k) = (m : ℚ) * 2 ^ k := by
  have hmq : (0 : ℚ) < m := by exact_mod_cast hm
  have hq : (0 : ℚ) < (m : ℚ) * 2 ^ k := mul_pos hmq (two_zpow_pos k)
  obtain ⟨h1, -⟩ := log_spec hq
  have hlt' : (m : ℚ) < 2 ^ (53 : ℤ) := by
    have : ((m : ℤ) : ℚ) < ((2 ^ 53 : ℤ) : ℚ) := by exact_mod_cast hlt
    norm_num at this ⊢
    exact this
  have hle : Int.log 2 ((m : ℚ) * 2 ^ k) < 53 + k := by
    have : (2 : ℚ) ^ Int.log 2 ((m : ℚ) * 2 ^ k) < 2 ^ (53 + k) := by
      calc (2 : ℚ) ^ Int.log 2 ((m : ℚ) * 2 ^ k) ≤ (m : ℚ) * 2 ^ k := h1
        _ < 2 ^ (53 : ℤ) * 2 ^ k := mul_lt_mul_of_pos_right hlt' (two_zpow_pos k)
        _ = 2 ^ (53 + k) := by rw [zpow_add₀ (by norm_num)]
    exact (zpow_lt_zpow_iff_right₀ (by norm_num : (1 : ℚ) < 2)).1 this
  obtain ⟨j, hj⟩ : ∃ j : ℕ, k - (Int.log 2 ((m : ℚ) * 2 ^ k) - 52) = j :=
    ⟨(k - (Int.log 2 ((m : ℚ) * 2 ^ k) - 52)).toNat, by omega⟩
  unfold roundMag
  rw [if_neg hq.ne']
  have hdiv : (m : ℚ) * 2 ^ k / 2 ^ (Int.log 2 ((m : ℚ) * 2 ^ k) - 52) = ((m * 2 ^ j : ℤ) : ℚ) := by
    rw [mul_div_assoc, ← zpow_sub₀ (by norm_num), hj]
    push_cast
    rw [zpow_natCast]
  rw [hdiv, roundHalfEven_intCast]
  push_cast
  rw [mul_assoc, ← zpow_natCast, ← zpow_add₀ (by norm_num), ← hj]
  congr 2
  ring

theorem roundF64_dyadic (m : ℤ) (k : ℤ) (hm : |m| < 2 ^ 53) :
    roundF64 ((m : ℚ) * 2 ^ k) = (m : ℚ) * 2 ^ k := by
  have hu := two_zpow_pos k
  rcases lt_trichotomy m 0 with hneg | hzero | hpos
  · have hq : (m : ℚ) * 2 ^ k < 0 := mul_neg_of_neg_of_pos (by exact_mod_cast hneg) hu
    unfold roundF64
    rw [if_pos hq]
    have := roundMag_dyadic (-m) k (by omega) (by rw [abs_of_neg hneg] at hm; exact hm)
    push_cast at this
    rw [← neg_mul, this]
    ring
  · subst hzero
    simp [roundF64, roundMag]
  · have hq : ¬ (m : ℚ) * 2 ^ k < 0 := not_lt.2 (mul_pos (by exact_mod_cast hpos) hu).le
    unfold roundF64
    rw [if_neg hq]
    exact roundMag_dyadic m k hpos (by rw [abs_of_pos hpos] at hm; exact hm)

theorem roundF64_intCast (z : ℤ) (hz : |z| < 2 ^ 53) : roundF64 (z : ℚ) = z := by
  have := roundF64_dyadic z 0 hz
  simpa using this

theorem roundHalfEven_ge (z : ℚ) (n : ℤ) (h : (n : ℚ) - 1 / 2 < z) : n ≤ roundHalfEven z := by
  have hf : n - 1 ≤ ⌊z⌋ := by
    apply Int.le_floor.2
    push_cast
    linarith
  rcases lt_or_eq_of_le hf with hlt | heq
  · have := roundHalfEven_ge_floor z
    omega
  · have hfr : 1 / 2 < z - ⌊z⌋ := by
      rw [← heq]
      push_cast
      linarith
    unfold roundHalfEven
    rw [if_neg (not_lt.2 hfr.le), if_pos hfr]
    omega

theorem log_eq_of_bounds {q : ℚ} (e : ℤ) (hq : 0 < q) (h1 : (2 : ℚ) ^ e ≤ q)
    (h2 : q < (2 : ℚ) ^ (e + 1)) : Int.log 2 q = e := by
  obtain ⟨l1, l2⟩ := log_spec hq
  have a : e < Int.log 2 q + 1 :=
    (zpow_lt_zpow_iff_right₀ (by norm_num : (1 : ℚ) < 2)).1 (lt_of_le_of_lt h1 l2)
  have b : Int.log 2 q < e + 1 :=
    (zpow_lt_zpow_iff_right₀ (by norm_num : (1 : ℚ) < 2)).1 (lt_of_le_of_lt l1 h2)
  omega

theorem roundF64_ge_of_near (q : ℚ) (e n : ℤ) (h1 : (2 : ℚ) ^ e ≤ q) (h2 : q < (2 : ℚ) ^ (e + 1))
    (h : (n : ℚ) - 1 / 2 < q / 2 ^ (e - 52)) : (n : ℚ) * 2 ^ (e - 52) ≤ roundF64 q := by
  have hq : 0 < q := lt_of_lt_of_le (two_zpow_pos e) h1
  unfold roundF64 roundMag
  rw [if_neg (not_lt.2 hq.le), if_neg hq.ne', log_eq_of_bounds e hq h1 h2]
  apply mul_le_mul_of_nonneg_right _ (two_zpow_pos _).le
  exact_mod_cast roundHalfEven_ge _ n h

theorem tmod_gt_neg (a : ℤ) {b : ℤ} (H : 0 < b) : -b < a.tmod b := by
  rcases le_or_lt 0 a with ha | ha
  · have := Int.tmod_nonneg b ha
    omega
  · have h1 := Int.tmod_lt_of_pos (-a) H
    have h2 : (-a).tmod b = -(a.tmod b) := by
      rw [Int.tmod_def, Int.tmod_def, Int.neg_tdiv]
      ring
    omega

/-- The parts of a duration that `Hours` converts: whole hours and the rest. -/
theorem hour_parts (d : ℤ) :
    3600000000000 * d.tdiv Hour + d.tmod Hour = d ∧ -3600000000000 < d.tmod Hour ∧
      d.tmod Hour < 3600000000000 := by
  have h0 : (0 : ℤ) < Hour := by decide
  have h1 := Int.tdiv_add_tmod d Hour
  have h2 := Int.tmod_lt_of_pos d h0
  have h3 := tmod_gt_neg d h0
  have hH : Hour = 3600000000000 := rfl
  rw [hH] at h1 h2 h3
  exact ⟨by rw [hH]; exact h1, by rw [hH]; exact h3, by rw [hH]; exact h2⟩

theorem hours_eq (d : ℤ) (h1 : -9223372036854775808 ≤ d) (h2 : d ≤ 9223372036854775807) :
    Hours d = roundF64 ((d.tdiv Hour : ℚ) + roundF64 ((d.tmod Hour : ℚ) / 3600000000000)) := by
  obtain ⟨p1, p2, p3⟩ := hour_parts d
  unfold Hours f64Add f64Div f64OfInt
  rw [roundF64_intCast (d.tdiv Hour) (abs_lt.2 ⟨by norm_num; omega, by norm_num; omega⟩),
    roundF64_intCast (d.tmod Hour) (abs_lt.2 ⟨by norm_num; omega, by norm_num; omega⟩),
    roundF64_intCast 3600000000000 (by norm_num)]
  norm_num

theorem roundF64_zero : roundF64 0 = 0 := by simp [roundF64, roundMag]

theorem roundF64_one : roundF64 1 = 1 := by
  have := roundF64_intCast 1 (by norm_num)
  simpa using this

theorem roundF64_neg_one : roundF64 (-1) = -1 := by
  have := roundF64_intCast (-1) (by norm_num)
  simpa using this

theorem hours_ge (d H : ℤ) (h1 : -9223372036854775808 ≤ d) (h2 : d ≤ 9223372036854775807)
    (hH : |H| < 2 ^ 53) (h : H * 3600000000000 ≤ d) : (H : ℚ) ≤ Hours d := by
  obtain ⟨p1, p2, p3⟩ := hour_parts d
  rw [hours_eq d h1 h2, ← roundF64_intCast H hH]
  apply roundF64_mono
  rcases le_or_lt 0 (d.tmod Hour) with hr | hr
  · have hq : H ≤ d.tdiv Hour := by omega
    have : (0 : ℚ) ≤ roundF64 ((d.tmod Hour : ℚ) / 3600000000000) := by
      rw [← roundF64_zero]
      apply roundF64_mono
      apply div_nonneg _ (by norm_num)
      exact_mod_cast hr
    have : (H : ℚ) ≤ (d.tdiv Hour : ℚ) := by exact_mod_cast hq
    linarith
  · have hq : H + 1 ≤ d.tdiv Hour := by omega
    have : (-1 : ℚ) ≤ roundF64 ((d.tmod Hour : ℚ) / 3600000000000) := by
      rw [← roundF64_neg_one]
      apply roundF64_mono
      rw [le_div_iff₀ (by norm_num)]
      have : (-3600000000000 : ℚ) ≤ (d.tmod Hour : ℚ) := by exact_mod_cast p2.le
      linarith
    have : ((H + 1 : ℤ) : ℚ) ≤ (d.tdiv Hour : ℚ) := by exact_mod_cast hq
    push_cast at this
    linarith

theorem hours_lt (d H : ℤ) (h1 : -9223372036854775808 ≤ d) (h2 : d ≤ 9223372036854775807)
    (hH : |H| < 2 ^ 22) (h : d ≤ H * 3600000000000 - 2000) : Hours d < (H : ℚ) := by
  obtain ⟨p1, p2, p3⟩ := hour_parts d
  obtain ⟨hH1, hH2⟩ := abs_lt.1 hH
  have hf : roundF64 (((H * 2 ^ 31 - 1 : ℤ) : ℚ) * 2 ^ (-31 : ℤ)) =
      ((H * 2 ^ 31 - 1 : ℤ) : ℚ) * 2 ^ (-31 : ℤ) :=
    roundF64_dyadic _ _ (abs_lt.2 ⟨by norm_num at hH1 hH2 ⊢; omega, by norm_num at hH1 hH2 ⊢; omega⟩)
  have hfv : ((H * 2 ^ 31 - 1 : ℤ) : ℚ) * 2 ^ (-31 : ℤ) = (H : ℚ) - 1 / 2147483648 := by
    push_cast
    rw [zpow_neg]
    norm_num
    ring
  rw [hfv] at hf
  have hg : roundF64 (1 - 1 / 2147483648) = 1 - 1 / 2147483648 := by
    have := roundF64_dyadic (2 ^ 31 - 1) (-31) (by norm_num)
    rw [zpow_neg] at this
    norm_num at this ⊢
    exact this
  have hm : roundF64 (-(1 / 2147483648)) = -(1 / 2147483648) := by
    have := roundF64_dyadic (-1) (-31) (by norm_num)
    rw [zpow_neg] at this
    norm_num at this ⊢
    exact this
  rw [hours_eq d h1 h2]
  have key : (d.tdiv Hour : ℚ) + roundF64 ((d.tmod Hour : ℚ) / 3600000000000) ≤
      (H : ℚ) - 1 / 2147483648 := by
    rcases lt_trichotomy (d.tdiv Hour) (H - 1) with hq | hq | hq
    · have : roundF64 ((d.tmod Hour : ℚ) / 3600000000000) ≤ 1 := by
        rw [← roundF64_one]
        apply roundF64_mono
        rw [div_le_iff₀ (by norm_num)]
        have : (d.tmod Hour : ℚ) ≤ (3600000000000 : ℤ) := by exact_mod_cast p3.le
        push_cast at this
        linarith
      have hq' : d.tdiv Hour ≤ H - 2 := by omega
      have : (d.tdiv Hour : ℚ) ≤ ((H - 2 : ℤ) : ℚ) := by exact_mod_cast hq'
      push_cast at this
      linarith
    · have hr : d.tmod Hour ≤ 3600000000000 - 2000 := by omega
      have : roundF64 ((d.tmod Hour : ℚ) / 3600000000000) ≤ 1 - 1 / 2147483648 := by
        rw [← hg]
        apply roundF64_mono
        rw [div_le_iff₀ (by norm_num)]
        have : (d.tmod Hour : ℚ) ≤ ((3600000000000 - 2000 : ℤ) : ℚ) := by exact_mod_cast hr
        push_cast at this
        linarith
      rw [hq]
      push_cast
      linarith
    · have hq' : d.tdiv Hour = H := by omega
      have hr : d.tmod Hour ≤ -2000 := by omega
      have : roundF64 ((d.tmod Hour : ℚ) / 3600000000000) ≤ -(1 / 2147483648) := by
        rw [← hm]
        apply roundF64_mono
        rw [div_le_iff₀ (by norm_num)]
        have : (d.tmod Hour : ℚ) ≤ ((-2000 : ℤ) : ℚ) := by exact_mod_cast hr
        push_cast at this
        linarith
      rw [hq']
      linarith
  calc roundF64 ((d.tdiv Hour : ℚ) + roundF64 ((d.tmod Hour : ℚ) / 3600000000000))
      ≤ roundF64 ((H : ℚ) - 1 / 2147483648) := roundF64_mono key
    _ = (H : ℚ) - 1 / 2147483648 := hf
    _ < (H : ℚ) := by linarith

theorem since_bounds (now t : ℤ) :
    -9223372036854775808 ≤ Since now t ∧ Since now t ≤ 9223372036854775807 := by
  unfold Since Sub maxDuration minDuration
  split_ifs <;> constructor <;> omega

theorem wrapInt64_small (z : ℤ) (h1 : -9223372036854775808 ≤ z) (h2 : z ≤ 9223372036854775807) :
    wrapInt64 z = z := by
  unfold wrapInt64
  omega

/-- The age test does not skip a commit that is at least `N` days old, for `N` within the range
of days a `Duration` can hold. -/
theorem lastCommitIsNewer_of_old (now t N : ℤ) (hN1 : -106751 ≤ N) (hN2 : N ≤ 106751)
    (h : N * 24 * 3600000000000 ≤ now - t) : lastCommitIsNewer now t N = false := by
  obtain ⟨b1, b2⟩ := since_bounds now t
  have hd : N * 24 * 3600000000000 ≤ Since now t := by
    unfold Since Sub maxDuration minDuration
    split_ifs <;> omega
  unfold lastCommitIsNewer f64OfInt
  rw [wrapInt64_small _ (by omega) (by omega),
    roundF64_intCast _ (abs_lt.2 ⟨by norm_num; omega, by norm_num; omega⟩)]
  have := hours_ge (Since now t) (N * 24) b1 b2
    (abs_lt.2 ⟨by norm_num; omega, by norm_num; omega⟩) hd
  simpa using this

/-- The age test skips a commit that is younger than `N` days by two microseconds or more. -/
theorem lastCommitIsNewer_of_young (now t N : ℤ) (hN1 : -106751 ≤ N) (hN2 : N ≤ 106751)
    (h : now - t ≤ N * 24 * 3600000000000 - 2000) : lastCommitIsNewer now t N = true := by
  obtain ⟨b1, b2⟩ := since_bounds now t
  have hd : Since now t ≤ N * 24 * 3600000000000 - 2000 := by
    unfold Since Sub maxDuration minDuration
    split_ifs <;> omega
  unfold lastCommitIsNewer f64OfInt
  rw [wrapInt64_small _ (by omega) (by omega),
    roundF64_intCast _ (abs_lt.2 ⟨by norm_num; omega, by norm_num; omega⟩)]
  have := hours_lt (Since now t) (N * 24) b1 b2
    (abs_lt.2 ⟨by norm_num; omega, by norm_num; omega⟩) hd
  simpa using this

/-- One nanosecond short of 400 days: the hour count rounds to 9600 and the test lets the commit
pass. -/
theorem lastCommitIsNewer_one_nanosecond :
    lastCommitIsNewer 34559999999999999 0 400 = false := by
  have hs : Since 34559999999999999 0 = 34559999999999999 := by decide
  have hq : (34559999999999999 : ℤ).tdiv Hour = 9599 := by decide
  have hr : (34559999999999999 : ℤ).tmod Hour = 3599999999999 := by decide
  have hin : (1 : ℚ) - 1 / 2199023255552 ≤ roundF64 ((3599999999999 : ℚ) / 3600000000000) := by
    have := roundF64_dyadic (2 ^ 41 - 1) (-41) (by norm_num)
    rw [zpow_neg] at this
    norm_num at this
    have h2 := roundF64_mono (q := 2199023255551 / 2199023255552)
      (r := (3599999999999 : ℚ) / 3600000000000) (by norm_num)
    rw [this] at h2
    norm_num
    exact h2
  have hup : roundF64 ((3599999999999 : ℚ) / 3600000000000) ≤ 1 := by
    rw [← roundF64_one]
    exact roundF64_mono (by norm_num)
  have hH : Hours 34559999999999999 =
      roundF64 (9599 + roundF64 ((3599999999999 : ℚ) / 3600000000000)) := by
    rw [hours_eq _ (by norm_num) (by norm_num), hq, hr]
    norm_num
  have hge : (9600 : ℚ) ≤ Hours 34559999999999999 := by
    rw [hH]
    have := roundF64_ge_of_near (9599 + roundF64 ((3599999999999 : ℚ) / 3600000000000)) 13
      (9600 * 2 ^ 39) (by norm_num; linarith) (by norm_num; linarith)
      (by
        rw [show ((13 : ℤ) - 52) = -39 by norm_num, zpow_neg]
        norm_num
        linarith)
    rw [show ((13 : ℤ) - 52) = -39 by norm_num, zpow_neg] at this
    norm_num at this
    exact this
  unfold lastCommitIsNewer f64OfInt
  rw [hs, wrapInt64_small _ (by norm_num) (by norm_num), roundF64_intCast _ (by norm_num)]
  simpa using hge

/-- The product `LastCommitAgeDays*24` wraps: for `2 ^ 62` days it is zero, and a commit one hour
old passes the age test. -/
theorem lastCommitIsNewer_wrapped : lastCommitIsNewer 3600000000000 0 4611686018427387904 = false := by
  have hs : Since 3600000000000 0 = 3600000000000 := by decide
  have hw : wrapInt64 (4611686018427387904 * 24) = 0 := by decide
  have hH : (0 : ℚ) ≤ Hours 3600000000000 := by
    have := hours_ge 3600000000000 0 (by norm_num) (by norm_num) (by norm_num) (by norm_num)
    simpa using this
  unfold lastCommitIsNewer f64OfInt
  rw [hs, hw]
  simpa [roundF64_zero] using hH

/-- C10 (as stated, refuted): with `LastCommitAgeDays = 400` a commit whose age is one nanosecond
short of `400*24` hours is not skipped by the age rule, although its elapsed time is strictly
less than `N*24` hours: the hour count is a `float64` and rounds to 9600. -/
theorem age_rule_strict_counterexample :
    (34559999999999999 : ℤ) - 0 < 400 * 24 * 3600000000000 ∧
      lastCommitIsNewer 34559999999999999 0 400 = false :=
  ⟨by norm_num, lastCommitIsNewer_one_nanosecond⟩

/-! ## Collector: proofs -/

theorem returnedNames_some (names : List Str) (e : Option Err) (calls : List Call) :
    returnedNames (some ((names, e), calls)) = names := rfl

theorem range_spec (g : GitHubClientWrapper) (args : Args) (now : ℤ) (p : Policy)
    (branches : List Branch) : ∀ acc : List Str,
    getDeletableBranches.range g args now p branches acc =
      (acc ++ eligibleNames g args now p branches, visitCalls g args now p branches) := by
  induction branches with
  | nil => intro acc; simp [getDeletableBranches.range, eligibleNames, visitCalls]
  | cons b bs ih =>
    intro acc
    simp only [getDeletableBranches.range, ih]
    cases hv : (getDeletableBranches.visit g args now p b).1 <;>
      simp [eligibleNames, visitCalls, hv]

theorem eligibleNames_append (g : GitHubClientWrapper) (args : Args) (now : ℤ) (p : Policy)
    (xs ys : List Branch) :
    eligibleNames g args now p (xs ++ ys) =
      eligibleNames g args now p xs ++ eligibleNames g args now p ys := by
  simp [eligibleNames]

theorem mem_eligibleNames (g : GitHubClientWrapper) (args : Args) (now : ℤ) (p : Policy)
    (bs : List Branch) (x : Str) :
    x ∈ eligibleNames g args now p bs ↔
      ∃ b ∈ bs, (getDeletableBranches.visit g args now p b).1 = true ∧ b.Name = x := by
  simp [eligibleNames, and_assoc]

/-- Every name the page loop adds comes from a branch whose pass ended in the `append`. -/
theorem pages_sound (g : GitHubClientWrapper) (args : Args) (now : ℤ) (p : Policy) :
    ∀ (fuel : Nat) (opts : BranchListOptions) (acc : List Str) (r : List Str × List Call),
      getDeletableBranches.pages g args now p fuel opts acc = some r →
      ∀ x ∈ r.1, x ∈ acc ∨
        ∃ b : Branch, (getDeletableBranches.visit g args now p b).1 = true ∧ b.Name = x := by
  intro fuel
  induction fuel with
  | zero => intro opts acc r h; simp [getDeletableBranches.pages] at h
  | succ n ih =>
    intro opts acc r h x hx
    rw [getDeletableBranches.pages] at h
    cases hl : g.client.ListBranches g.owner g.repo opts with
    | err e =>
      rw [hl] at h
      simp only [Option.some.injEq] at h
      subst h
      exact Or.inl hx
    | ok v =>
      obtain ⟨branches, resp⟩ := v
      rw [hl] at h
      simp only [range_spec] at h
      by_cases hn : resp.NextPage = 0
      · rw [if_pos hn] at h
        simp only [Option.some.injEq] at h
        subst h
        rcases List.mem_append.1 hx with h1 | h1
        · exact Or.inl h1
        · obtain ⟨b, -, hb⟩ := (mem_eligibleNames g args now p branches x).1 h1
          exact Or.inr ⟨b, hb⟩
      · rw [if_neg hn] at h
        cases hp : getDeletableBranches.pages g args now p n { opts with Page := resp.NextPage }
            (acc ++ eligibleNames g args now p branches) with
        | none => rw [hp] at h; simp at h
        | some q =>
          rw [hp] at h
          simp only [Option.some.injEq] at h
          subst h
          rcases ih _ _ _ hp x hx with h1 | h1
          · rcases List.mem_append.1 h1 with h2 | h2
            · exact Or.inl h2
            · obtain ⟨b, -, hb⟩ := (mem_eligibleNames g args now p branches x).1 h2
              exact Or.inr ⟨b, hb⟩
          · exact Or.inr h1

/-- The policy `getDeletableBranches` works with when both of its first fetches succeed. -/
theorem getDeletableBranches_sound (fuel : Nat) (g : GitHubClientWrapper) (args : Args) (now : ℤ)
    (x : Str) (hx : x ∈ returnedNames (getDeletableBranches fuel g args now)) :
    ∃ (repo : Repository) (resp : Response) (prs : List PullRequest) (c : List Call) (b : Branch),
      g.client.GetRepository g.owner g.repo = Result.ok (repo, resp) ∧
      getAllOpenPullRequests fuel g = some (Result.ok prs, c) ∧
      (getDeletableBranches.visit g args now
        ⟨repo.DefaultBranch, prs, splitNonEmpty args.IgnoreBranches,
          splitNonEmpty args.AllowedPrefixes, splitNonEmpty args.IgnoredPrefixes⟩ b).1 = true ∧
      b.Name = x := by
  unfold getDeletableBranches getDefaultBranch at hx
  cases hr : g.client.GetRepository g.owner g.repo with
  | err e => rw [hr] at hx; simp [returnedNames] at hx
  | ok v =>
    obtain ⟨repo, resp⟩ := v
    rw [hr] at hx
    simp only at hx
    cases hp : getAllOpenPullRequests fuel g with
    | none => rw [hp] at hx; simp [returnedNames] at hx
    | some w =>
      obtain ⟨res, c⟩ := w
      rw [hp] at hx
      cases res with
      | err e => simp [returnedNames] at hx
      | ok prs =>
        simp only at hx
        cases hq : getDeletableBranches.pages g args now
            ⟨repo.DefaultBranch, prs, splitNonEmpty args.IgnoreBranches,
              splitNonEmpty args.AllowedPrefixes, splitNonEmpty args.IgnoredPrefixes⟩
            fuel ⟨0, 100⟩ [] with
        | none => rw [hq] at hx; simp [returnedNames] at hx
        | some q =>
          rw [hq] at hx
          simp only [returnedNames] at hx
          rcases pages_sound g args now _ fuel _ _ q hq x hx with h1 | ⟨b, hb⟩
          · simp at h1
          · exact ⟨repo, resp, prs, c, b, rfl, rfl, hb⟩

/-! ## Eligibility rules: the loop body against the rules of the specification -/

theorem isBranchInOpenPullRequests_iff (branchName : Str) (prs : List PullRequest) :
    isBranchInOpenPullRequests branchName prs = true ↔ ∃ pr ∈ prs, pr.HeadRef = branchName := by
  induction prs with
  | nil => simp [isBranchInOpenPullRequests]
  | cons pr prs ih =>
    simp only [isBranchInOpenPullRequests, List.mem_cons, exists_eq_or_imp]
    by_cases h : pr.HeadRef = branchName
    · simp [h]
    · simp [h, ih]

theorem isBranchInOpenPullRequests_eq_all (branchName : Str) (prs : List PullRequest) :
    isBranchInOpenPullRequests branchName prs =
      !prs.all (fun pr => decide (pr.HeadRef ≠ branchName)) := by
  induction prs with
  | nil => simp [isBranchInOpenPullRequests]
  | cons pr prs ih =>
    simp only [isBranchInOpenPullRequests, List.all_cons]
    by_cases h : pr.HeadRef = branchName
    · simp [h]
    · simp [h, ih]

theorem lastCommitIsNewer_eq (now t N : ℤ) :
    lastCommitIsNewer now t N = !decide (f64OfInt (wrapInt64 (N * 24)) ≤ Hours (Since now t)) := by
  unfold lastCommitIsNewer
  by_cases h : Hours (Since now t) < f64OfInt (wrapInt64 (N * 24))
  · simp [h]
  · simp [h, not_lt.1 h]

theorem startsWith_nil (s : Str) : startsWith [] s = false := rfl

/-- The loop body appends the name exactly when the branch passes every rule. -/
theorem visit_eq_passesEveryRule (g : GitHubClientWrapper) (args : Args) (now : ℤ)
    (defaultBranch : Str) (prs : List PullRequest) (b : Branch) :
    (getDeletableBranches.visit g args now
      ⟨defaultBranch, prs, splitNonEmpty args.IgnoreBranches, splitNonEmpty args.AllowedPrefixes,
        splitNonEmpty args.IgnoredPrefixes⟩ b).1 =
      passesEveryRule g args now defaultBranch prs b := by
  unfold getDeletableBranches.visit passesEveryRule getLatestCommitDate isPullRequestBase
  simp only
  by_cases h1 : b.Name = defaultBranch
  · simp [h1]
  simp only [h1, if_false]
  cases h2 : b.Protected
  swap
  · simp
  simp only [Bool.false_eq_true, if_false]
  cases h3 : contains (splitNonEmpty args.IgnoreBranches) b.Name
  swap
  · simp
  simp only [Bool.false_eq_true, if_false]
  have h4 : (decide ((splitNonEmpty args.AllowedPrefixes).length > 0) &&
      !startsWith (splitNonEmpty args.AllowedPrefixes) b.Name) =
      !(decide (splitNonEmpty args.AllowedPrefixes = []) ||
        startsWith (splitNonEmpty args.AllowedPrefixes) b.Name) := by
    cases hA : splitNonEmpty args.AllowedPrefixes with
    | nil => simp
    | cons x xs => simp
  have h5 : (decide ((splitNonEmpty args.IgnoredPrefixes).length > 0) &&
      startsWith (splitNonEmpty args.IgnoredPrefixes) b.Name) =
      startsWith (splitNonEmpty args.IgnoredPrefixes) b.Name := by
    cases hA : splitNonEmpty args.IgnoredPrefixes with
    | nil => simp [startsWith_nil]
    | cons x xs => simp
  rw [h4, h5]
  cases h6 : (decide (splitNonEmpty args.AllowedPrefixes = []) ||
      startsWith (splitNonEmpty args.AllowedPrefixes) b.Name)
  · simp
  cases h7 : startsWith (splitNonEmpty args.IgnoredPrefixes) b.Name
  swap
  · simp
  simp only [Bool.not_true, Bool.false_eq_true, if_false, Bool.not_false, Bool.and_true,
    Bool.true_and, ne_eq, h1, not_false_eq_true, decide_True]
  cases hc : g.client.ListCommits g.owner g.repo ⟨b.Name, 0, 1⟩ with
  | err e => simp
  | ok v =>
    obtain ⟨commits, r⟩ := v
    cases commits with
    | nil => simp
    | cons latest rest =>
      simp only
      rw [lastCommitIsNewer_eq, isBranchInOpenPullRequests_eq_all]
      cases h8 : decide (f64OfInt (wrapInt64 (args.LastCommitAgeDays * 24)) ≤
          Hours (Since now latest.Date))
      · simp
      cases h9 : prs.all (fun pr => decide (pr.HeadRef ≠ b.Name))
      · simp
      simp only [Bool.not_true, Bool.false_eq_true, if_false, Bool.true_and]
      cases hb : g.client.ListPullRequests g.owner g.repo ⟨"open".toList, b.Name, 0, 0⟩ with
      | err e => simp
      | ok w =>
        obtain ⟨pulls, r2⟩ := w
        cases pulls with
        | nil => simp
        | cons x xs => simp

theorem eligibleNames_eq_filter (g : GitHubClientWrapper) (args : Args) (now : ℤ)
    (defaultBranch : Str) (prs : List PullRequest) (bs : List Branch) :
    eligibleNames g args now
      ⟨defaultBranch, prs, splitNonEmpty args.IgnoreBranches, splitNonEmpty args.AllowedPrefixes,
        splitNonEmpty args.IgnoredPrefixes⟩ bs =
      (bs.filter (passesEveryRule g args now defaultBranch prs)).map Branch.Name := by
  unfold eligibleNames
  congr 1
  apply List.filter_congr
  intro b _
  exact visit_eq_passesEveryRule g args now defaultBranch prs b

/-! ## Page loop -/

theorem pages_last_ok (g : GitHubClientWrapper) (args : Args) (now : ℤ) (p : Policy)
    (fuel : Nat) (last : ℤ) (bs : List Branch) (acc : List Str)
    (h : g.client.ListBranches g.owner g.repo ⟨last, 100⟩ = Result.ok (bs, ⟨0⟩)) :
    getDeletableBranches.pages g args now p (fuel + 1) ⟨last, 100⟩ acc =
      some (acc ++ eligibleNames g args now p bs,
        Call.ListBranches g.owner g.repo ⟨last, 100⟩ :: visitCalls g args now p bs) := by
  rw [getDeletableBranches.pages, h]
  simp [range_spec]

theorem pages_last_err (g : GitHubClientWrapper) (args : Args) (now : ℤ) (p : Policy)
    (fuel : Nat) (last : ℤ) (e : Err) (acc : List Str)
    (h : g.client.ListBranches g.owner g.repo ⟨last, 100⟩ = Result.err e) :
    getDeletableBranches.pages g args now p (fuel + 1) ⟨last, 100⟩ acc =
      some (acc, [Call.ListBranches g.owner g.repo ⟨last, 100⟩]) := by
  rw [getDeletableBranches.pages, h]

theorem pages_served (g : GitHubClientWrapper) (args : Args) (now : ℤ) (p : Policy) :
    ∀ (pages : List (List Branch × Response)) (page last : ℤ) (fuel : Nat) (acc : List Str),
      ServesBranchPages g page pages last →
      getDeletableBranches.pages g args now p (pages.length + fuel) ⟨page, 100⟩ acc =
        (getDeletableBranches.pages g args now p fuel ⟨last, 100⟩
          (acc ++ eligibleNames g args now p (pages.flatMap Prod.fst))).map
          (fun q => (q.1, pagesTrace g args now p page pages ++ q.2)) := by
  intro pages
  induction pages with
  | nil =>
    intro page last fuel acc h
    simp only [ServesBranchPages] at h
    subst h
    simp [eligibleNames, pagesTrace]
  | cons pg rest ih =>
    intro page last fuel acc h
    obtain ⟨bs, resp⟩ := pg
    obtain ⟨h1, h2, h3⟩ := h
    have hf : (((bs, resp) :: rest).length + fuel) = (rest.length + fuel) + 1 := by
      simp only [List.length_cons]; omega
    rw [hf, getDeletableBranches.pages, h1]
    simp only [range_spec, if_neg h2]
    rw [ih resp.NextPage last fuel _ h3]
    have he : eligibleNames g args now p (((bs, resp) :: rest).flatMap Prod.fst) =
        eligibleNames g args now p bs ++ eligibleNames g args now p (rest.flatMap Prod.fst) := by
      rw [List.flatMap_cons, eligibleNames_append]
    rw [he, ← List.append_assoc]
    cases hq : getDeletableBranches.pages g args now p fuel ⟨last, 100⟩
        (acc ++ eligibleNames g args now p bs ++
          eligibleNames g args now p (rest.flatMap Prod.fst)) with
    | none => simp
    | some q => simp [pagesTrace]

/-! ## Collector: the claims -/

theorem passesEveryRule_iff (g : GitHubClientWrapper) (args : Args) (now : ℤ)
    (defaultBranch : Str) (prs : List PullRequest) (b : Branch) :
    passesEveryRule g args now defaultBranch prs b = true ↔
      b.Name ≠ defaultBranch ∧ b.Protected = false ∧
      contains (splitNonEmpty args.IgnoreBranches) b.Name = false ∧
      (splitNonEmpty args.AllowedPrefixes = [] ∨
        startsWith (splitNonEmpty args.AllowedPrefixes) b.Name = true) ∧
      startsWith (splitNonEmpty args.IgnoredPrefixes) b.Name = false ∧
      (∃ latest rest r, g.client.ListCommits g.owner g.repo ⟨b.Name, 0, 1⟩ =
          Result.ok (latest :: rest, r) ∧
        f64OfInt (wrapInt64 (args.LastCommitAgeDays * 24)) ≤ Hours (Since now latest.Date)) ∧
      (∀ pr ∈ prs, pr.HeadRef ≠ b.Name) ∧
      (∃ r, g.client.ListPullRequests g.owner g.repo ⟨"open".toList, b.Name, 0, 0⟩ =
        Result.ok ([], r)) := by
  unfold passesEveryRule
  have hc : ((match g.client.ListCommits g.owner g.repo ⟨b.Name, 0, 1⟩ with
      | Result.ok (latest :: _, _) =>
        decide (f64OfInt (wrapInt64 (args.LastCommitAgeDays * 24)) ≤
          Hours (Since now latest.Date))
      | _ => false) = true) ↔
      ∃ latest rest r, g.client.ListCommits g.owner g.repo ⟨b.Name, 0, 1⟩ =
          Result.ok (latest :: rest, r) ∧
        f64OfInt (wrapInt64 (args.LastCommitAgeDays * 24)) ≤ Hours (Since now latest.Date) := by
    cases g.client.ListCommits g.owner g.repo ⟨b.Name, 0, 1⟩ with
    | err e => simp
    | ok v =>
      obtain ⟨commits, r⟩ := v
      cases commits with
      | nil => simp
      | cons latest rest => simp
  have hb : ((match g.client.ListPullRequests g.owner g.repo ⟨"open".toList, b.Name, 0, 0⟩ with
      | Result.ok ([], _) => true
      | _ => false) = true) ↔
      ∃ r, g.client.ListPullRequests g.owner g.repo ⟨"open".toList, b.Name, 0, 0⟩ =
        Result.ok ([], r) := by
    cases g.client.ListPullRequests g.owner g.repo ⟨"open".toList, b.Name, 0, 0⟩ with
    | err e => simp
    | ok v =>
      obtain ⟨pulls, r⟩ := v
      cases pulls with
      | nil => simp
      | cons x xs => simp
  simp only [Bool.and_eq_true, hc, hb, Bool.or_eq_true, decide_eq_true_eq, Bool.not_eq_true',
    List.all_eq_true, ne_eq, and_assoc]

theorem getDeletableBranches_unfold (fuel : Nat) (g : GitHubClientWrapper) (args : Args) (now : ℤ)
    (repo : Repository) (resp : Response) (prs : List PullRequest) (c : List Call)
    (hrepo : g.client.GetRepository g.owner g.repo = Result.ok (repo, resp))
    (hprs : getAllOpenPullRequests fuel g = some (Result.ok prs, c)) :
    getDeletableBranches fuel g args now =
      (getDeletableBranches.pages g args now
        ⟨repo.DefaultBranch, prs, splitNonEmpty args.IgnoreBranches,
          splitNonEmpty args.AllowedPrefixes, splitNonEmpty args.IgnoredPrefixes⟩
        fuel ⟨0, 100⟩ []).map
        (fun r => ((r.1, none), Call.GetRepository g.owner g.repo :: (c ++ r.2))) := by
  unfold getDeletableBranches getDefaultBranch
  rw [hrepo]
  simp only
  rw [hprs]
  simp only
  cases getDeletableBranches.pages g args now
      ⟨repo.DefaultBranch, prs, splitNonEmpty args.IgnoreBranches,
        splitNonEmpty args.AllowedPrefixes, splitNonEmpty args.IgnoredPrefixes⟩
      fuel ⟨0, 100⟩ [] with
  | none => rfl
  | some r => simp

/-- The whole run over a listing that is served to its end. -/
theorem getDeletableBranches_of_listing (fuel : Nat) (g : GitHubClientWrapper) (args : Args)
    (now : ℤ) (repo : Repository) (resp : Response) (prs : List PullRequest) (c : List Call)
    (pages : List (List Branch × Response)) (last : ℤ) (lastBranches : List Branch)
    (hrepo : g.client.GetRepository g.owner g.repo = Result.ok (repo, resp))
    (hprs : getAllOpenPullRequests fuel g = some (Result.ok prs, c))
    (hpages : ServesBranchPages g 0 pages last)
    (hlast : g.client.ListBranches g.owner g.repo ⟨last, 100⟩ = Result.ok (lastBranches, ⟨0⟩))
    (hfuel : pages.length < fuel) :
    getDeletableBranches fuel g args now =
      some ((((pages.flatMap Prod.fst ++ lastBranches).filter
          (passesEveryRule g args now repo.DefaultBranch prs)).map Branch.Name, none),
        Call.GetRepository g.owner g.repo :: (c ++
          (pagesTrace g args now ⟨repo.DefaultBranch, prs, splitNonEmpty args.IgnoreBranches,
            splitNonEmpty args.AllowedPrefixes, splitNonEmpty args.IgnoredPrefixes⟩ 0 pages ++
          Call.ListBranches g.owner g.repo ⟨last, 100⟩ ::
            visitCalls g args now ⟨repo.DefaultBranch, prs, splitNonEmpty args.IgnoreBranches,
              splitNonEmpty args.AllowedPrefixes, splitNonEmpty args.IgnoredPrefixes⟩
              lastBranches))) := by
  obtain ⟨k, hk⟩ : ∃ k, fuel = pages.length + (k + 1) := ⟨fuel - pages.length - 1, by omega⟩
  rw [getDeletableBranches_unfold fuel g args now repo resp prs c hrepo hprs]
  rw [hk, pages_served g args now _ pages 0 last (k + 1) [] hpages,
    pages_last_ok g args now _ k last lastBranches _ hlast]
  simp only [Option.map_some', List.nil_append, eligibleNames_eq_filter, List.filter_append,
    List.map_append]

/-- The whole run over a listing whose next page fails. -/
theorem getDeletableBranches_of_failing_page (fuel : Nat) (g : GitHubClientWrapper) (args : Args)
    (now : ℤ) (repo : Repository) (resp : Response) (prs : List PullRequest) (c : List Call)
    (pages : List (List Branch × Response)) (last : ℤ) (e : Err)
    (hrepo : g.client.GetRepository g.owner g.repo = Result.ok (repo, resp))
    (hprs : getAllOpenPullRequests fuel g = some (Result.ok prs, c))
    (hpages : ServesBranchPages g 0 pages last)
    (hlast : g.client.ListBranches g.owner g.repo ⟨last, 100⟩ = Result.err e)
    (hfuel : pages.length < fuel) :
    getDeletableBranches fuel g args now =
      some ((((pages.flatMap Prod.fst).filter
          (passesEveryRule g args now repo.DefaultBranch prs)).map Branch.Name, none),
        Call.GetRepository g.owner g.repo :: (c ++
          (pagesTrace g args now ⟨repo.DefaultBranch, prs, splitNonEmpty args.IgnoreBranches,
            splitNonEmpty args.AllowedPrefixes, splitNonEmpty args.IgnoredPrefixes⟩ 0 pages ++
          [Call.ListBranches g.owner g.repo ⟨last, 100⟩]))) := by
  obtain ⟨k, hk⟩ : ∃ k, fuel = pages.length + (k + 1) := ⟨fuel - pages.length - 1, by omega⟩
  rw [getDeletableBranches_unfold fuel g args now repo resp prs c hrepo hprs]
  rw [hk, pages_served g args now _ pages 0 last (k + 1) [] hpages,
    pages_last_err g args now _ k last e _ hlast]
  simp only [Option.map_some', List.nil_append, eligibleNames_eq_filter]

/-! ## Kinds of calls -/

theorem visit_calls_cases (g : GitHubClientWrapper) (args : Args) (now : ℤ) (p : Policy)
    (b : Branch) :
    (getDeletableBranches.visit g args now p b).2 = [] ∨
    (getDeletableBranches.visit g args now p b).2 =
      [Call.ListCommits g.owner g.repo ⟨b.Name, 0, 1⟩] ∨
    (getDeletableBranches.visit g args now p b).2 =
      [Call.ListCommits g.owner g.repo ⟨b.Name, 0, 1⟩,
        Call.ListPullRequests g.owner g.repo ⟨"open".toList, b.Name, 0, 0⟩] := by
  unfold getDeletableBranches.visit getLatestCommitDate isPullRequestBase
  simp only
  by_cases h1 : b.Name = p.defaultBranch
  · rw [if_pos h1]; exact Or.inl rfl
  rw [if_neg h1]
  by_cases h2 : b.Protected = true
  · rw [if_pos h2]; exact Or.inl rfl
  rw [if_neg h2]
  by_cases h3 : contains p.ignoreBranches b.Name = true
  · rw [if_pos h3]; exact Or.inl rfl
  rw [if_neg h3]
  by_cases h4 : (decide (p.allowedPrefixes.length > 0) &&
      !startsWith p.allowedPrefixes b.Name) = true
  · rw [if_pos h4]; exact Or.inl rfl
  rw [if_neg h4]
  by_cases h5 : (decide (p.ignoredPrefixes.length > 0) &&
      startsWith p.ignoredPrefixes b.Name) = true
  · rw [if_pos h5]; exact Or.inl rfl
  rw [if_neg h5]
  cases g.client.ListCommits g.owner g.repo ⟨b.Name, 0, 1⟩ with
  | err e => exact Or.inr (Or.inl rfl)
  | ok v =>
    obtain ⟨commits, r⟩ := v
    cases commits with
    | nil => exact Or.inr (Or.inl rfl)
    | cons latest rest =>
      simp only
      by_cases h6 : lastCommitIsNewer now latest.Date args.LastCommitAgeDays = true
      · rw [if_pos h6]; exact Or.inr (Or.inl rfl)
      rw [if_neg h6]
      by_cases h7 : isBranchInOpenPullRequests b.Name p.openPullRequests = true
      · rw [if_pos h7]; exact Or.inr (Or.inl rfl)
      rw [if_neg h7]
      cases g.client.ListPullRequests g.owner g.repo ⟨"open".toList, b.Name, 0, 0⟩ with
      | err e => exact Or.inr (Or.inr rfl)
      | ok w =>
        obtain ⟨pulls, r2⟩ := w
        simp only
        by_cases h8 : decide (pulls.length > 0) = true
        · rw [if_pos h8]; exact Or.inr (Or.inr rfl)
        · rw [if_neg h8]; exact Or.inr (Or.inr rfl)

theorem visitCalls_filter_listBranches (g : GitHubClientWrapper) (args : Args) (now : ℤ)
    (p : Policy) (bs : List Branch) :
    (visitCalls g args now p bs).filter Call.isListBranches = [] := by
  induction bs with
  | nil => rfl
  | cons b bs ih =>
    simp only [visitCalls, List.flatMap_cons, List.filter_append] at ih ⊢
    rw [ih]
    rcases visit_calls_cases g args now p b with h | h | h <;> rw [h] <;> rfl

theorem visitCalls_filter_deleteRef (g : GitHubClientWrapper) (args : Args) (now : ℤ)
    (p : Policy) (bs : List Branch) :
    (visitCalls g args now p bs).filter Call.isDeleteRef = [] := by
  induction bs with
  | nil => rfl
  | cons b bs ih =>
    simp only [visitCalls, List.flatMap_cons, List.filter_append] at ih ⊢
    rw [ih]
    rcases visit_calls_cases g args now p b with h | h | h <;> rw [h] <;> rfl

theorem pagesTrace_filter_listBranches (g : GitHubClientWrapper) (args : Args) (now : ℤ)
    (p : Policy) (pages : List (List Branch × Response)) : ∀ (page : ℤ),
    (pagesTrace g args now p page pages ++
        [Call.ListBranches g.owner g.repo ⟨(pageNumbers page pages).getLastD page, 100⟩]).filter
        Call.isListBranches =
      (pageNumbers page pages).map (fun n => Call.ListBranches g.owner g.repo ⟨n, 100⟩) := by
  induction pages with
  | nil => intro page; rfl
  | cons pg rest ih =>
    intro page
    obtain ⟨bs, resp⟩ := pg
    have hl : (pageNumbers page ((bs, resp) :: rest)).getLastD page =
        (pageNumbers resp.NextPage rest).getLastD resp.NextPage := by
      cases rest with
      | nil => rfl
      | cons x xs => obtain ⟨b2, r2⟩ := x; rfl
    rw [hl]
    simp only [pagesTrace, pageNumbers, List.cons_append, List.append_assoc, List.map_cons]
    rw [List.filter_cons_of_pos (by rfl), List.filter_append,
      visitCalls_filter_listBranches, List.nil_append, ih]

theorem servesBranchPages_last (g : GitHubClientWrapper)
    (pages : List (List Branch × Response)) : ∀ (page last : ℤ),
    ServesBranchPages g page pages last → (pageNumbers page pages).getLastD page = last := by
  induction pages with
  | nil => intro page last h; simpa [ServesBranchPages, pageNumbers] using h
  | cons pg rest ih =>
    intro page last h
    obtain ⟨bs, resp⟩ := pg
    obtain ⟨-, -, h3⟩ := h
    have := ih resp.NextPage last h3
    cases rest with
    | nil => simpa [pageNumbers] using this
    | cons x xs => obtain ⟨b2, r2⟩ := x; simpa [pageNumbers] using this

theorem pullLoop_calls (g : GitHubClientWrapper) : ∀ (fuel : Nat) (opts : PullRequestListOptions)
    (all : List PullRequest) (r : Result (List PullRequest) × List Call),
    getAllOpenPullRequests.loop g fuel opts all = some r →
    ∀ c ∈ r.2, ∃ o, c = Call.ListPullRequests g.owner g.repo o ∧ o.Base = opts.Base := by
  intro fuel
  induction fuel with
  | zero => intro opts all r h; simp [getAllOpenPullRequests.loop] at h
  | succ n ih =>
    intro opts all r h c hc
    rw [getAllOpenPullRequests.loop] at h
    cases hl : g.client.ListPullRequests g.owner g.repo opts with
    | err e =>
      rw [hl] at h
      simp only [Option.some.injEq] at h
      subst h
      simp only [List.mem_singleton] at hc
      exact ⟨opts, hc, rfl⟩
    | ok v =>
      obtain ⟨pulls, resp⟩ := v
      rw [hl] at h
      simp only at h
      by_cases hn : resp.NextPage = 0
      · rw [if_pos hn] at h
        simp only [Option.some.injEq] at h
        subst h
        simp only [List.mem_singleton] at hc
        exact ⟨opts, hc, rfl⟩
      · rw [if_neg hn] at h
        cases hp : getAllOpenPullRequests.loop g n { opts with Page := resp.NextPage }
            (all ++ pulls) with
        | none => rw [hp] at h; simp at h
        | some q =>
          rw [hp] at h
          simp only [Option.some.injEq] at h
          subst h
          rcases List.mem_cons.1 hc with h1 | h1
          · exact ⟨opts, h1, rfl⟩
          · exact ih _ _ _ hp c h1

theorem pulls_filter_listBranches (g : GitHubClientWrapper) (fuel : Nat)
    (r : Result (List PullRequest) × List Call) (h : getAllOpenPullRequests fuel g = some r) :
    r.2.filter Call.isListBranches = [] ∧ r.2.filter Call.isListCommits = [] ∧
      r.2.filter Call.isDeleteRef = [] ∧ r.2.filter Call.isBaseQuery = [] := by
  have hk := pullLoop_calls g fuel _ _ r h
  refine ⟨?_, ?_, ?_, ?_⟩ <;>
  · rw [List.filter_eq_nil_iff]
    intro c hc
    obtain ⟨o, rfl, ho⟩ := hk c hc
    simp [Call.isListBranches, Call.isListCommits, Call.isDeleteRef, Call.isBaseQuery, ho]

/-! ## The claims on the collector -/

theorem visit_default (g : GitHubClientWrapper) (args : Args) (now : ℤ) (p : Policy)
    (b : Branch) (h : b.Name = p.defaultBranch) :
    (getDeletableBranches.visit g args now p b).1 = false := by
  unfold getDeletableBranches.visit
  simp [h]


/-! ## The example repository -/

theorem demo_age_old :
    f64OfInt (wrapInt64 (demoArgs.LastCommitAgeDays * 24)) ≤ Hours (Since demoNow 0) := by
  have h := lastCommitIsNewer_of_old demoNow 0 30 (by norm_num) (by norm_num)
    (by unfold demoNow; norm_num)
  rw [lastCommitIsNewer_eq] at h
  simpa [demoArgs] using h

theorem demo_age_new :
    ¬ f64OfInt (wrapInt64 (demoArgs.LastCommitAgeDays * 24)) ≤
      Hours (Since demoNow 3456000000000000000) := by
  have h := lastCommitIsNewer_of_young demoNow 3456000000000000000 30 (by norm_num)
    (by norm_num) (by unfold demoNow; norm_num)
  rw [lastCommitIsNewer_eq] at h
  simpa [demoArgs] using h

theorem demo_pulls :
    getAllOpenPullRequests 3 demoClient =
      some (Result.ok [⟨"release-hot".toList⟩],
        [Call.ListPullRequests "octo".toList "repo".toList ⟨"open".toList, [], 0, 100⟩]) := by
  decide

theorem demo_passes_old (name : Str) (hd : name ≠ "main".toList)
    (hp : startsWith (splitNonEmpty "release-".toList) name = true)
    (hn : name ≠ "release-new".toList) (hg : name ≠ "release-gone".toList)
    (hh : name ≠ "release-hot".toList) (hb : name ≠ "release-base".toList) :
    passesEveryRule demoClient demoArgs demoNow "main".toList [⟨"release-hot".toList⟩]
      ⟨name, false⟩ = true := by
  rw [passesEveryRule_iff]
  refine ⟨hd, rfl, rfl, Or.inr hp, rfl, ⟨⟨0⟩, [], ⟨0⟩, ?_, demo_age_old⟩, ?_, ⟨⟨0⟩, ?_⟩⟩
  · show (if name = "release-new".toList then _ else if name = "release-gone".toList then _
      else _) = _
    rw [if_neg hn, if_neg hg]
  · intro pr hpr
    simp only [List.mem_singleton] at hpr
    subst hpr
    exact fun h => hh h.symm
  · show (if name = [] then _ else if name = "release-base".toList then _ else _) = _
    have hne : name ≠ [] := by
      intro h
      rw [h] at hp
      revert hp
      decide
    rw [if_neg hne, if_neg hb]

theorem demo_fails_main (prot : Bool) :
    passesEveryRule demoClient demoArgs demoNow "main".toList [⟨"release-hot".toList⟩]
      ⟨"main".toList, prot⟩ = false := by
  rw [Bool.eq_false_iff, Ne, passesEveryRule_iff]
  intro h
  exact h.1 rfl

theorem demo_fails_hot :
    passesEveryRule demoClient demoArgs demoNow "main".toList [⟨"release-hot".toList⟩]
      ⟨"release-hot".toList, false⟩ = false := by
  rw [Bool.eq_false_iff, Ne, passesEveryRule_iff]
  intro h
  exact h.2.2.2.2.2.2.1 ⟨"release-hot".toList⟩ (List.mem_singleton.2 rfl) rfl

theorem demo_fails_base :
    passesEveryRule demoClient demoArgs demoNow "main".toList [⟨"release-hot".toList⟩]
      ⟨"release-base".toList, false⟩ = false := by
  rw [Bool.eq_false_iff, Ne, passesEveryRule_iff]
  intro h
  obtain ⟨r, hr⟩ := h.2.2.2.2.2.2.2
  have h2 : (Result.ok ([⟨"release-hot".toList⟩], ⟨0⟩) :
      Result (List PullRequest × Response)) = Result.ok ([], r) := hr
  simp at h2

theorem demo_fails_new :
    passesEveryRule demoClient demoArgs demoNow "main".toList [⟨"release-hot".toList⟩]
      ⟨"release-new".toList, false⟩ = false := by
  rw [Bool.eq_false_iff, Ne, passesEveryRule_iff]
  intro h
  obtain ⟨latest, rest, r, hl, hage⟩ := h.2.2.2.2.2.1
  have hd : latest.Date = 3456000000000000000 := by
    have h2 : (Result.ok ([⟨3456000000000000000⟩], ⟨0⟩) :
        Result (List RepositoryCommit × Response)) = Result.ok (latest :: rest, r) := hl
    simp only [Result.ok.injEq, Prod.mk.injEq, List.cons.injEq] at h2
    rw [← h2.1.1]
  rw [hd] at hage
  exact demo_age_new hage

theorem demo_fails_feature :
    passesEveryRule demoClient demoArgs demoNow "main".toList [⟨"release-hot".toList⟩]
      ⟨"feature-x".toList, false⟩ = false := by
  rw [Bool.eq_false_iff, Ne, passesEveryRule_iff]
  intro h
  rcases h.2.2.2.1 with h1 | h1
  · revert h1; decide
  · revert h1; decide

theorem demo_fails_protected (name : Str) :
    passesEveryRule demoClient demoArgs demoNow "main".toList [⟨"release-hot".toList⟩]
      ⟨name, true⟩ = false := by
  rw [Bool.eq_false_iff, Ne, passesEveryRule_iff]
  intro h
  have h2 : true = false := h.2.1
  cases h2

theorem demo_fails_gone :
    passesEveryRule demoClient demoArgs demoNow "main".toList [⟨"release-hot".toList⟩]
      ⟨"release-gone".toList, false⟩ = false := by
  rw [Bool.eq_false_iff, Ne, passesEveryRule_iff]
  intro h
  obtain ⟨latest, rest, r, hl, -⟩ := h.2.2.2.2.2.1
  have h2 : (Result.err "not found".toList : Result (List RepositoryCommit × Response)) =
      Result.ok (latest :: rest, r) := hl
  cases h2

theorem demo_passes_v1 :
    passesEveryRule demoClient demoArgs demoNow "main".toList [⟨"release-hot".toList⟩]
      ⟨"release-v1".toList, false⟩ = true :=
  demo_passes_old "release-v1".toList (by decide) (by decide) (by decide) (by decide) (by decide)
    (by decide)

theorem demo_passes_v2 :
    passesEveryRule demoClient demoArgs demoNow "main".toList [⟨"release-hot".toList⟩]
      ⟨"release-v2".toList, false⟩ = true :=
  demo_passes_old "release-v2".toList (by decide) (by decide) (by decide) (by decide) (by decide)
    (by decide)

theorem demo_filter :
    ((([⟨"main".toList, false⟩, ⟨"release-v1".toList, false⟩, ⟨"release-hot".toList, false⟩,
        ⟨"release-base".toList, false⟩, ⟨"release-new".toList, false⟩,
        ⟨"feature-x".toList, false⟩, ⟨"release-v2".toList, false⟩,
        ⟨"release-lts".toList, true⟩, ⟨"release-gone".toList, false⟩] : List Branch).filter
      (passesEveryRule demoClient demoArgs demoNow "main".toList [⟨"release-hot".toList⟩])).map
        Branch.Name) = ["release-v1".toList, "release-v2".toList] := by
  rw [List.filter_cons_of_neg (by rw [demo_fails_main]; simp),
    List.filter_cons_of_pos demo_passes_v1,
    List.filter_cons_of_neg (by rw [demo_fails_hot]; simp),
    List.filter_cons_of_neg (by rw [demo_fails_base]; simp),
    List.filter_cons_of_neg (by rw [demo_fails_new]; simp),
    List.filter_cons_of_neg (by rw [demo_fails_feature]; simp),
    List.filter_cons_of_pos demo_passes_v2,
    List.filter_cons_of_neg (by rw [demo_fails_protected]; simp),
    List.filter_cons_of_neg (by rw [demo_fails_gone]; simp)]
  rfl

/-! ## Claims C1 to C6 and C10 -/

theorem young_pulls :
    getAllOpenPullRequests 2 youngClient =
      some (Result.ok [],
        [Call.ListPullRequests "octo".toList "repo".toList ⟨"open".toList, [], 0, 100⟩]) := by
  decide

theorem young_passes :
    passesEveryRule youngClient youngArgs youngNow "main".toList []
      ⟨"almost-stale".toList, false⟩ = true := by
  rw [passesEveryRule_iff]
  have hage := lastCommitIsNewer_one_nanosecond
  rw [lastCommitIsNewer_eq] at hage
  simp only [Bool.not_eq_false', decide_eq_true_eq] at hage
  refine ⟨by decide, rfl, rfl, Or.inl rfl, rfl, ⟨⟨0⟩, [], ⟨0⟩, rfl, hage⟩, ?_, ⟨⟨0⟩, rfl⟩⟩
  intro pr hpr
  cases hpr

/-- C1 (as stated, refuted): with `LastCommitAgeDays = 400` and the clock one nanosecond short of
400 days after the latest commit of the branch `almost-stale`, every fetch succeeding, the age of
that commit is less than `400*24` hours, yet `getDeletableBranches` returns the branch: the age
is compared in `float64` hours, and the hour count rounds to 9600. -/
theorem getDeletableBranches_young_counterexample :
    youngClient.client.ListCommits youngClient.owner youngClient.repo
        ⟨"almost-stale".toList, 0, 1⟩ = Result.ok ([⟨0⟩], ⟨0⟩) ∧
      youngNow - 0 < youngArgs.LastCommitAgeDays * 24 * 3600000000000 ∧
      ∃ calls, getDeletableBranches 2 youngClient youngArgs youngNow =
        some ((["almost-stale".toList], none), calls) := by
  refine ⟨rfl, by decide, ?_⟩
  rw [getDeletableBranches_of_listing 2 youngClient youngArgs youngNow ⟨"main".toList⟩ ⟨0⟩ []
    _ [] 0 [⟨"almost-stale".toList, false⟩] rfl young_pulls rfl rfl (by decide)]
  rw [List.flatMap_nil, List.nil_append, List.filter_cons_of_pos young_passes, List.filter_nil]
  exact ⟨_, rfl⟩

/-- C1 (amended): when the default-branch fetch, the open-pull-request fetch and every
branch-page fetch succeed (the pages `pages` followed by a last page without a next one),
`getDeletableBranches` returns, with a `nil` error, the names of the listed branches that pass
every rule, in listing order across the pages, neither sorted nor de-duplicated; a branch passes
every rule exactly when it is not the default branch, is not protected, is not matched by
`contains` on the ignore list, matches an allowed prefix when that list is not empty, matches no
ignored prefix, has a latest commit whose age in hours, computed in `float64` as
`time.Since(commitDate).Hours()`, is not less than `float64(LastCommitAgeDays*24)`, is not the
head of an open pull request, and its base query succeeds with no pull request; and for
`LastCommitAgeDays` between -106751 and 106751 that age test holds whenever the age is at least
`LastCommitAgeDays*24` hours, and whenever it holds the age is short of `LastCommitAgeDays*24`
hours by less than two microseconds. -/
theorem getDeletableBranches_returns_passing (fuel : Nat) (g : GitHubClientWrapper) (args : Args)
    (now : ℤ) (repo : Repository) (resp : Response) (prs : List PullRequest) (c : List Call)
    (pages : List (List Branch × Response)) (last : ℤ) (lastBranches : List Branch)
    (hrepo : g.client.GetRepository g.owner g.repo = Result.ok (repo, resp))
    (hprs : getAllOpenPullRequests fuel g = some (Result.ok prs, c))
    (hpages : ServesBranchPages g 0 pages last)
    (hlast : g.client.ListBranches g.owner g.repo ⟨last, 100⟩ = Result.ok (lastBranches, ⟨0⟩))
    (hfuel : pages.length < fuel) :
    (∃ calls, getDeletableBranches fuel g args now =
      some ((((pages.flatMap Prod.fst ++ lastBranches).filter
        (passesEveryRule g args now repo.DefaultBranch prs)).map Branch.Name, none), calls)) ∧
    (∀ b : Branch, passesEveryRule g args now repo.DefaultBranch prs b = true ↔
      b.Name ≠ repo.DefaultBranch ∧ b.Protected = false ∧
      contains (splitNonEmpty args.IgnoreBranches) b.Name = false ∧
      (splitNonEmpty args.AllowedPrefixes = [] ∨
        startsWith (splitNonEmpty args.AllowedPrefixes) b.Name = true) ∧
      startsWith (splitNonEmpty args.IgnoredPrefixes) b.Name = false ∧
      (∃ latest rest r, g.client.ListCommits g.owner g.repo ⟨b.Name, 0, 1⟩ =
          Result.ok (latest :: rest, r) ∧
        f64OfInt (wrapInt64 (args.LastCommitAgeDays * 24)) ≤ Hours (Since now latest.Date)) ∧
      (∀ pr ∈ prs, pr.HeadRef ≠ b.Name) ∧
      (∃ r, g.client.ListPullRequests g.owner g.repo ⟨"open".toList, b.Name, 0, 0⟩ =
        Result.ok ([], r))) ∧
    (-106751 ≤ args.LastCommitAgeDays → args.LastCommitAgeDays ≤ 106751 → ∀ t : ℤ,
      (args.LastCommitAgeDays * 24 * 3600000000000 ≤ now - t →
        f64OfInt (wrapInt64 (args.LastCommitAgeDays * 24)) ≤ Hours (Since now t)) ∧
      (f64OfInt (wrapInt64 (args.LastCommitAgeDays * 24)) ≤ Hours (Since now t) →
        args.LastCommitAgeDays * 24 * 3600000000000 - 2000 < now - t)) := by
  refine ⟨⟨_, getDeletableBranches_of_listing fuel g args now repo resp prs c pages last
    lastBranches hrepo hprs hpages hlast hfuel⟩, fun b => passesEveryRule_iff g args now _ prs b,
    ?_⟩
  intro hN1 hN2 t
  constructor
  · intro hold
    have h := lastCommitIsNewer_of_old now t args.LastCommitAgeDays hN1 hN2 hold
    rw [lastCommitIsNewer_eq] at h
    simpa using h
  · intro hpass
    by_contra hyoung
    have h := lastCommitIsNewer_of_young now t args.LastCommitAgeDays hN1 hN2 (by omega)
    rw [lastCommitIsNewer_eq] at h
    simp only [Bool.not_eq_true', decide_eq_false_iff_not] at h
    exact h hpass

theorem getDeletableBranches_returns_passing_witness :
    demoClient.client.GetRepository demoClient.owner demoClient.repo =
        Result.ok (⟨"main".toList⟩, ⟨0⟩) ∧
      (1 : Nat) < 3 ∧
      returnedNames (getDeletableBranches 3 demoClient demoArgs demoNow) =
        ["release-v1".toList, "release-v2".toList] ∧
      f64OfInt (wrapInt64 (demoArgs.LastCommitAgeDays * 24)) ≤ Hours (Since demoNow 0) := by
  obtain ⟨⟨calls, h⟩, -, hage⟩ := getDeletableBranches_returns_passing 3 demoClient demoArgs
    demoNow ⟨"main".toList⟩ ⟨0⟩ [⟨"release-hot".toList⟩] _
    [([⟨"main".toList, false⟩, ⟨"release-v1".toList, false⟩, ⟨"release-hot".toList, false⟩,
      ⟨"release-base".toList, false⟩], ⟨2⟩)] 2
    [⟨"release-new".toList, false⟩, ⟨"feature-x".toList, false⟩, ⟨"release-v2".toList, false⟩,
      ⟨"release-lts".toList, true⟩, ⟨"release-gone".toList, false⟩]
    rfl demo_pulls ⟨rfl, by decide, rfl⟩ rfl (by decide)
  refine ⟨rfl, by decide, ?_, (hage (by decide) (by decide) 0).1 (by decide)⟩
  rw [h, returnedNames_some]
  exact demo_filter

/-- C2: a branch whose name is the default branch name of the repository is never in the list
`getDeletableBranches` returns, whatever the configuration, the clock and the rest of the
remote. -/
theorem default_branch_never_returned (fuel : Nat) (g : GitHubClientWrapper) (args : Args)
    (now : ℤ) (repo : Repository) (resp : Response)
    (hrepo : g.client.GetRepository g.owner g.repo = Result.ok (repo, resp)) :
    repo.DefaultBranch ∉ returnedNames (getDeletableBranches fuel g args now) := by
  intro hx
  obtain ⟨repo2, resp2, prs, c, b, h1, -, h3, h4⟩ :=
    getDeletableBranches_sound fuel g args now _ hx
  rw [hrepo] at h1
  simp only [Result.ok.injEq, Prod.mk.injEq] at h1
  rw [← h1.1] at h3
  rw [visit_default g args now _ b h4] at h3
  cases h3

theorem default_branch_never_returned_witness :
    demoClient.client.GetRepository demoClient.owner demoClient.repo =
        Result.ok (⟨"main".toList⟩, ⟨0⟩) ∧
      "main".toList ∉ returnedNames (getDeletableBranches 3 demoClient demoArgs demoNow) :=
  ⟨rfl, default_branch_never_returned 3 demoClient demoArgs demoNow ⟨"main".toList⟩ ⟨0⟩ rfl⟩

/-- C3: `isBranchInOpenPullRequests` is true exactly when some collected pull request has the
name as its head ref; and a name that is the head ref of a collected open pull request is never
in the list `getDeletableBranches` returns. -/
theorem open_pull_request_head_never_returned (fuel : Nat) (g : GitHubClientWrapper)
    (args : Args) (now : ℤ) (prs : List PullRequest) (c : List Call) (name : Str) :
    (isBranchInOpenPullRequests name prs = true ↔ ∃ pr ∈ prs, pr.HeadRef = name) ∧
    (getAllOpenPullRequests fuel g = some (Result.ok prs, c) →
      (∃ pr ∈ prs, pr.HeadRef = name) →
      name ∉ returnedNames (getDeletableBranches fuel g args now)) := by
  refine ⟨isBranchInOpenPullRequests_iff name prs, ?_⟩
  intro hprs hhead hx
  obtain ⟨repo2, resp2, prs2, c2, b, -, h2, h3, h4⟩ :=
    getDeletableBranches_sound fuel g args now _ hx
  rw [hprs] at h2
  simp only [Option.some.injEq, Prod.mk.injEq, Result.ok.injEq] at h2
  rw [← h2.1, visit_eq_passesEveryRule, passesEveryRule_iff] at h3
  obtain ⟨pr, hpr, hname⟩ := hhead
  exact h3.2.2.2.2.2.2.1 pr hpr (by rw [hname, h4])

theorem open_pull_request_head_never_returned_witness :
    (isBranchInOpenPullRequests "release-hot".toList [⟨"release-hot".toList⟩] = true ↔
      ∃ pr ∈ [(⟨"release-hot".toList⟩ : PullRequest)], pr.HeadRef = "release-hot".toList) ∧
    "release-hot".toList ∉ returnedNames (getDeletableBranches 3 demoClient demoArgs demoNow) :=
  ⟨(open_pull_request_head_never_returned 3 demoClient demoArgs demoNow
      [⟨"release-hot".toList⟩] [] "release-hot".toList).1,
    (open_pull_request_head_never_returned 3 demoClient demoArgs demoNow
      [⟨"release-hot".toList⟩]
      [Call.ListPullRequests "octo".toList "repo".toList ⟨"open".toList, [], 0, 100⟩]
      "release-hot".toList).2 demo_pulls
      ⟨⟨"release-hot".toList⟩, List.mem_singleton.2 rfl, rfl⟩⟩

/-- C4: a name for which the query of open pull requests filtered by that base returns a
non-empty list is never in the list `getDeletableBranches` returns. -/
theorem pull_request_base_never_returned (fuel : Nat) (g : GitHubClientWrapper) (args : Args)
    (now : ℤ) (name : Str) (pulls : List PullRequest) (r : Response)
    (hbase : g.client.ListPullRequests g.owner g.repo ⟨"open".toList, name, 0, 0⟩ =
      Result.ok (pulls, r))
    (hne : pulls ≠ []) :
    name ∉ returnedNames (getDeletableBranches fuel g args now) := by
  intro hx
  obtain ⟨repo2, resp2, prs2, c2, b, -, -, h3, h4⟩ :=
    getDeletableBranches_sound fuel g args now _ hx
  rw [visit_eq_passesEveryRule, passesEveryRule_iff] at h3
  obtain ⟨r2, hr2⟩ := h3.2.2.2.2.2.2.2
  rw [h4, hbase] at hr2
  simp only [Result.ok.injEq, Prod.mk.injEq] at hr2
  exact hne hr2.1

theorem pull_request_base_never_returned_witness :
    demoClient.client.ListPullRequests demoClient.owner demoClient.repo
        ⟨"open".toList, "release-base".toList, 0, 0⟩ =
        Result.ok ([⟨"release-hot".toList⟩], ⟨0⟩) ∧
      "release-base".toList ∉
        returnedNames (getDeletableBranches 3 demoClient demoArgs demoNow) :=
  ⟨rfl, pull_request_base_never_returned 3 demoClient demoArgs demoNow "release-base".toList
    [⟨"release-hot".toList⟩] ⟨0⟩ rfl (by simp)⟩

theorem deleteBranches_all (g : GitHubClientWrapper) (bs : List Str) : ∀ deleted : List Str,
    (∀ pre x post, bs = pre ++ x :: post →
      g.client.DeleteRef (deleted ++ pre.map (fun b => "refs/heads/".toList ++ b)) g.owner g.repo
        ("refs/heads/".toList ++ x) = none) →
    deleteBranches g bs deleted =
      ((none, deleted ++ bs.map (fun b => "refs/heads/".toList ++ b)),
        bs.map (fun b => Call.DeleteRef g.owner g.repo ("refs/heads/".toList ++ b))) := by
  induction bs with
  | nil => intro deleted _; simp [deleteBranches]
  | cons b bs ih =>
    intro deleted h
    have h0 := h [] b bs rfl
    simp only [List.map_nil, List.append_nil] at h0
    rw [deleteBranches, h0]
    simp only
    rw [ih (deleted ++ ["refs/heads/".toList ++ b])]
    · simp
    · intro pre x post hb
      have := h (b :: pre) x post (by rw [hb]; rfl)
      simpa using this

theorem deleteBranches_first_failure (g : GitHubClientWrapper) (pre : List Str) :
    ∀ (deleted : List Str) (x : Str) (post : List Str) (e : Err),
    (∀ p1 y p2, pre = p1 ++ y :: p2 →
      g.client.DeleteRef (deleted ++ p1.map (fun b => "refs/heads/".toList ++ b)) g.owner g.repo
        ("refs/heads/".toList ++ y) = none) →
    g.client.DeleteRef (deleted ++ pre.map (fun b => "refs/heads/".toList ++ b)) g.owner g.repo
        ("refs/heads/".toList ++ x) = some e →
    deleteBranches g (pre ++ x :: post) deleted =
      ((some e, deleted ++ pre.map (fun b => "refs/heads/".toList ++ b)),
        (pre ++ [x]).map (fun b => Call.DeleteRef g.owner g.repo ("refs/heads/".toList ++ b))) := by
  induction pre with
  | nil =>
    intro deleted x post e _ hx
    simp only [List.map_nil, List.append_nil] at hx
    rw [List.nil_append, deleteBranches, hx]
    simp only [List.map_nil, List.append_nil, List.nil_append, List.map_cons]
  | cons b pre ih =>
    intro deleted x post e h hx
    have h0 := h [] b pre rfl
    simp only [List.map_nil, List.append_nil] at h0
    rw [List.cons_append, deleteBranches, h0]
    simp only
    rw [ih (deleted ++ ["refs/heads/".toList ++ b]) x post e]
    · simp
    · intro p1 y p2 hb
      have := h (b :: p1) y p2 (by rw [hb]; rfl)
      simpa using this
    · simpa using hx

/-- C5: `deleteBranches` calls `DeleteRef` on `refs/heads/` + name for the names in order and
stops at the first failing call. If the call for the name `x` that follows the names `pre` is
the first to fail, the references of `pre` and only those are deleted, the calls made are those
for `pre` followed by the one for `x`, which is the last, no call is made for the later names
`post`, and the error of that call is returned. If no call fails, every reference is deleted, in
order, one call each, and the error is `nil`. -/
theorem deleteBranches_stops_at_first_failure (g : GitHubClientWrapper) (deleted : List Str) :
    (∀ (pre : List Str) (x : Str) (post : List Str) (e : Err),
      (∀ p1 y p2, pre = p1 ++ y :: p2 →
        g.client.DeleteRef (deleted ++ p1.map (fun b => "refs/heads/".toList ++ b)) g.owner
          g.repo ("refs/heads/".toList ++ y) = none) →
      g.client.DeleteRef (deleted ++ pre.map (fun b => "refs/heads/".toList ++ b)) g.owner g.repo
          ("refs/heads/".toList ++ x) = some e →
      deleteBranches g (pre ++ x :: post) deleted =
        ((some e, deleted ++ pre.map (fun b => "refs/heads/".toList ++ b)),
          (pre ++ [x]).map
            (fun b => Call.DeleteRef g.owner g.repo ("refs/heads/".toList ++ b)))) ∧
    (∀ bs : List Str,
      (∀ pre x post, bs = pre ++ x :: post →
        g.client.DeleteRef (deleted ++ pre.map (fun b => "refs/heads/".toList ++ b)) g.owner
          g.repo ("refs/heads/".toList ++ x) = none) →
      deleteBranches g bs deleted =
        ((none, deleted ++ bs.map (fun b => "refs/heads/".toList ++ b)),
          bs.map (fun b => Call.DeleteRef g.owner g.repo ("refs/heads/".toList ++ b)))) :=
  ⟨fun pre x post e h hx => deleteBranches_first_failure g pre deleted x post e h hx,
    fun bs h => deleteBranches_all g bs deleted h⟩

theorem deleteBranches_stops_at_first_failure_witness :
    demoClient.client.DeleteRef ["refs/heads/release-v1".toList] demoClient.owner demoClient.repo
        ("refs/heads/".toList ++ "release-v2".toList) = some "reference is locked".toList ∧
      deleteBranches demoClient
          ["release-v1".toList, "release-v2".toList, "release-v3".toList] [] =
        ((some "reference is locked".toList, ["refs/heads/release-v1".toList]),
          [Call.DeleteRef "octo".toList "repo".toList "refs/heads/release-v1".toList,
            Call.DeleteRef "octo".toList "repo".toList "refs/heads/release-v2".toList]) := by
  refine ⟨rfl, ?_⟩
  have h := (deleteBranches_stops_at_first_failure demoClient []).1 ["release-v1".toList]
    "release-v2".toList ["release-v3".toList] "reference is locked".toList
    (by
      intro p1 y p2 hp
      cases p1 with
      | nil =>
        simp only [List.nil_append, List.cons.injEq] at hp
        rw [← hp.1]
        rfl
      | cons a p1 =>
        simp only [List.cons_append, List.cons.injEq] at hp
        have := hp.2
        simp at this)
    rfl
  exact h

/-- C6: when the default-branch fetch and the open-pull-request fetch succeed, the branch pages
`pages` are served and the fetch of the next page (the k-th, with `k = pages.length + 1`) fails,
`getDeletableBranches` returns a `nil` error with the names of the branches of `pages` that pass
every rule, in listing order; and the `ListBranches` calls it makes are the k calls for those
pages and the failing one, with none after it. -/
theorem failing_page_truncates (fuel : Nat) (g : GitHubClientWrapper) (args : Args)
    (now : ℤ) (repo : Repository) (resp : Response) (prs : List PullRequest) (c : List Call)
    (pages : List (List Branch × Response)) (last : ℤ) (e : Err)
    (hrepo : g.client.GetRepository g.owner g.repo = Result.ok (repo, resp))
    (hprs : getAllOpenPullRequests fuel g = some (Result.ok prs, c))
    (hpages : ServesBranchPages g 0 pages last)
    (hlast : g.client.ListBranches g.owner g.repo ⟨last, 100⟩ = Result.err e)
    (hfuel : pages.length < fuel) :
    ∃ calls, getDeletableBranches fuel g args now =
        some ((((pages.flatMap Prod.fst).filter
          (passesEveryRule g args now repo.DefaultBranch prs)).map Branch.Name, none), calls) ∧
      calls.filter Call.isListBranches =
        (pageNumbers 0 pages).map (fun n => Call.ListBranches g.owner g.repo ⟨n, 100⟩) ∧
      (pageNumbers 0 pages).length = pages.length + 1 ∧
      (pageNumbers 0 pages).getLastD 0 = last := by
  refine ⟨_, getDeletableBranches_of_failing_page fuel g args now repo resp prs c pages last e
    hrepo hprs hpages hlast hfuel, ?_, ?_, servesBranchPages_last g pages 0 last hpages⟩
  · have hl := servesBranchPages_last g pages 0 last hpages
    have := pagesTrace_filter_listBranches g args now
      ⟨repo.DefaultBranch, prs, splitNonEmpty args.IgnoreBranches,
        splitNonEmpty args.AllowedPrefixes, splitNonEmpty args.IgnoredPrefixes⟩ pages 0
    rw [hl] at this
    rw [List.filter_cons_of_neg (by simp [Call.isListBranches]), List.filter_append,
      (pulls_filter_listBranches g fuel _ hprs).1, List.nil_append, this]
  · clear hpages hlast hfuel
    generalize (0 : ℤ) = page
    induction pages generalizing page with
    | nil => rfl
    | cons pg rest ih =>
      obtain ⟨bs, r⟩ := pg
      simp only [pageNumbers, List.length_cons, ih]

theorem flaky_pulls :
    getAllOpenPullRequests 3 flakyClient =
      some (Result.ok [⟨"release-hot".toList⟩],
        [Call.ListPullRequests "octo".toList "repo".toList ⟨"open".toList, [], 0, 100⟩]) := by
  decide

theorem failing_page_truncates_witness :
    flakyClient.client.ListBranches flakyClient.owner flakyClient.repo ⟨2, 100⟩ =
        Result.err "server error".toList ∧
      ∃ calls, getDeletableBranches 3 flakyClient demoArgs demoNow =
          some ((["release-v1".toList], none), calls) ∧
        calls.filter Call.isListBranches =
          [Call.ListBranches "octo".toList "repo".toList ⟨0, 100⟩,
            Call.ListBranches "octo".toList "repo".toList ⟨2, 100⟩] := by
  refine ⟨rfl, ?_⟩
  obtain ⟨calls, h1, h2, -, -⟩ := failing_page_truncates 3 flakyClient demoArgs demoNow
    ⟨"main".toList⟩ ⟨0⟩ [⟨"release-hot".toList⟩] _
    [([⟨"main".toList, false⟩, ⟨"release-v1".toList, false⟩, ⟨"release-hot".toList, false⟩,
      ⟨"release-base".toList, false⟩], ⟨2⟩)] 2 "server error".toList
    rfl flaky_pulls ⟨rfl, by decide, rfl⟩ rfl (by decide)
  refine ⟨calls, ?_, h2⟩
  rw [h1]
  simp only [List.flatMap_cons, List.flatMap_nil, List.append_nil]
  have hf : ((([⟨"main".toList, false⟩, ⟨"release-v1".toList, false⟩,
      ⟨"release-hot".toList, false⟩, ⟨"release-base".toList, false⟩] : List Branch).filter
      (passesEveryRule demoClient demoArgs demoNow "main".toList
        [⟨"release-hot".toList⟩])).map Branch.Name) = ["release-v1".toList] := by
    rw [List.filter_cons_of_neg (by rw [demo_fails_main]; simp),
      List.filter_cons_of_pos demo_passes_v1,
      List.filter_cons_of_neg (by rw [demo_fails_hot]; simp),
      List.filter_cons_of_neg (by rw [demo_fails_base]; simp)]
    rfl
  exact congrArg (fun l => some ((l, (none : Option Err)), calls)) hf

/-- C10 (amended): for a configured age `N` between -106751 and 106751 days (the days a
`Duration` can hold), a latest commit at `t` and the clock at `now`: the age test skips the
branch when `now - t` is less than `N*24` hours by two microseconds or more, and such a branch
is never returned; the age test does not skip it when `now - t` is `N*24` hours or more, the
boundary of exactly `N` days included. -/
theorem age_rule_thresholds (now t N : ℤ) (hN1 : -106751 ≤ N) (hN2 : N ≤ 106751) :
    (now - t ≤ N * 24 * 3600000000000 - 2000 → lastCommitIsNewer now t N = true) ∧
    (N * 24 * 3600000000000 ≤ now - t → lastCommitIsNewer now t N = false) ∧
    (∀ (fuel : Nat) (g : GitHubClientWrapper) (args : Args) (name : Str)
      (rest : List RepositoryCommit) (r : Response),
      args.LastCommitAgeDays = N →
      g.client.ListCommits g.owner g.repo ⟨name, 0, 1⟩ = Result.ok (⟨t⟩ :: rest, r) →
      now - t ≤ N * 24 * 3600000000000 - 2000 →
      name ∉ returnedNames (getDeletableBranches fuel g args now)) := by
  refine ⟨lastCommitIsNewer_of_young now t N hN1 hN2, lastCommitIsNewer_of_old now t N hN1 hN2,
    ?_⟩
  intro fuel g args name rest r hN hc hyoung hx
  obtain ⟨repo2, resp2, prs2, c2, b, -, -, h3, h4⟩ :=
    getDeletableBranches_sound fuel g args now _ hx
  rw [visit_eq_passesEveryRule, passesEveryRule_iff] at h3
  obtain ⟨latest, rest2, r2, hl, hage⟩ := h3.2.2.2.2.2.1
  rw [h4, hc] at hl
  simp only [Result.ok.injEq, Prod.mk.injEq, List.cons.injEq] at hl
  rw [← hl.1.1, hN] at hage
  have hnew := lastCommitIsNewer_of_young now t N hN1 hN2 hyoung
  rw [lastCommitIsNewer_eq] at hnew
  simp only [Bool.not_eq_true', decide_eq_false_iff_not] at hnew
  exact hnew hage

theorem age_rule_thresholds_witness :
    ((-106751 : ℤ) ≤ 30 ∧ (30 : ℤ) ≤ 106751) ∧
      lastCommitIsNewer demoNow 0 30 = false ∧
      lastCommitIsNewer demoNow 3456000000000000000 30 = true ∧
      "release-new".toList ∉ returnedNames (getDeletableBranches 3 demoClient demoArgs demoNow) :=
  ⟨⟨by norm_num, by norm_num⟩,
    (age_rule_thresholds demoNow 0 30 (by norm_num) (by norm_num)).2.1
      (by unfold demoNow; norm_num),
    (age_rule_thresholds demoNow 3456000000000000000 30 (by norm_num) (by norm_num)).1
      (by unfold demoNow; norm_num),
    (age_rule_thresholds demoNow 3456000000000000000 30 (by norm_num) (by norm_num)).2.2
      3 demoClient demoArgs "release-new".toList [] ⟨0⟩ rfl rfl (by unfold demoNow; norm_num)⟩

/-! ## Splitting: proofs -/

theorem splitScan_nil (c : Char) : splitScan [c] 0 [] = [[]] := rfl

theorem splitScan_cons (c x : Char) (xs : Str) :
    splitScan [c] 0 (x :: xs) =
      if x = c then [] :: splitScan [c] 0 xs else consHead x (splitScan [c] 0 xs) := by
  rw [splitScan]
  by_cases h : x = c
  · subst h
    simp [List.isPrefixOf]
  · have : ¬ c = x := fun e => h e.symm
    simp [List.isPrefixOf, h, this]

theorem splitScan_ne_nil (c : Char) (s : Str) : splitScan [c] 0 s ≠ [] := by
  cases s with
  | nil => simp [splitScan_nil]
  | cons x xs =>
    rw [splitScan_cons]
    split_ifs
    · simp
    · cases splitScan [c] 0 xs <;> simp [consHead]

theorem consHead_append (x : Char) (l m : List Str) (h : l ≠ []) :
    consHead x (l ++ m) = consHead x l ++ m := by
  cases l with
  | nil => exact absurd rfl h
  | cons y ys => rfl

/-- Splitting commutes with cutting the text at one occurrence of the separator. -/
theorem splitScan_append (c : Char) (a rest : Str) :
    splitScan [c] 0 (a ++ c :: rest) = splitScan [c] 0 a ++ splitScan [c] 0 rest := by
  induction a with
  | nil => simp [splitScan_cons, splitScan_nil]
  | cons x a ih =>
    rw [List.cons_append, splitScan_cons, splitScan_cons, ih]
    split_ifs
    · rfl
    · rw [consHead_append _ _ _ (splitScan_ne_nil c a)]

theorem splitScan_of_not_mem (c : Char) (s : Str) (h : c ∉ s) : splitScan [c] 0 s = [s] := by
  induction s with
  | nil => rfl
  | cons x xs ih =>
    have hx : x ≠ c := fun e => h (by rw [e]; exact List.mem_cons_self _ _)
    have hxs : c ∉ xs := fun m => h (List.mem_cons_of_mem _ m)
    rw [splitScan_cons, if_neg hx, ih hxs]
    rfl

theorem splitScan_length (c : Char) (s : Str) :
    (splitScan [c] 0 s).length = s.count c + 1 := by
  induction s with
  | nil => rfl
  | cons x xs ih =>
    rw [splitScan_cons]
    by_cases h : x = c
    · subst h
      simp [ih]
    · rw [if_neg h, List.count_cons_of_ne (fun e => h e.symm)]
      have := splitScan_ne_nil c xs
      cases hs : splitScan [c] 0 xs with
      | nil => exact absurd hs this
      | cons y ys => rw [hs] at ih; simpa [consHead] using ih

theorem splitScan_pieces (c : Char) (s : Str) : ∀ x ∈ splitScan [c] 0 s, c ∉ x := by
  induction s with
  | nil => intro x hx; simp [splitScan_nil] at hx; subst hx; simp
  | cons y ys ih =>
    intro x hx
    rw [splitScan_cons] at hx
    by_cases h : y = c
    · rw [if_pos h] at hx
      rcases List.mem_cons.1 hx with h1 | h1
      · subst h1; simp
      · exact ih x h1
    · rw [if_neg h] at hx
      cases hs : splitScan [c] 0 ys with
      | nil => exact absurd hs (splitScan_ne_nil c ys)
      | cons z zs =>
        rw [hs] at hx ih
        simp only [consHead, List.mem_cons] at hx
        rcases hx with h1 | h1
        · subst h1
          intro hm
          rcases List.mem_cons.1 hm with h2 | h2
          · exact h h2.symm
          · exact ih z (List.mem_cons_self _ _) h2
        · exact ih x (List.mem_cons_of_mem _ h1)

theorem join_consHead (x : Char) (l : List Str) (sep : Str) (h : l ≠ []) :
    Join (consHead x l) sep = x :: Join l sep := by
  cases l with
  | nil => exact absurd rfl h
  | cons y ys =>
    cases ys with
    | nil => rfl
    | cons z zs => rfl

theorem join_splitScan (c : Char) (s : Str) : Join (splitScan [c] 0 s) [c] = s := by
  induction s with
  | nil => rfl
  | cons x xs ih =>
    rw [splitScan_cons]
    by_cases h : x = c
    · subst h
      rw [if_pos rfl]
      cases hs : splitScan [x] 0 xs with
      | nil => exact absurd hs (splitScan_ne_nil x xs)
      | cons y ys =>
        rw [hs] at ih
        simp only [Join, List.nil_append, List.singleton_append, ih]
    · rw [if_neg h, join_consHead _ _ _ (splitScan_ne_nil c xs), ih]

theorem exists_first_occurrence (c : Char) (s : Str) (h : c ∈ s) :
    ∃ a rest, s = a ++ c :: rest ∧ c ∉ a := by
  induction s with
  | nil => simp at h
  | cons x xs ih =>
    by_cases hx : x = c
    · exact ⟨[], xs, by rw [hx]; rfl, by simp⟩
    · rcases List.mem_cons.1 h with h1 | h1
      · exact absurd h1.symm hx
      · obtain ⟨a, rest, h2, h3⟩ := ih h1
        refine ⟨x :: a, rest, by rw [h2]; rfl, ?_⟩
        intro hm
        rcases List.mem_cons.1 hm with h4 | h4
        · exact hx h4.symm
        · exact h3 h4

theorem split_char (s : Str) (c : Char) : Split s [c] = splitScan [c] 0 s := by
  unfold Split
  rw [if_neg (by simp)]

theorem splitScan_eq_singleton (c : Char) (s r : Str) (h : splitScan [c] 0 s = [r]) :
    c ∉ s ∧ r = s := by
  have hl := splitScan_length c s
  rw [h] at hl
  simp only [List.length_singleton] at hl
  have hc : c ∉ s := by
    intro hm
    have := List.count_pos_iff.2 hm
    omega
  rw [splitScan_of_not_mem c s hc] at h
  simp only [List.cons.injEq, and_true] at h
  exact ⟨hc, h.symm⟩

/-! ## Claims C16, C17, C19 -/

theorem isValidRepoNameFormat_iff (s : Str) :
    isValidRepoNameFormat s = true ↔
      ∃ a b, s = a ++ '/' :: b ∧ '/' ∉ a ∧ '/' ∉ b ∧ a ≠ [] ∧ b ≠ [] := by
  unfold isValidRepoNameFormat
  rw [split_char]
  constructor
  · intro h
    by_cases hm : '/' ∈ s
    · obtain ⟨a, rest, hs, ha⟩ := exists_first_occurrence '/' s hm
      rw [hs, splitScan_append, splitScan_of_not_mem '/' a ha] at h
      cases hr : splitScan ['/'] 0 rest with
      | nil => exact absurd hr (splitScan_ne_nil '/' rest)
      | cons y ys =>
        rw [hr] at h
        cases ys with
        | nil =>
          obtain ⟨hb, hy⟩ := splitScan_eq_singleton '/' rest y hr
          subst hy
          simp only [List.singleton_append, Bool.and_eq_true, bne_iff_ne, ne_eq] at h
          exact ⟨a, y, hs, ha, hb, h.1, h.2⟩
        | cons z zs => simp at h
    · rw [splitScan_of_not_mem '/' s hm] at h
      simp at h
  · rintro ⟨a, b, hs, ha, hb, hne1, hne2⟩
    rw [hs, splitScan_append, splitScan_of_not_mem '/' a ha, splitScan_of_not_mem '/' b hb]
    simp [hne1, hne2]

/-- C16: `isValidRepoNameFormat s` is true exactly when `s` is a non-empty part without `/`,
one `/`, and another non-empty part without `/` (so `s` holds exactly one `/`); `owner/repo` is
accepted and `/repo`, `owner/`, `owner` and `owner/repo/extra` are rejected. -/
theorem isValidRepoNameFormat_exactly_one_slash (s : Str) :
    (isValidRepoNameFormat s = true ↔
      ∃ a b, s = a ++ '/' :: b ∧ '/' ∉ a ∧ '/' ∉ b ∧ a ≠ [] ∧ b ≠ []) ∧
    (isValidRepoNameFormat s = true → s.count '/' = 1) ∧
    isValidRepoNameFormat "owner/repo".toList = true ∧
    isValidRepoNameFormat "/repo".toList = false ∧
    isValidRepoNameFormat "owner/".toList = false ∧
    isValidRepoNameFormat "owner".toList = false ∧
    isValidRepoNameFormat "owner/repo/extra".toList = false := by
  refine ⟨isValidRepoNameFormat_iff s, ?_, by decide, by decide, by decide, by decide, by decide⟩
  intro h
  obtain ⟨a, b, hs, ha, hb, -, -⟩ := (isValidRepoNameFormat_iff s).1 h
  rw [hs, List.count_append, List.count_cons_self, List.count_eq_zero_of_not_mem ha,
    List.count_eq_zero_of_not_mem hb]

theorem isValidRepoNameFormat_exactly_one_slash_witness :
    isValidRepoNameFormat "octo/repo".toList = true ∧ "octo/repo".toList.count '/' = 1 :=
  ⟨by decide, (isValidRepoNameFormat_exactly_one_slash "octo/repo".toList).2.1 (by decide)⟩

/-- C17: `splitNonEmpty` of the empty string is the empty list; for a non-empty `s` it is the
list of the comma-free segments of `s` in order, nothing trimmed and empty segments kept: it has
as many elements as `s` has commas plus one, no element holds a comma, and joining the elements
with a comma gives `s` back. -/
theorem splitNonEmpty_segments (s : Str) :
    splitNonEmpty [] = [] ∧
    (s ≠ [] →
      (splitNonEmpty s).length = s.count ',' + 1 ∧
      (∀ x ∈ splitNonEmpty s, ',' ∉ x) ∧
      Join (splitNonEmpty s) [','] = s) := by
  refine ⟨rfl, ?_⟩
  intro hs
  unfold splitNonEmpty
  rw [if_neg hs, split_char]
  exact ⟨splitScan_length ',' s, splitScan_pieces ',' s, join_splitScan ',' s⟩

theorem splitNonEmpty_segments_witness :
    "a, b,,c".toList ≠ [] ∧
      splitNonEmpty "a, b,,c".toList = ["a".toList, " b".toList, [], "c".toList] ∧
      (splitNonEmpty "a, b,,c".toList).length = "a, b,,c".toList.count ',' + 1 ∧
      Join (splitNonEmpty "a, b,,c".toList) [','] = "a, b,,c".toList :=
  ⟨by decide, by decide,
    ((splitNonEmpty_segments "a, b,,c".toList).2 (by decide)).1,
    ((splitNonEmpty_segments "a, b,,c".toList).2 (by decide)).2.2⟩

/-- C19: for a name `r` that `isValidRepoNameFormat` accepts, the owner, a `/` and the
repository name give `r` back, and neither part is empty or holds a `/`; for `r` without a `/`
both functions return `r`; for `r` with more than one `/` they return the first and the second
segment. -/
theorem parseRepo_parts (r : Str) :
    (isValidRepoNameFormat r = true →
      parseRepoOwner r ++ '/' :: parseRepoName r = r ∧
      parseRepoOwner r ≠ [] ∧ parseRepoName r ≠ [] ∧
      '/' ∉ parseRepoOwner r ∧ '/' ∉ parseRepoName r) ∧
    ('/' ∉ r → parseRepoOwner r = r ∧ parseRepoName r = r) ∧
    (∀ a b rest, r = a ++ '/' :: (b ++ '/' :: rest) → '/' ∉ a → '/' ∉ b →
      parseRepoOwner r = a ∧ parseRepoName r = b) := by
  refine ⟨?_, ?_, ?_⟩
  · intro h
    obtain ⟨a, b, hs, ha, hb, hne1, hne2⟩ := (isValidRepoNameFormat_iff r).1 h
    have hsplit : splitScan ['/'] 0 r = [a, b] := by
      rw [hs, splitScan_append, splitScan_of_not_mem '/' a ha, splitScan_of_not_mem '/' b hb]
      rfl
    have ho : parseRepoOwner r = a := by
      unfold parseRepoOwner
      rw [split_char, hsplit]
      rfl
    have hn : parseRepoName r = b := by
      unfold parseRepoName
      rw [split_char, hsplit]
      rfl
    rw [ho, hn]
    exact ⟨hs.symm, hne1, hne2, ha, hb⟩
  · intro h
    have hsplit := splitScan_of_not_mem '/' r h
    constructor
    · unfold parseRepoOwner
      rw [split_char, hsplit]
      rfl
    · unfold parseRepoName
      rw [split_char, hsplit]
      rfl
  · intro a b rest hs ha hb
    have hsplit : splitScan ['/'] 0 r = a :: b :: splitScan ['/'] 0 rest := by
      rw [hs, splitScan_append, splitScan_append, splitScan_of_not_mem '/' a ha,
        splitScan_of_not_mem '/' b hb]
      rfl
    constructor
    · unfold parseRepoOwner
      rw [split_char, hsplit]
      rfl
    · unfold parseRepoName
      rw [split_char, hsplit]
      simp

theorem parseRepo_parts_witness :
    (isValidRepoNameFormat "owner/repo".toList = true ∧
      parseRepoOwner "owner/repo".toList ++ '/' :: parseRepoName "owner/repo".toList =
        "owner/repo".toList) ∧
    ('/' ∉ "repo".toList ∧ parseRepoName "repo".toList = "repo".toList) ∧
    (parseRepoOwner "owner/repo/extra".toList = "owner".toList ∧
      parseRepoName "owner/repo/extra".toList = "repo".toList) :=
  ⟨⟨by decide, ((parseRepo_parts "owner/repo".toList).1 (by decide)).1⟩,
    ⟨by decide, ((parseRepo_parts "repo".toList).2.1 (by decide)).2⟩,
    (parseRepo_parts "owner/repo/extra".toList).2.2 "owner".toList "repo".toList
      "extra".toList (by decide) (by decide) (by decide)⟩

/-! ## Claims C13, C14, C15, C18, C20 -/

theorem pulls_served_ok (g : GitHubClientWrapper) (last : ℤ) (lastPulls : List PullRequest)
    (hlast : g.client.ListPullRequests g.owner g.repo ⟨"open".toList, [], last, 100⟩ =
      Result.ok (lastPulls, ⟨0⟩)) :
    ∀ (pages : List (List PullRequest × Response)) (page : ℤ) (fuel : Nat)
      (acc : List PullRequest),
      ServesPullPages g page pages last → pages.length < fuel →
      ∃ calls, getAllOpenPullRequests.loop g fuel ⟨"open".toList, [], page, 100⟩ acc =
        some (Result.ok (acc ++ pages.flatMap Prod.fst ++ lastPulls), calls) := by
  intro pages
  induction pages with
  | nil =>
    intro page fuel acc h hf
    simp only [ServesPullPages] at h
    subst h
    obtain ⟨n, rfl⟩ : ∃ n, fuel = n + 1 := ⟨fuel - 1, by simp at hf; omega⟩
    rw [getAllOpenPullRequests.loop, hlast]
    simp
  | cons pg rest ih =>
    intro page fuel acc h hf
    obtain ⟨pulls, resp⟩ := pg
    obtain ⟨h1, h2, h3⟩ := h
    obtain ⟨n, rfl⟩ : ∃ n, fuel = n + 1 := ⟨fuel - 1, by simp at hf; omega⟩
    obtain ⟨calls, hc⟩ := ih resp.NextPage n (acc ++ pulls) h3 (by simp at hf; omega)
    refine ⟨Call.ListPullRequests g.owner g.repo ⟨"open".toList, [], page, 100⟩ :: calls, ?_⟩
    rw [getAllOpenPullRequests.loop, h1]
    simp only [if_neg h2, hc, List.flatMap_cons, List.append_assoc]

theorem pulls_served_err (g : GitHubClientWrapper) (last : ℤ) (e : Err)
    (hlast : g.client.ListPullRequests g.owner g.repo ⟨"open".toList, [], last, 100⟩ =
      Result.err e) :
    ∀ (pages : List (List PullRequest × Response)) (page : ℤ) (fuel : Nat)
      (acc : List PullRequest),
      ServesPullPages g page pages last → pages.length < fuel →
      ∃ calls, getAllOpenPullRequests.loop g fuel ⟨"open".toList, [], page, 100⟩ acc =
        some (Result.err e, calls) := by
  intro pages
  induction pages with
  | nil =>
    intro page fuel acc h hf
    simp only [ServesPullPages] at h
    subst h
    obtain ⟨n, rfl⟩ : ∃ n, fuel = n + 1 := ⟨fuel - 1, by simp at hf; omega⟩
    rw [getAllOpenPullRequests.loop, hlast]
    exact ⟨_, rfl⟩
  | cons pg rest ih =>
    intro page fuel acc h hf
    obtain ⟨pulls, resp⟩ := pg
    obtain ⟨h1, h2, h3⟩ := h
    obtain ⟨n, rfl⟩ : ∃ n, fuel = n + 1 := ⟨fuel - 1, by simp at hf; omega⟩
    obtain ⟨calls, hc⟩ := ih resp.NextPage n (acc ++ pulls) h3 (by simp at hf; omega)
    refine ⟨Call.ListPullRequests g.owner g.repo ⟨"open".toList, [], page, 100⟩ :: calls, ?_⟩
    rw [getAllOpenPullRequests.loop, h1]
    simp only [if_neg h2, hc]

/-- C13: if the default-branch fetch fails, `getDeletableBranches` returns that error with no
branch and makes no other call; if a page of open pull requests fails (after the pages `pages`),
it returns that error with no branch and makes no `ListBranches`, `ListCommits` or `DeleteRef`
call; `getAllOpenPullRequests` returns the pages joined in order when every page succeeds, and
the error with no list when a page fails. -/
theorem fatal_fetch_errors (fuel : Nat) (g : GitHubClientWrapper) (args : Args) (now : ℤ) :
    (∀ e, g.client.GetRepository g.owner g.repo = Result.err e →
      getDeletableBranches fuel g args now =
        some (([], some e), [Call.GetRepository g.owner g.repo])) ∧
    (∀ repo resp pages last e,
      g.client.GetRepository g.owner g.repo = Result.ok (repo, resp) →
      ServesPullPages g 0 pages last →
      g.client.ListPullRequests g.owner g.repo ⟨"open".toList, [], last, 100⟩ = Result.err e →
      pages.length < fuel →
      ∃ calls, getDeletableBranches fuel g args now = some (([], some e), calls) ∧
        calls.filter Call.isListBranches = [] ∧ calls.filter Call.isListCommits = [] ∧
        calls.filter Call.isDeleteRef = []) ∧
    (∀ pages last lastPulls,
      ServesPullPages g 0 pages last →
      g.client.ListPullRequests g.owner g.repo ⟨"open".toList, [], last, 100⟩ =
        Result.ok (lastPulls, ⟨0⟩) →
      pages.length < fuel →
      ∃ calls, getAllOpenPullRequests fuel g =
        some (Result.ok (pages.flatMap Prod.fst ++ lastPulls), calls)) ∧
    (∀ pages last e,
      ServesPullPages g 0 pages last →
      g.client.ListPullRequests g.owner g.repo ⟨"open".toList, [], last, 100⟩ = Result.err e →
      pages.length < fuel →
      ∃ calls, getAllOpenPullRequests fuel g = some (Result.err e, calls)) := by
  refine ⟨?_, ?_, ?_, ?_⟩
  · intro e he
    unfold getDeletableBranches getDefaultBranch
    rw [he]
  · intro repo resp pages last e hrepo hpages hlast hfuel
    obtain ⟨calls, hc⟩ := pulls_served_err g last e hlast pages 0 fuel [] hpages hfuel
    have hc2 : getAllOpenPullRequests fuel g = some (Result.err e, calls) := hc
    obtain ⟨k1, k2, k3, -⟩ := pulls_filter_listBranches g fuel _ hc2
    refine ⟨Call.GetRepository g.owner g.repo :: calls, ?_, ?_, ?_, ?_⟩
    · unfold getDeletableBranches getDefaultBranch
      rw [hrepo]
      simp only
      rw [hc2]
      rfl
    · rw [List.filter_cons_of_neg (by simp [Call.isListBranches])]; exact k1
    · rw [List.filter_cons_of_neg (by simp [Call.isListCommits])]; exact k2
    · rw [List.filter_cons_of_neg (by simp [Call.isDeleteRef])]; exact k3
  · intro pages last lastPulls hpages hlast hfuel
    obtain ⟨calls, hc⟩ := pulls_served_ok g last lastPulls hlast pages 0 fuel [] hpages hfuel
    exact ⟨calls, by simpa [getAllOpenPullRequests] using hc⟩
  · intro pages last e hpages hlast hfuel
    exact pulls_served_err g last e hlast pages 0 fuel [] hpages hfuel

theorem fatal_fetch_errors_witness :
    getDeletableBranches 3 brokenClient demoArgs demoNow =
        some (([], some "unauthorized".toList),
          [Call.GetRepository "octo".toList "repo".toList]) ∧
      (∃ calls, getDeletableBranches 3 pullFailClient demoArgs demoNow =
          some (([], some "timeout".toList), calls) ∧
        calls.filter Call.isListBranches = [] ∧ calls.filter Call.isListCommits = [] ∧
        calls.filter Call.isDeleteRef = []) ∧
      (∃ calls, getAllOpenPullRequests 3 demoClient =
        some (Result.ok [⟨"release-hot".toList⟩], calls)) :=
  ⟨(fatal_fetch_errors 3 brokenClient demoArgs demoNow).1 "unauthorized".toList rfl,
    (fatal_fetch_errors 3 pullFailClient demoArgs demoNow).2.1 ⟨"main".toList⟩ ⟨0⟩
      [([⟨"release-hot".toList⟩], ⟨3⟩)] 3 "timeout".toList rfl ⟨rfl, by decide, rfl⟩ rfl
      (by decide),
    (fatal_fetch_errors 3 demoClient demoArgs demoNow).2.2.1 [] 0 [⟨"release-hot".toList⟩]
      rfl rfl (by decide)⟩

theorem passesEveryRule_congr (g g2 : GitHubClientWrapper) (args : Args) (now : ℤ)
    (d : Str) (prs : List PullRequest) (x : Branch)
    (hc : g2.client.ListCommits g2.owner g2.repo ⟨x.Name, 0, 1⟩ =
      g.client.ListCommits g.owner g.repo ⟨x.Name, 0, 1⟩)
    (hb : g2.client.ListPullRequests g2.owner g2.repo ⟨"open".toList, x.Name, 0, 0⟩ =
      g.client.ListPullRequests g.owner g.repo ⟨"open".toList, x.Name, 0, 0⟩) :
    passesEveryRule g2 args now d prs x = passesEveryRule g args now d prs x := by
  unfold passesEveryRule
  rw [hc, hb]

/-- C14: over a listing served to its end, a branch `b` whose commit lookup returns an error or
no commit, or whose base query returns an error, is left out of the result; the error returned
is still `nil`; and the result is the one computed from the listing without `b`: the verdict on
a branch is a function of that branch, the default branch name, the open pull requests and the
configuration, and uses of the remote only the commit lookup and the base query for that
branch. -/
theorem failing_lookup_skips_only_that_branch (fuel : Nat) (g : GitHubClientWrapper)
    (args : Args) (now : ℤ) (repo : Repository) (resp : Response) (prs : List PullRequest)
    (c : List Call) (pages : List (List Branch × Response)) (last : ℤ)
    (lastBranches : List Branch) (b : Branch)
    (hrepo : g.client.GetRepository g.owner g.repo = Result.ok (repo, resp))
    (hprs : getAllOpenPullRequests fuel g = some (Result.ok prs, c))
    (hpages : ServesBranchPages g 0 pages last)
    (hlast : g.client.ListBranches g.owner g.repo ⟨last, 100⟩ = Result.ok (lastBranches, ⟨0⟩))
    (hfuel : pages.length < fuel)
    (hfail : (∃ e, g.client.ListCommits g.owner g.repo ⟨b.Name, 0, 1⟩ = Result.err e) ∨
      (∃ r, g.client.ListCommits g.owner g.repo ⟨b.Name, 0, 1⟩ = Result.ok ([], r)) ∨
      (∃ e, g.client.ListPullRequests g.owner g.repo ⟨"open".toList, b.Name, 0, 0⟩ =
        Result.err e)) :
    (∃ calls, getDeletableBranches fuel g args now =
      some (((((pages.flatMap Prod.fst ++ lastBranches).filter (fun x => decide (x ≠ b))).filter
        (passesEveryRule g args now repo.DefaultBranch prs)).map Branch.Name, none), calls)) ∧
    b.Name ∉ returnedNames (getDeletableBranches fuel g args now) ∧
    (∀ (g2 : GitHubClientWrapper) (x : Branch),
      g2.client.ListCommits g2.owner g2.repo ⟨x.Name, 0, 1⟩ =
        g.client.ListCommits g.owner g.repo ⟨x.Name, 0, 1⟩ →
      g2.client.ListPullRequests g2.owner g2.repo ⟨"open".toList, x.Name, 0, 0⟩ =
        g.client.ListPullRequests g.owner g.repo ⟨"open".toList, x.Name, 0, 0⟩ →
      passesEveryRule g2 args now repo.DefaultBranch prs x =
        passesEveryRule g args now repo.DefaultBranch prs x) := by
  have hname : ∀ x : Branch, x.Name = b.Name →
      passesEveryRule g args now repo.DefaultBranch prs x = false := by
    intro x hx
    rw [Bool.eq_false_iff, Ne, passesEveryRule_iff]
    intro h
    obtain ⟨latest, rest, r, hl, -⟩ := h.2.2.2.2.2.1
    obtain ⟨r2, hr2⟩ := h.2.2.2.2.2.2.2
    rw [hx] at hl hr2
    rcases hfail with ⟨e, he⟩ | ⟨r3, he⟩ | ⟨e, he⟩
    · rw [he] at hl; cases hl
    · rw [he] at hl
      simp only [Result.ok.injEq, Prod.mk.injEq] at hl
      cases hl.1
    · rw [he] at hr2; cases hr2
  have h := getDeletableBranches_of_listing fuel g args now repo resp prs c pages last
    lastBranches hrepo hprs hpages hlast hfuel
  have hf : (pages.flatMap Prod.fst ++ lastBranches).filter
      (passesEveryRule g args now repo.DefaultBranch prs) =
      ((pages.flatMap Prod.fst ++ lastBranches).filter (fun x => decide (x ≠ b))).filter
        (passesEveryRule g args now repo.DefaultBranch prs) := by
    rw [List.filter_filter]
    apply List.filter_congr
    intro x _
    by_cases hx : x = b
    · rw [hx, hname b rfl]; rfl
    · simp [hx]
  refine ⟨?_, ?_, fun g2 x hc hb => passesEveryRule_congr g g2 args now _ prs x hc hb⟩
  · rw [h, hf]
    exact ⟨_, rfl⟩
  · rw [h, returnedNames_some]
    intro hm
    obtain ⟨x, hx, hn⟩ := List.mem_map.1 hm
    have hp := (List.mem_filter.1 hx).2
    rw [hname x hn] at hp
    cases hp

theorem failing_lookup_skips_only_that_branch_witness :
    (∃ e, demoClient.client.ListCommits demoClient.owner demoClient.repo
        ⟨"release-gone".toList, 0, 1⟩ = Result.err e) ∧
      "release-gone".toList ∉
        returnedNames (getDeletableBranches 3 demoClient demoArgs demoNow) :=
  ⟨⟨"not found".toList, rfl⟩,
    (failing_lookup_skips_only_that_branch 3 demoClient demoArgs demoNow
      ⟨"main".toList⟩ ⟨0⟩ [⟨"release-hot".toList⟩] _
      [([⟨"main".toList, false⟩, ⟨"release-v1".toList, false⟩, ⟨"release-hot".toList, false⟩,
        ⟨"release-base".toList, false⟩], ⟨2⟩)] 2
      [⟨"release-new".toList, false⟩, ⟨"feature-x".toList, false⟩,
        ⟨"release-v2".toList, false⟩, ⟨"release-lts".toList, true⟩,
        ⟨"release-gone".toList, false⟩]
      ⟨"release-gone".toList, false⟩
      rfl demo_pulls ⟨rfl, by decide, rfl⟩ rfl (by decide)
      (Or.inl ⟨"not found".toList, rfl⟩)).2.1⟩

theorem pages_no_deleteRef (g : GitHubClientWrapper) (args : Args) (now : ℤ) (p : Policy) :
    ∀ (fuel : Nat) (opts : BranchListOptions) (acc : List Str) (r : List Str × List Call),
      getDeletableBranches.pages g args now p fuel opts acc = some r →
      r.2.filter Call.isDeleteRef = [] := by
  intro fuel
  induction fuel with
  | zero => intro opts acc r h; simp [getDeletableBranches.pages] at h
  | succ n ih =>
    intro opts acc r h
    rw [getDeletableBranches.pages] at h
    cases hl : g.client.ListBranches g.owner g.repo opts with
    | err e =>
      rw [hl] at h
      simp only [Option.some.injEq] at h
      subst h
      rfl
    | ok v =>
      obtain ⟨branches, resp⟩ := v
      rw [hl] at h
      simp only [range_spec] at h
      by_cases hn : resp.NextPage = 0
      · rw [if_pos hn] at h
        simp only [Option.some.injEq] at h
        subst h
        rw [List.filter_cons_of_neg (by simp [Call.isDeleteRef])]
        exact visitCalls_filter_deleteRef g args now p branches
      · rw [if_neg hn] at h
        cases hp : getDeletableBranches.pages g args now p n { opts with Page := resp.NextPage }
            (acc ++ eligibleNames g args now p branches) with
        | none => rw [hp] at h; simp at h
        | some q =>
          rw [hp] at h
          simp only [Option.some.injEq] at h
          subst h
          rw [List.filter_cons_of_neg (by simp [Call.isDeleteRef]), List.filter_append,
            visitCalls_filter_deleteRef, ih _ _ _ hp]
          rfl

theorem getDeletableBranches_no_deleteRef (fuel : Nat) (g : GitHubClientWrapper) (args : Args)
    (now : ℤ) :
    (callsMade (getDeletableBranches fuel g args now)).filter Call.isDeleteRef = [] := by
  unfold getDeletableBranches getDefaultBranch
  cases hr : g.client.GetRepository g.owner g.repo with
  | err e => rfl
  | ok v =>
    obtain ⟨repo, resp⟩ := v
    simp only
    cases hp : getAllOpenPullRequests fuel g with
    | none => rfl
    | some w =>
      obtain ⟨res, c⟩ := w
      have hk := (pulls_filter_listBranches g fuel _ hp).2.2.1
      cases res with
      | err e =>
        simp only [callsMade, List.singleton_append]
        rw [List.filter_cons_of_neg (by simp [Call.isDeleteRef])]
        exact hk
      | ok prs =>
        simp only
        cases hq : getDeletableBranches.pages g args now
            ⟨repo.DefaultBranch, prs, splitNonEmpty args.IgnoreBranches,
              splitNonEmpty args.AllowedPrefixes, splitNonEmpty args.IgnoredPrefixes⟩
            fuel ⟨0, 100⟩ [] with
        | none => rfl
        | some q =>
          simp only [callsMade, List.singleton_append, List.cons_append]
          rw [List.filter_cons_of_neg (by simp [Call.isDeleteRef]), List.filter_append,
            pages_no_deleteRef g args now _ fuel _ _ q hq]
          simpa using hk

/-- C15: with the dry-run flag set a run makes no `DeleteRef` call, whatever the remote; and
`getDeletableBranches` makes no `DeleteRef` call, whatever the flag. -/
theorem dry_run_deletes_nothing (fuel : Nat) (args : Args) (client : GitHubAPI) (now : ℤ)
    (g : GitHubClientWrapper) :
    (args.DryRun = true →
      (callsMade (main fuel args client now)).filter Call.isDeleteRef = []) ∧
    (callsMade (getDeletableBranches fuel g args now)).filter Call.isDeleteRef = [] := by
  refine ⟨?_, getDeletableBranches_no_deleteRef fuel g args now⟩
  intro hdry
  unfold main
  split_ifs with hv
  · rfl
  · have hk := getDeletableBranches_no_deleteRef fuel
      ⟨client, parseRepoOwner args.GithubRepo, parseRepoName args.GithubRepo⟩ args now
    simp only
    cases hg : getDeletableBranches fuel
        ⟨client, parseRepoOwner args.GithubRepo, parseRepoName args.GithubRepo⟩ args now with
    | none => rfl
    | some x =>
      obtain ⟨⟨names, err⟩, calls⟩ := x
      rw [hg] at hk
      cases err with
      | some e => exact hk
      | none =>
        simp only [hdry, if_true]
        exact hk

theorem dry_run_deletes_nothing_witness :
    dryArgs.DryRun = true ∧
      (callsMade (main 3 dryArgs demoAPI demoNow)).filter Call.isDeleteRef = [] :=
  ⟨rfl, (dry_run_deletes_nothing 3 dryArgs demoAPI demoNow demoClient).1 rfl⟩

theorem visit_spec (g : GitHubClientWrapper) (args : Args) (now : ℤ) (p : Policy) (b : Branch) :
    ((b.Name = p.defaultBranch ∨ b.Protected = true ∨
        contains p.ignoreBranches b.Name = true ∨
        (p.allowedPrefixes ≠ [] ∧ startsWith p.allowedPrefixes b.Name = false) ∨
        (p.ignoredPrefixes ≠ [] ∧ startsWith p.ignoredPrefixes b.Name = true)) →
      getDeletableBranches.visit g args now p b = (false, [])) ∧
    (¬ (b.Name = p.defaultBranch ∨ b.Protected = true ∨
        contains p.ignoreBranches b.Name = true ∨
        (p.allowedPrefixes ≠ [] ∧ startsWith p.allowedPrefixes b.Name = false) ∨
        (p.ignoredPrefixes ≠ [] ∧ startsWith p.ignoredPrefixes b.Name = true)) →
      (((∃ e, g.client.ListCommits g.owner g.repo ⟨b.Name, 0, 1⟩ = Result.err e) ∨
        (∃ r, g.client.ListCommits g.owner g.repo ⟨b.Name, 0, 1⟩ = Result.ok ([], r)) ∨
        (∃ latest rest r, g.client.ListCommits g.owner g.repo ⟨b.Name, 0, 1⟩ =
            Result.ok (latest :: rest, r) ∧
          (lastCommitIsNewer now latest.Date args.LastCommitAgeDays = true ∨
            isBranchInOpenPullRequests b.Name p.openPullRequests = true))) →
        getDeletableBranches.visit g args now p b =
          (false, [Call.ListCommits g.owner g.repo ⟨b.Name, 0, 1⟩])) ∧
      (¬ ((∃ e, g.client.ListCommits g.owner g.repo ⟨b.Name, 0, 1⟩ = Result.err e) ∨
        (∃ r, g.client.ListCommits g.owner g.repo ⟨b.Name, 0, 1⟩ = Result.ok ([], r)) ∨
        (∃ latest rest r, g.client.ListCommits g.owner g.repo ⟨b.Name, 0, 1⟩ =
            Result.ok (latest :: rest, r) ∧
          (lastCommitIsNewer now latest.Date args.LastCommitAgeDays = true ∨
            isBranchInOpenPullRequests b.Name p.openPullRequests = true))) →
        (getDeletableBranches.visit g args now p b).2 =
          [Call.ListCommits g.owner g.repo ⟨b.Name, 0, 1⟩,
            Call.ListPullRequests g.owner g.repo ⟨"open".toList, b.Name, 0, 0⟩])) := by
  unfold getDeletableBranches.visit getLatestCommitDate isPullRequestBase
  simp only
  by_cases h1 : b.Name = p.defaultBranch
  · rw [if_pos h1]
    exact ⟨fun _ => rfl, fun hn => absurd (Or.inl h1) hn⟩
  rw [if_neg h1]
  by_cases h2 : b.Protected = true
  · rw [if_pos h2]
    exact ⟨fun _ => rfl, fun hn => absurd (Or.inr (Or.inl h2)) hn⟩
  rw [if_neg h2]
  by_cases h3 : contains p.ignoreBranches b.Name = true
  · rw [if_pos h3]
    exact ⟨fun _ => rfl, fun hn => absurd (Or.inr (Or.inr (Or.inl h3))) hn⟩
  rw [if_neg h3]
  by_cases h4 : (decide (p.allowedPrefixes.length > 0) &&
      !startsWith p.allowedPrefixes b.Name) = true
  · rw [if_pos h4]
    refine ⟨fun _ => rfl, fun hn => absurd (Or.inr (Or.inr (Or.inr (Or.inl ?_)))) hn⟩
    simp only [Bool.and_eq_true, decide_eq_true_eq, Bool.not_eq_true'] at h4
    exact ⟨fun he => by rw [he] at h4; simp at h4, h4.2⟩
  rw [if_neg h4]
  by_cases h5 : (decide (p.ignoredPrefixes.length > 0) &&
      startsWith p.ignoredPrefixes b.Name) = true
  · rw [if_pos h5]
    refine ⟨fun _ => rfl, fun hn => absurd (Or.inr (Or.inr (Or.inr (Or.inr ?_)))) hn⟩
    simp only [Bool.and_eq_true, decide_eq_true_eq] at h5
    exact ⟨fun he => by rw [he] at h5; simp at h5, h5.2⟩
  rw [if_neg h5]
  have hearly : ¬ (b.Name = p.defaultBranch ∨ b.Protected = true ∨
      contains p.ignoreBranches b.Name = true ∨
      (p.allowedPrefixes ≠ [] ∧ startsWith p.allowedPrefixes b.Name = false) ∨
      (p.ignoredPrefixes ≠ [] ∧ startsWith p.ignoredPrefixes b.Name = true)) := by
    rintro (h | h | h | h | h)
    · exact h1 h
    · exact h2 h
    · exact h3 h
    · apply h4
      simp only [Bool.and_eq_true, decide_eq_true_eq, Bool.not_eq_true']
      exact ⟨List.length_pos.2 h.1, h.2⟩
    · apply h5
      simp only [Bool.and_eq_true, decide_eq_true_eq]
      exact ⟨List.length_pos.2 h.1, h.2⟩
  refine ⟨fun h => absurd h hearly, fun _ => ?_⟩
  cases hc : g.client.ListCommits g.owner g.repo ⟨b.Name, 0, 1⟩ with
  | err e => exact ⟨fun _ => rfl, fun hn => absurd (Or.inl ⟨e, rfl⟩) hn⟩
  | ok v =>
    obtain ⟨commits, r⟩ := v
    cases commits with
    | nil => exact ⟨fun _ => rfl, fun hn => absurd (Or.inr (Or.inl ⟨r, rfl⟩)) hn⟩
    | cons latest rest =>
      simp only
      by_cases h6 : lastCommitIsNewer now latest.Date args.LastCommitAgeDays = true
      · rw [if_pos h6]
        exact ⟨fun _ => rfl,
          fun hn => absurd (Or.inr (Or.inr ⟨latest, rest, r, rfl, Or.inl h6⟩)) hn⟩
      rw [if_neg h6]
      by_cases h7 : isBranchInOpenPullRequests b.Name p.openPullRequests = true
      · rw [if_pos h7]
        exact ⟨fun _ => rfl,
          fun hn => absurd (Or.inr (Or.inr ⟨latest, rest, r, rfl, Or.inr h7⟩)) hn⟩
      rw [if_neg h7]
      constructor
      · rintro (⟨e, he⟩ | ⟨r2, he⟩ | ⟨l2, rest2, r2, he, hx⟩)
        · cases he
        · simp only [Result.ok.injEq, Prod.mk.injEq] at he
          cases he.1
        · simp only [Result.ok.injEq, Prod.mk.injEq, List.cons.injEq] at he
          rw [← he.1.1] at hx
          rcases hx with hx | hx
          · exact absurd hx h6
          · exact absurd hx h7
      · intro _
        cases g.client.ListPullRequests g.owner g.repo ⟨"open".toList, b.Name, 0, 0⟩ with
        | err e => rfl
        | ok w =>
          obtain ⟨pulls, r2⟩ := w
          simp only
          by_cases h8 : decide (pulls.length > 0) = true
          · rw [if_pos h8]; rfl
          · rw [if_neg h8]; rfl

theorem visit_true_calls (g : GitHubClientWrapper) (args : Args) (now : ℤ) (p : Policy)
    (b : Branch) (h : (getDeletableBranches.visit g args now p b).1 = true) :
    (getDeletableBranches.visit g args now p b).2 =
      [Call.ListCommits g.owner g.repo ⟨b.Name, 0, 1⟩,
        Call.ListPullRequests g.owner g.repo ⟨"open".toList, b.Name, 0, 0⟩] := by
  obtain ⟨s1, s2⟩ := visit_spec g args now p b
  by_cases he : (b.Name = p.defaultBranch ∨ b.Protected = true ∨
      contains p.ignoreBranches b.Name = true ∨
      (p.allowedPrefixes ≠ [] ∧ startsWith p.allowedPrefixes b.Name = false) ∨
      (p.ignoredPrefixes ≠ [] ∧ startsWith p.ignoredPrefixes b.Name = true))
  · rw [s1 he] at h; cases h
  · obtain ⟨m1, m2⟩ := s2 he
    by_cases hm : ((∃ e, g.client.ListCommits g.owner g.repo ⟨b.Name, 0, 1⟩ = Result.err e) ∨
        (∃ r, g.client.ListCommits g.owner g.repo ⟨b.Name, 0, 1⟩ = Result.ok ([], r)) ∨
        (∃ latest rest r, g.client.ListCommits g.owner g.repo ⟨b.Name, 0, 1⟩ =
            Result.ok (latest :: rest, r) ∧
          (lastCommitIsNewer now latest.Date args.LastCommitAgeDays = true ∨
            isBranchInOpenPullRequests b.Name p.openPullRequests = true)))
    · rw [m1 hm] at h; cases h
    · exact m2 hm

/-- C18: the rules short-circuit in the stated order, as the calls show. For a branch excluded
by one of the rules 1 to 5 the loop body makes no call; for a branch that passes them and is
excluded by the commit lookup (an error or no commit), the age rule or the open-pull-request
head rule it makes the one `ListCommits` call and no base query; a branch that is found eligible
costs exactly one `ListCommits` call followed by one base query; and the calls of a run over a
listing are the repository fetch, the pull-request pages, and for each page its fetch followed
by the calls of the loop body for its branches, in order. -/
theorem rules_short_circuit (g : GitHubClientWrapper) (args : Args) (now : ℤ) (p : Policy)
    (b : Branch) :
    ((b.Name = p.defaultBranch ∨ b.Protected = true ∨
        contains p.ignoreBranches b.Name = true ∨
        (p.allowedPrefixes ≠ [] ∧ startsWith p.allowedPrefixes b.Name = false) ∨
        (p.ignoredPrefixes ≠ [] ∧ startsWith p.ignoredPrefixes b.Name = true)) →
      getDeletableBranches.visit g args now p b = (false, [])) ∧
    (¬ (b.Name = p.defaultBranch ∨ b.Protected = true ∨
        contains p.ignoreBranches b.Name = true ∨
        (p.allowedPrefixes ≠ [] ∧ startsWith p.allowedPrefixes b.Name = false) ∨
        (p.ignoredPrefixes ≠ [] ∧ startsWith p.ignoredPrefixes b.Name = true)) →
      ((∃ e, g.client.ListCommits g.owner g.repo ⟨b.Name, 0, 1⟩ = Result.err e) ∨
        (∃ r, g.client.ListCommits g.owner g.repo ⟨b.Name, 0, 1⟩ = Result.ok ([], r)) ∨
        (∃ latest rest r, g.client.ListCommits g.owner g.repo ⟨b.Name, 0, 1⟩ =
            Result.ok (latest :: rest, r) ∧
          (lastCommitIsNewer now latest.Date args.LastCommitAgeDays = true ∨
            isBranchInOpenPullRequests b.Name p.openPullRequests = true))) →
      getDeletableBranches.visit g args now p b =
        (false, [Call.ListCommits g.owner g.repo ⟨b.Name, 0, 1⟩])) ∧
    ((getDeletableBranches.visit g args now p b).1 = true →
      (getDeletableBranches.visit g args now p b).2 =
        [Call.ListCommits g.owner g.repo ⟨b.Name, 0, 1⟩,
          Call.ListPullRequests g.owner g.repo ⟨"open".toList, b.Name, 0, 0⟩]) ∧
    (∀ (fuel : Nat) (repo : Repository) (resp : Response) (prs : List PullRequest)
      (c : List Call) (pages : List (List Branch × Response)) (last : ℤ)
      (lastBranches : List Branch),
      g.client.GetRepository g.owner g.repo = Result.ok (repo, resp) →
      getAllOpenPullRequests fuel g = some (Result.ok prs, c) →
      ServesBranchPages g 0 pages last →
      g.client.ListBranches g.owner g.repo ⟨last, 100⟩ = Result.ok (lastBranches, ⟨0⟩) →
      pages.length < fuel →
      callsMade (getDeletableBranches fuel g args now) =
        Call.GetRepository g.owner g.repo :: (c ++
          (pagesTrace g args now ⟨repo.DefaultBranch, prs, splitNonEmpty args.IgnoreBranches,
            splitNonEmpty args.AllowedPrefixes, splitNonEmpty args.IgnoredPrefixes⟩ 0 pages ++
          Call.ListBranches g.owner g.repo ⟨last, 100⟩ ::
            visitCalls g args now ⟨repo.DefaultBranch, prs, splitNonEmpty args.IgnoreBranches,
              splitNonEmpty args.AllowedPrefixes, splitNonEmpty args.IgnoredPrefixes⟩
              lastBranches))) := by
  refine ⟨(visit_spec g args now p b).1, fun he hm => ((visit_spec g args now p b).2 he).1 hm,
    visit_true_calls g args now p b, ?_⟩
  intro fuel repo resp prs c pages last lastBranches hrepo hprs hpages hlast hfuel
  rw [getDeletableBranches_of_listing fuel g args now repo resp prs c pages last lastBranches
    hrepo hprs hpages hlast hfuel]
  rfl

theorem rules_short_circuit_witness :
    getDeletableBranches.visit demoClient demoArgs demoNow
        ⟨"main".toList, [⟨"release-hot".toList⟩], [], ["release-".toList], []⟩
        ⟨"feature-x".toList, false⟩ = (false, []) ∧
      getDeletableBranches.visit demoClient demoArgs demoNow
        ⟨"main".toList, [⟨"release-hot".toList⟩], [], ["release-".toList], []⟩
        ⟨"release-gone".toList, false⟩ =
        (false, [Call.ListCommits "octo".toList "repo".toList ⟨"release-gone".toList, 0, 1⟩]) :=
  ⟨(rules_short_circuit demoClient demoArgs demoNow
      ⟨"main".toList, [⟨"release-hot".toList⟩], [], ["release-".toList], []⟩
      ⟨"feature-x".toList, false⟩).1
      (Or.inr (Or.inr (Or.inr (Or.inl ⟨by decide, by decide⟩)))),
    (rules_short_circuit demoClient demoArgs demoNow
      ⟨"main".toList, [⟨"release-hot".toList⟩], [], ["release-".toList], []⟩
      ⟨"release-gone".toList, false⟩).2.1
      (by decide) (Or.inl ⟨"not found".toList, rfl⟩)⟩

/-! ## Claim C20 -/

theorem mem_split_of_empty_element (s : Str)
    (h : (∃ rest, s = ',' :: rest) ∨ (∃ init, s = init ++ [',']) ∨
      (∃ a b, s = a ++ ',' :: ',' :: b)) :
    [] ∈ splitNonEmpty s := by
  have hs : s ≠ [] := by
    rcases h with ⟨rest, rfl⟩ | ⟨init, rfl⟩ | ⟨a, b, rfl⟩ <;> simp
  unfold splitNonEmpty
  rw [if_neg hs, split_char]
  rcases h with ⟨rest, rfl⟩ | ⟨init, rfl⟩ | ⟨a, b, rfl⟩
  · rw [splitScan_cons, if_pos rfl]
    exact List.mem_cons_self _ _
  · rw [splitScan_append, splitScan_nil]
    simp
  · rw [splitScan_append, splitScan_cons, if_pos rfl]
    simp

theorem startsWith_of_empty_mem (L : List Str) (name : Str) (h : [] ∈ L) :
    startsWith L name = true := by
  rw [(startsWith_iff_mem L name)]
  exact ⟨[], h, List.nil_prefix⟩

/-- C20: when the ignored-prefixes input has an empty element (it starts or ends with a comma,
or holds two commas in a row), `splitNonEmpty` keeps the empty string among the prefixes,
`startsWith` on them is then true for every branch name, and `getDeletableBranches` returns no
name, whatever the remote; over a listing served to its end it returns the empty list and a
`nil` error. -/
theorem empty_ignored_prefix_blocks_all (fuel : Nat) (g : GitHubClientWrapper) (args : Args)
    (now : ℤ)
    (h : (∃ rest, args.IgnoredPrefixes = ',' :: rest) ∨
      (∃ init, args.IgnoredPrefixes = init ++ [',']) ∨
      (∃ a b, args.IgnoredPrefixes = a ++ ',' :: ',' :: b)) :
    [] ∈ splitNonEmpty args.IgnoredPrefixes ∧
    (∀ name, startsWith (splitNonEmpty args.IgnoredPrefixes) name = true) ∧
    returnedNames (getDeletableBranches fuel g args now) = [] ∧
    (∀ (repo : Repository) (resp : Response) (prs : List PullRequest) (c : List Call)
      (pages : List (List Branch × Response)) (last : ℤ) (lastBranches : List Branch),
      g.client.GetRepository g.owner g.repo = Result.ok (repo, resp) →
      getAllOpenPullRequests fuel g = some (Result.ok prs, c) →
      ServesBranchPages g 0 pages last →
      g.client.ListBranches g.owner g.repo ⟨last, 100⟩ = Result.ok (lastBranches, ⟨0⟩) →
      pages.length < fuel →
      ∃ calls, getDeletableBranches fuel g args now = some (([], none), calls)) := by
  have hm := mem_split_of_empty_element args.IgnoredPrefixes h
  refine ⟨hm, fun name => startsWith_of_empty_mem _ name hm, ?_, ?_⟩
  · rw [List.eq_nil_iff_forall_not_mem]
    intro x hx
    obtain ⟨repo2, resp2, prs2, c2, b, -, -, h3, -⟩ :=
      getDeletableBranches_sound fuel g args now _ hx
    rw [visit_eq_passesEveryRule, passesEveryRule_iff] at h3
    have := startsWith_of_empty_mem _ b.Name hm
    rw [h3.2.2.2.2.1] at this
    cases this
  · intro repo resp prs c pages last lastBranches hrepo hprs hpages hlast hfuel
    have hnone : (pages.flatMap Prod.fst ++ lastBranches).filter
        (passesEveryRule g args now repo.DefaultBranch prs) = [] := by
      rw [List.filter_eq_nil_iff]
      intro b _ hb
      rw [passesEveryRule_iff] at hb
      have := startsWith_of_empty_mem _ b.Name hm
      rw [hb.2.2.2.2.1] at this
      cases this
    rw [getDeletableBranches_of_listing fuel g args now repo resp prs c pages last lastBranches
      hrepo hprs hpages hlast hfuel, hnone]
    exact ⟨_, rfl⟩

theorem empty_ignored_prefix_blocks_all_witness :
    splitNonEmpty "a,,c".toList = ["a".toList, [], "c".toList] ∧
      splitNonEmpty "tmp-,".toList = ["tmp-".toList, []] ∧
      returnedNames (getDeletableBranches 3 demoClient
        { demoArgs with IgnoredPrefixes := "tmp-,".toList } demoNow) = [] ∧
      (∃ calls, getDeletableBranches 3 demoClient
        { demoArgs with IgnoredPrefixes := "tmp-,".toList } demoNow =
          some (([], none), calls)) :=
  ⟨by decide, by decide,
    (empty_ignored_prefix_blocks_all 3 demoClient
      { demoArgs with IgnoredPrefixes := "tmp-,".toList } demoNow
      (Or.inr (Or.inl ⟨"tmp-".toList, by decide⟩))).2.2.1,
    (empty_ignored_prefix_blocks_all 3 demoClient
      { demoArgs with IgnoredPrefixes := "tmp-,".toList } demoNow
      (Or.inr (Or.inl ⟨"tmp-".toList, by decide⟩))).2.2.2
      ⟨"main".toList⟩ ⟨0⟩ [⟨"release-hot".toList⟩] _
      [([⟨"main".toList, false⟩, ⟨"release-v1".toList, false⟩, ⟨"release-hot".toList, false⟩,
        ⟨"release-base".toList, false⟩], ⟨2⟩)] 2
      [⟨"release-new".toList, false⟩, ⟨"feature-x".toList, false⟩, ⟨"release-v2".toList, false⟩,
        ⟨"release-lts".toList, true⟩, ⟨"release-gone".toList, false⟩]
      rfl demo_pulls ⟨rfl, by decide, rfl⟩ rfl (by decide)⟩

/-! ## The Rate Guard: claims C11 and C12 -/

theorem roundHalfEven_le (z : ℚ) (n : ℤ) (h : z < (n : ℚ) + 1 / 2) : roundHalfEven z ≤ n := by
  have hf : ⌊z⌋ ≤ n := by
    have : ⌊z⌋ < n + 1 := by
      apply Int.floor_lt.2
      push_cast
      linarith
    omega
  rcases lt_or_eq_of_le hf with hlt | heq
  · have := roundHalfEven_le_floor_succ z
    omega
  · have hfr : z - ⌊z⌋ < 1 / 2 := by
      rw [heq]
      linarith
    unfold roundHalfEven
    rw [if_pos hfr]
    omega

theorem roundF64_le_of_near (q : ℚ) (e n : ℤ) (h1 : (2 : ℚ) ^ e ≤ q) (h2 : q < (2 : ℚ) ^ (e + 1))
    (h : q / 2 ^ (e - 52) < (n : ℚ) + 1 / 2) : roundF64 q ≤ (n : ℚ) * 2 ^ (e - 52) := by
  have hq : 0 < q := lt_of_lt_of_le (two_zpow_pos e) h1
  unfold roundF64 roundMag
  rw [if_neg (not_lt.2 hq.le), if_neg hq.ne', log_eq_of_bounds e hq h1 h2]
  apply mul_le_mul_of_nonneg_right _ (two_zpow_pos _).le
  exact_mod_cast roundHalfEven_le _ n h

/-- The constant `0.05` as a `float64` is at most `3602879701896397 / 2 ^ 56`. -/
theorem threshold_le : roundF64 (1 / 20) ≤ 3602879701896397 / 72057594037927936 := by
  have h := roundF64_dyadic 3602879701896397 (-56) (by norm_num)
  rw [zpow_neg] at h
  norm_num at h
  rw [← h]
  exact roundF64_mono (by norm_num)

/-- The constant `0.05` as a `float64` is at least `3602879701896397 / 2 ^ 56`. -/
theorem threshold_ge : (3602879701896397 / 72057594037927936 : ℚ) ≤ roundF64 (1 / 20) := by
  have h := roundF64_ge_of_near (1 / 20) (-5) 7205759403792794
    (by rw [zpow_neg]; norm_num) (by rw [show ((-5 : ℤ) + 1) = -4 by norm_num, zpow_neg]; norm_num)
    (by rw [show ((-5 : ℤ) - 52) = -57 by norm_num, zpow_neg]; norm_num)
  rw [show ((-5 : ℤ) - 52) = -57 by norm_num, zpow_neg] at h
  norm_num at h ⊢
  exact h

theorem ratio_of_le (L R : ℤ) (hL1 : 0 < L) (hL2 : L ≤ 2251799813685248) (hR : 0 ≤ R)
    (h : 20 * R ≤ L) : ratioAtMostThreshold R L = true := by
  unfold ratioAtMostThreshold f64Div f64OfInt
  rw [if_neg hL1.ne', roundF64_intCast R (abs_lt.2 ⟨by norm_num; omega, by norm_num; omega⟩),
    roundF64_intCast L (abs_lt.2 ⟨by norm_num; omega, by norm_num; omega⟩)]
  simp only [decide_eq_true_eq]
  apply roundF64_mono
  have hLq : (0 : ℚ) < L := by exact_mod_cast hL1
  rw [div_le_iff₀ hLq]
  have : ((20 * R : ℤ) : ℚ) ≤ (L : ℚ) := by exact_mod_cast h
  push_cast at this
  linarith

theorem ratio_of_gt (L R : ℤ) (hL1 : 0 < L) (hL2 : L ≤ 2251799813685248) (hR : 0 ≤ R)
    (h : L < 20 * R) : ratioAtMostThreshold R L = false := by
  have hLq : (0 : ℚ) < L := by exact_mod_cast hL1
  have hL2q : (L : ℚ) ≤ 2251799813685248 := by exact_mod_cast hL2
  have hnext := roundF64_dyadic 3602879701896398 (-56) (by norm_num)
  rw [zpow_neg] at hnext
  norm_num at hnext
  -- the converted `remaining` is at least `R₀`, and `R₀ / L` reaches the next `float64`
  have hR0 : ∃ R0 : ℚ, R0 ≤ roundF64 (R : ℚ) ∧ (L : ℚ) + 1 ≤ 20 * R0 := by
    by_cases hs : R < 9007199254740992
    · refine ⟨R, ?_, ?_⟩
      · rw [roundF64_intCast R (abs_lt.2 ⟨by norm_num; omega, by norm_num; omega⟩)]
      · have : ((L + 1 : ℤ) : ℚ) ≤ ((20 * R : ℤ) : ℚ) := by exact_mod_cast (by omega : L + 1 ≤ 20 * R)
        push_cast at this
        exact this
    · refine ⟨4503599627370496, ?_, by linarith⟩
      have h52 := roundF64_intCast 4503599627370496 (by norm_num)
      have hm := roundF64_mono (q := ((4503599627370496 : ℤ) : ℚ)) (r := (R : ℚ))
        (by exact_mod_cast (by omega : (4503599627370496 : ℤ) ≤ R))
      rw [h52] at hm
      exact_mod_cast hm
  obtain ⟨R0, hR0a, hR0b⟩ := hR0
  have hdiv : (1801439850948199 / 36028797018963968 : ℚ) ≤ roundF64 (R : ℚ) / (L : ℚ) := by
    rw [le_div_iff₀ hLq]
    nlinarith
  have hge := roundF64_mono hdiv
  rw [hnext] at hge
  unfold ratioAtMostThreshold f64Div f64OfInt
  rw [if_neg hL1.ne', roundF64_intCast L (abs_lt.2 ⟨by norm_num; omega, by norm_num; omega⟩)]
  simp only [decide_eq_false_iff_not, not_le]
  have := threshold_le
  linarith

/-- C11 (as stated, refuted): with limit 8999999999999999 and remaining 450000000000000 the
ratio is above 0.05 (`20*R = L + 1`), yet `isRateLimitExceeded` returns true: the quotient and
the constant round to the same `float64`. -/
theorem isRateLimitExceeded_counterexample :
    (0 : ℤ) < 8999999999999999 ∧ ¬ (20 * (450000000000000 : ℤ) ≤ 8999999999999999) ∧
      isRateLimitExceeded (Result.ok (⟨⟨8999999999999999, 450000000000000⟩⟩, ⟨0⟩)) = true := by
  refine ⟨by norm_num, by norm_num, ?_⟩
  unfold isRateLimitExceeded ratioAtMostThreshold f64Div f64OfInt
  simp only
  rw [if_neg (by norm_num), roundF64_intCast 450000000000000 (by norm_num),
    roundF64_intCast 8999999999999999 (by norm_num)]
  simp only [decide_eq_true_eq]
  have h := roundF64_le_of_near ((450000000000000 : ℤ) / (8999999999999999 : ℤ)) (-5)
    7205759403792794
    (by rw [zpow_neg]; norm_num) (by rw [show ((-5 : ℤ) + 1) = -4 by norm_num, zpow_neg]; norm_num)
    (by rw [show ((-5 : ℤ) - 52) = -57 by norm_num, zpow_neg]; norm_num)
  rw [show ((-5 : ℤ) - 52) = -57 by norm_num, zpow_neg] at h
  have h2 := threshold_ge
  norm_num at h h2 ⊢
  linarith

/-- C11 (amended): for a core limit `L` with `0 < L ≤ 2 ^ 51` and a remaining count `R ≥ 0`,
`isRateLimitExceeded` on a successful status fetch is true exactly when `20*R ≤ L`, that is when
the ratio `R/L` is at most 0.05; and on a failed status fetch it is false. -/
theorem isRateLimitExceeded_iff (L R : ℤ) (resp : Response) (hL1 : 0 < L)
    (hL2 : L ≤ 2251799813685248) (hR : 0 ≤ R) :
    (isRateLimitExceeded (Result.ok (⟨⟨L, R⟩⟩, resp)) = true ↔ 20 * R ≤ L) ∧
    ∀ e, isRateLimitExceeded (Result.err e) = false := by
  refine ⟨?_, fun e => rfl⟩
  unfold isRateLimitExceeded
  simp only
  constructor
  · intro h
    by_contra hn
    rw [ratio_of_gt L R hL1 hL2 hR (by omega)] at h
    cases h
  · exact ratio_of_le L R hL1 hL2 hR

theorem isRateLimitExceeded_iff_witness :
    ((0 : ℤ) < 100 ∧ (100 : ℤ) ≤ 2251799813685248 ∧ (0 : ℤ) ≤ 3) ∧
      isRateLimitExceeded (Result.ok (⟨⟨100, 3⟩⟩, ⟨0⟩)) = true ∧
      isRateLimitExceeded (Result.err "timeout".toList) = false :=
  ⟨⟨by norm_num, by norm_num, by norm_num⟩,
    (isRateLimitExceeded_iff 100 3 ⟨0⟩ (by norm_num) (by norm_num) (by norm_num)).1.2
      (by norm_num),
    (isRateLimitExceeded_iff 100 3 ⟨0⟩ (by norm_num) (by norm_num) (by norm_num)).2 _⟩

theorem call_spec (g : gitHubAPI) (c : Call) (issued : List Call) :
    ((g.guard issued).1 = true → g.call c issued = (Outcome.exit 0, (g.guard issued).2)) ∧
    ((g.guard issued).1 = false →
      ∃ r, g.call c issued = (Outcome.ret r, (g.guard issued).2 ++ [c])) := by
  cases c <;>
  · constructor
    · intro h
      simp [gitHubAPI.call, gitHubAPI.ListBranches, gitHubAPI.ListCommits,
        gitHubAPI.GetRepository, gitHubAPI.ListPullRequests, gitHubAPI.DeleteRef,
        gitHubAPI.RateLimits, h]
    · intro h
      simp [gitHubAPI.call, gitHubAPI.ListBranches, gitHubAPI.ListCommits,
        gitHubAPI.GetRepository, gitHubAPI.ListPullRequests, gitHubAPI.DeleteRef,
        gitHubAPI.RateLimits, h]

theorem guard_spec (g : gitHubAPI) (issued : List Call) :
    (g.guard issued).1 =
        (g.rateLimitCheckEnabled && isRateLimitExceeded (g.client.RateLimitGet issued)) ∧
      (g.guard issued).2 =
        (if g.rateLimitCheckEnabled then issued ++ [Call.RateLimits] else issued) := by
  unfold gitHubAPI.guard
  cases g.rateLimitCheckEnabled <;> simp

theorem exec_exit (g : gitHubAPI) (P : Process) : ∀ (issued : List Call) (s : ℤ) (t : List Call),
    g.exec P issued = (some s, t) →
    s = 0 ∧ g.rateLimitCheckEnabled = true ∧
      ∃ t0, t = t0 ++ [Call.RateLimits] ∧
        isRateLimitExceeded (g.client.RateLimitGet t0) = true := by
  induction P with
  | done => intro issued s t h; simp [gitHubAPI.exec] at h
  | call c next ih =>
    intro issued s t h
    rw [gitHubAPI.exec] at h
    obtain ⟨k1, k2⟩ := call_spec g c issued
    obtain ⟨g1, g2⟩ := guard_spec g issued
    cases hg : (g.guard issued).1 with
    | true =>
      rw [k1 hg] at h
      simp only [Prod.mk.injEq, Option.some.injEq] at h
      rw [hg] at g1
      have hen : g.rateLimitCheckEnabled = true := by
        cases he : g.rateLimitCheckEnabled with
        | true => rfl
        | false => rw [he] at g1; simp at g1
      rw [hen] at g1 g2
      simp only [Bool.true_and, if_true] at g1 g2
      exact ⟨h.1.symm, hen, issued, by rw [← h.2, g2], g1.symm⟩
    | false =>
      obtain ⟨r, hr⟩ := k2 hg
      rw [hr] at h
      exact ih r _ s t h

theorem guard_of_pass (g : gitHubAPI) (issued : List Call)
    (h : g.rateLimitCheckEnabled = false ∨
      isRateLimitExceeded (g.client.RateLimitGet issued) = false) :
    g.guard issued =
      (false, if g.rateLimitCheckEnabled then issued ++ [Call.RateLimits] else issued) := by
  unfold gitHubAPI.guard
  cases he : g.rateLimitCheckEnabled with
  | false => rfl
  | true =>
    rcases h with h | h
    · rw [he] at h; cases h
    · simp only [if_true, h]

theorem guard_of_trip (g : gitHubAPI) (issued : List Call)
    (he : g.rateLimitCheckEnabled = true)
    (hx : isRateLimitExceeded (g.client.RateLimitGet issued) = true) :
    g.guard issued = (true, issued ++ [Call.RateLimits]) := by
  unfold gitHubAPI.guard
  rw [he, hx]
  rfl

/-- C12: for each of the six wrapped operations, called after the requests `issued`. When the
check is disabled, or enabled with the limit not exceeded at that call, the operation makes the
underlying call of the client (after the status fetch, if the check is enabled) and returns the
answer of that call; a caller goes on from that answer. When the check is enabled and the limit
is exceeded at that call, the operation ends the process with exit status 0, the status fetch is
the last request sent and the underlying call is not made; the run of a caller ends there,
whatever it would have called next. The status is fetched anew at every call, from the requests
sent so far. A caller that has no call left returns without an exit; and every run that ends by
an exit has status 0 and ends with the status fetch that tripped. -/
theorem rate_guard_halts_before_call (g : gitHubAPI) (issued : List Call) :
    ((g.rateLimitCheckEnabled = false ∨
        isRateLimitExceeded (g.client.RateLimitGet issued) = false) →
      ∀ sent, sent = (if g.rateLimitCheckEnabled then issued ++ [Call.RateLimits] else issued) →
      (∀ owner repo opts, g.ListBranches owner repo opts issued =
        (Outcome.ret (g.client.RepositoriesListBranches owner repo opts),
          sent ++ [Call.ListBranches owner repo opts])) ∧
      (∀ owner repo opts, g.ListCommits owner repo opts issued =
        (Outcome.ret (g.client.RepositoriesListCommits owner repo opts),
          sent ++ [Call.ListCommits owner repo opts])) ∧
      (∀ owner repo, g.GetRepository owner repo issued =
        (Outcome.ret (g.client.RepositoriesGet owner repo),
          sent ++ [Call.GetRepository owner repo])) ∧
      (∀ owner repo opts, g.ListPullRequests owner repo opts issued =
        (Outcome.ret (g.client.PullRequestsList owner repo opts),
          sent ++ [Call.ListPullRequests owner repo opts])) ∧
      (∀ owner repo ref, g.DeleteRef owner repo ref issued =
        (Outcome.ret (g.client.GitDeleteRef owner repo ref),
          sent ++ [Call.DeleteRef owner repo ref])) ∧
      g.RateLimits issued =
        (Outcome.ret (g.client.RateLimitGet sent), sent ++ [Call.RateLimits]) ∧
      (∀ owner repo opts next,
        g.exec (Process.call (Call.ListBranches owner repo opts) next) issued =
          g.exec (next (Reply.branches (g.client.RepositoriesListBranches owner repo opts)))
            (sent ++ [Call.ListBranches owner repo opts])) ∧
      (∀ owner repo opts next,
        g.exec (Process.call (Call.ListCommits owner repo opts) next) issued =
          g.exec (next (Reply.commits (g.client.RepositoriesListCommits owner repo opts)))
            (sent ++ [Call.ListCommits owner repo opts])) ∧
      (∀ owner repo next,
        g.exec (Process.call (Call.GetRepository owner repo) next) issued =
          g.exec (next (Reply.repository (g.client.RepositoriesGet owner repo)))
            (sent ++ [Call.GetRepository owner repo])) ∧
      (∀ owner repo opts next,
        g.exec (Process.call (Call.ListPullRequests owner repo opts) next) issued =
          g.exec (next (Reply.pulls (g.client.PullRequestsList owner repo opts)))
            (sent ++ [Call.ListPullRequests owner repo opts])) ∧
      (∀ owner repo ref next,
        g.exec (Process.call (Call.DeleteRef owner repo ref) next) issued =
          g.exec (next (Reply.deleted (g.client.GitDeleteRef owner repo ref)))
            (sent ++ [Call.DeleteRef owner repo ref])) ∧
      (∀ next,
        g.exec (Process.call Call.RateLimits next) issued =
          g.exec (next (Reply.rate (g.client.RateLimitGet sent)))
            (sent ++ [Call.RateLimits]))) ∧
    (g.rateLimitCheckEnabled = true →
      isRateLimitExceeded (g.client.RateLimitGet issued) = true →
      (∀ owner repo opts, g.ListBranches owner repo opts issued =
        (Outcome.exit 0, issued ++ [Call.RateLimits])) ∧
      (∀ owner repo opts, g.ListCommits owner repo opts issued =
        (Outcome.exit 0, issued ++ [Call.RateLimits])) ∧
      (∀ owner repo, g.GetRepository owner repo issued =
        (Outcome.exit 0, issued ++ [Call.RateLimits])) ∧
      (∀ owner repo opts, g.ListPullRequests owner repo opts issued =
        (Outcome.exit 0, issued ++ [Call.RateLimits])) ∧
      (∀ owner repo ref, g.DeleteRef owner repo ref issued =
        (Outcome.exit 0, issued ++ [Call.RateLimits])) ∧
      g.RateLimits issued = (Outcome.exit 0, issued ++ [Call.RateLimits]) ∧
      (∀ c next, g.exec (Process.call c next) issued =
        (some 0, issued ++ [Call.RateLimits]))) ∧
    g.exec Process.done issued = (none, issued) ∧
    (∀ (P : Process) (s : ℤ) (t : List Call), g.exec P issued = (some s, t) →
      s = 0 ∧ g.rateLimitCheckEnabled = true ∧
        ∃ t0, t = t0 ++ [Call.RateLimits] ∧
          isRateLimitExceeded (g.client.RateLimitGet t0) = true) := by
  refine ⟨?_, ?_, rfl, fun P s t h => exec_exit g P issued s t h⟩
  · intro h sent hsent
    have hg := guard_of_pass g issued h
    rw [← hsent] at hg
    refine ⟨?_, ?_, ?_, ?_, ?_, ?_, ?_, ?_, ?_, ?_, ?_, ?_⟩
    · intro owner repo opts
      rw [gitHubAPI.ListBranches, hg]
      rfl
    · intro owner repo opts
      rw [gitHubAPI.ListCommits, hg]
      rfl
    · intro owner repo
      rw [gitHubAPI.GetRepository, hg]
      rfl
    · intro owner repo opts
      rw [gitHubAPI.ListPullRequests, hg]
      rfl
    · intro owner repo ref
      rw [gitHubAPI.DeleteRef, hg]
      rfl
    · rw [gitHubAPI.RateLimits, hg]
      rfl
    · intro owner repo opts next
      rw [gitHubAPI.exec, gitHubAPI.call, gitHubAPI.ListBranches, hg]
      rfl
    · intro owner repo opts next
      rw [gitHubAPI.exec, gitHubAPI.call, gitHubAPI.ListCommits, hg]
      rfl
    · intro owner repo next
      rw [gitHubAPI.exec, gitHubAPI.call, gitHubAPI.GetRepository, hg]
      rfl
    · intro owner repo opts next
      rw [gitHubAPI.exec, gitHubAPI.call, gitHubAPI.ListPullRequests, hg]
      rfl
    · intro owner repo ref next
      rw [gitHubAPI.exec, gitHubAPI.call, gitHubAPI.DeleteRef, hg]
      rfl
    · intro next
      rw [gitHubAPI.exec, gitHubAPI.call, gitHubAPI.RateLimits, hg]
      rfl
  · intro he hx
    have hg := guard_of_trip g issued he hx
    refine ⟨?_, ?_, ?_, ?_, ?_, ?_, ?_⟩
    · intro owner repo opts
      rw [gitHubAPI.ListBranches, hg]
      rfl
    · intro owner repo opts
      rw [gitHubAPI.ListCommits, hg]
      rfl
    · intro owner repo
      rw [gitHubAPI.GetRepository, hg]
      rfl
    · intro owner repo opts
      rw [gitHubAPI.ListPullRequests, hg]
      rfl
    · intro owner repo ref
      rw [gitHubAPI.DeleteRef, hg]
      rfl
    · rw [gitHubAPI.RateLimits, hg]
      rfl
    · intro c next
      have hc := (call_spec g c issued).1 (by rw [hg])
      rw [gitHubAPI.exec, hc, hg]

theorem demo_status_ample :
    isRateLimitExceeded (Result.ok (⟨⟨5000, 4000⟩⟩, ⟨0⟩)) = false := by
  unfold isRateLimitExceeded
  exact ratio_of_gt 5000 4000 (by norm_num) (by norm_num) (by norm_num) (by norm_num)

theorem demo_status_low : isRateLimitExceeded (Result.ok (⟨⟨100, 3⟩⟩, ⟨0⟩)) = true := by
  unfold isRateLimitExceeded
  exact ratio_of_le 100 3 (by norm_num) (by norm_num) (by norm_num) (by norm_num)

theorem rate_guard_halts_before_call_witness :
    demoGuarded.GetRepository "octo".toList "repo".toList [] =
      (Outcome.ret (Result.ok (⟨"main".toList⟩, ⟨0⟩)),
        [Call.RateLimits, Call.GetRepository "octo".toList "repo".toList]) ∧
    demoGuarded.DeleteRef "octo".toList "repo".toList "refs/heads/release-v1".toList
        [Call.RateLimits, Call.GetRepository "octo".toList "repo".toList] =
      (Outcome.exit 0,
        [Call.RateLimits, Call.GetRepository "octo".toList "repo".toList, Call.RateLimits]) ∧
    demoGuarded.exec demoProcess [] =
      (some 0,
        [Call.RateLimits, Call.GetRepository "octo".toList "repo".toList, Call.RateLimits]) := by
  have pass := (rate_guard_halts_before_call demoGuarded []).1 (Or.inr demo_status_ample)
    [Call.RateLimits] rfl
  have trip := (rate_guard_halts_before_call demoGuarded
    [Call.RateLimits, Call.GetRepository "octo".toList "repo".toList]).2.1 rfl demo_status_low
  refine ⟨pass.2.2.1 _ _, trip.2.2.2.2.1 _ _ _, ?_⟩
  exact (pass.2.2.2.2.2.2.2.2.1 "octo".toList "repo".toList _).trans (trip.2.2.2.2.2.2 _ _)

end CleanupStaleBranches
